import Mathlib

/-!
A verification development for the `gf2` crate: dense linear algebra over GF(2)
with bit-vectors, bit-matrices and bit-polynomials packed into machine words.

The development embeds the Rust source shallowly in Lean:

* machine words of width `W` are natural numbers below `2 ^ W`; Rust's
  `unbounded_shl`/`unbounded_shr` and the bit-twiddling helpers of the
  `Unsigned` trait (`src/unsigned.rs`) become functions on `Nat`;
* a `BitVec<Word>` (`src/vec.rs`) becomes the structure `BV W` holding the
  logical bit length and the list of backing words, with the `BitStore`
  trait's default methods (`src/store.rs`) translated over it;
* bit-polynomials (`src/polynomial.rs`) wrap a `BV`;
* the row-level algorithms (Gaussian elimination, LU, Danilevsky companions)
  access their rows only through `get` / `set` / whole-row xor / swaps, and are
  embedded over rows represented by their bit sequences.
-/

namespace GF2

/-- Rust `usize::BITS` on the host platform (64-bit). -/
def usizeBits : Nat := 64

/-- `Unsigned::MAX` for a `W`-bit word: `2 ^ W - 1`. -/
def wmax (W : Nat) : Nat := 2 ^ W - 1

/-- Plain Rust `<<` on a `W`-bit word (result truncated to the word width). -/
def shlw (W x s : Nat) : Nat := (x <<< s) % 2 ^ W

/-- Rust `unbounded_shl`: a shift by the full width or more yields zero.
For values below `2 ^ W` this is the same truncated shift as `shlw`. -/
def ushl (W x s : Nat) : Nat := (x <<< s) % 2 ^ W

/-- Rust `>>` / `unbounded_shr` on an unsigned word (for operands `< 2 ^ W`
a shift by `W` or more already yields zero, so one definition serves both). -/
def ushr (x s : Nat) : Nat := x >>> s

/-- Rust `!` (bitwise complement) on a `W`-bit word. -/
def wnot (W x : Nat) : Nat := wmax W ^^^ x

/-- Wrapping subtraction on `usize` (release-mode Rust semantics of `a - b`). -/
def usizeSub (a b : Nat) : Nat := (a + 2 ^ usizeBits - b % 2 ^ usizeBits) % 2 ^ usizeBits

/-- `Unsigned::with_set_bits(start..end)` from `src/unsigned.rs`:
`MAX.unbounded_shl(start) & MAX.unbounded_shr(BITS - end)`. -/
def withSetBits (W start stop : Nat) : Nat := ushl W (wmax W) start &&& ushr (wmax W) (W - stop)

/-- `Unsigned::replace_bits(start..end, with)` from `src/unsigned.rs`. -/
def replaceBits (W u start stop w : Nat) : Nat :=
  let withMask := withSetBits W start stop
  (u &&& wnot W withMask) ||| (w &&& withMask)

/-- Number of one bits of a `W`-bit machine word (Rust `count_ones`). -/
def popCount (W x : Nat) : Nat := ((List.range W).filter (fun k => x.testBit k)).length

/-- `Unsigned::words_needed(n_bits)` from `src/unsigned.rs`: `n_bits.div_ceil(UBITS)`. -/
def wordsNeeded (W n : Nat) : Nat := (n + (W - 1)) / W

/-- `Unsigned::lowest_set_bit` of a `W`-bit word: the position of the least
significant set bit, or `none` when the word is zero. -/
def lowestSetBit (W x : Nat) : Option Nat := (List.range W).find? (fun k => x.testBit k)

/-- `Unsigned::highest_set_bit` of a `W`-bit word: the position of the most
significant set bit, or `none` when the word is zero. -/
def highestSetBit (W x : Nat) : Option Nat := (List.range W).reverse.find? (fun k => x.testBit k)

/-- Trailing zero count of a `W`-bit word (Rust `trailing_zeros`; `W` at zero). -/
def wordTrailingZeros (W x : Nat) : Nat := (lowestSetBit W x).getD W

/-- Leading zero count of a `W`-bit word (Rust `leading_zeros`; `W` at zero). -/
def wordLeadingZeros (W x : Nat) : Nat :=
  match highestSetBit W x with
  | some k => W - 1 - k
  | none => W

/-! ## The packed bit-vector `BitVec<Word>` (`src/vec.rs`) -/

/-- The owning bit-vector: a logical bit length plus the backing words
(`BitVec { m_len, m_store }` from `src/vec.rs`). -/
structure BV (W : Nat) where
  len : Nat
  store : List Nat
deriving DecidableEq, Repr

namespace BV

variable {W : Nat}

/-- `BitVec::words`: the number of backing words. -/
def words (v : BV W) : Nat := v.store.length

/-- `BitVec::word(i)`: the `i`-th backing word. -/
def word (v : BV W) (i : Nat) : Nat := v.store.getD i 0

/-- `BitVec::set_word(i, w)` from `src/vec.rs`: a non-final word is written
directly; the final word is written through
`replace_bits(0..=last_offset, w)` so unused high bits stay untouched. -/
def setWord (v : BV W) (i : Nat) (w : Nat) : BV W :=
  if i < v.words - 1 then ⟨v.len, v.store.set i w⟩
  else
    let lastOffset := (v.len - 1) % W
    ⟨v.len, v.store.set i (replaceBits W (v.word i) 0 (lastOffset + 1) w)⟩

/-- `BitStore::get(i)` via `index_and_mask` (`src/store.rs`). -/
def get (v : BV W) (i : Nat) : Bool := (v.word (i / W)) &&& (1 <<< (i % W)) != 0

/-- `BitStore::set(i, val)` (`src/store.rs`): flip through `set_word` only
when the stored bit differs from the requested value. -/
def setBit (v : BV W) (i : Nat) (val : Bool) : BV W :=
  let wi := i / W
  let mask := 1 <<< (i % W)
  let w := v.word wi
  let current : Bool := (w &&& mask) != 0
  if current ≠ val then v.setWord wi (w ^^^ mask) else v

/-- `BitStore::flip(i)` (`src/store.rs`). -/
def flipBit (v : BV W) (i : Nat) : BV W :=
  let wi := i / W
  let mask := 1 <<< (i % W)
  v.setWord wi (v.word wi ^^^ mask)

/-- `BitVec::zeros(len)`. -/
def zeros (W len : Nat) : BV W := ⟨len, List.replicate (wordsNeeded W len) 0⟩

/-- `BitVec::clean` (`src/vec.rs`): zero the unused high bits of the final
backing word when the length is not a word multiple. -/
def clean (v : BV W) : BV W :=
  let shift := v.len % W
  if shift ≠ 0 then
    let mask := wnot W (shlw W (wmax W) shift)
    let idx := (v.len - 1) / W
    ⟨v.len, v.store.set idx (v.store.getD idx 0 &&& mask)⟩
  else v

/-- `BitVec::ones(len)`: all backing words at `MAX`, then `clean`. -/
def ones (W len : Nat) : BV W :=
  clean ⟨len, List.replicate (wordsNeeded W len) (wmax W)⟩

/-- `Vec::resize` on the backing words (truncate or zero-extend). -/
def listResize (l : List Nat) (n : Nat) : List Nat :=
  l.take n ++ List.replicate (n - l.length) 0

/-- `BitVec::resize(new_len)` (`src/vec.rs`): resize the backing store,
update the length, and `clean` after a shrink. -/
def resize (v : BV W) (newLen : Nat) : BV W :=
  if newLen ≠ v.len then
    let v' : BV W := ⟨newLen, listResize v.store (wordsNeeded W newLen)⟩
    if newLen < v.len then v'.clean else v'
  else v

/-- `BitVec::push(val)` (`src/vec.rs`). -/
def push (v : BV W) (val : Bool) : BV W :=
  let v' := v.resize (v.len + 1)
  if val then v'.setBit (v'.len - 1) true else v'

/-- `BitVec::pop` (`src/vec.rs`). -/
def pop (v : BV W) : BV W × Option Bool :=
  if v.len = 0 then (v, none)
  else (v.resize (v.len - 1), some (v.get (v.len - 1)))

/-- `BitStore::count_ones` (`src/store.rs`): sum the word popcounts. -/
def countOnes (v : BV W) : Nat :=
  (List.range v.words).foldl (fun acc i => acc + popCount W (v.word i)) 0

/-- `BitStore::any` (`src/store.rs`). -/
def anySet (v : BV W) : Bool := (List.range v.words).any (fun i => v.word i != 0)

/-- `BitStore::none` (`src/store.rs`). -/
def noneSet (v : BV W) : Bool := !v.anySet

/-- `BitStore::all` (`src/store.rs`): every non-final word must equal `MAX`,
and the final word must equal `MAX.unbounded_shr(UBITS - len % UBITS)`. -/
def allSet (v : BV W) : Bool :=
  if v.len = 0 then true
  else
    let fullOK := (List.range (v.words - 1)).all (fun i => v.word i == wmax W)
    let unused := W - v.len % W
    let lastWordMax := ushr (wmax W) unused
    fullOK && (v.word (v.words - 1) == lastWordMax)

/-- `BitStore::first_set` (`src/store.rs`): scan words for the lowest set bit. -/
def firstSet (v : BV W) : Option Nat :=
  (List.range v.words).foldl
    (fun acc i => acc <|> (lowestSetBit W (v.word i)).map (fun loc => i * W + loc)) none

/-- `BitStore::last_set` (`src/store.rs`): scan words backwards for the
highest set bit. -/
def lastSet (v : BV W) : Option Nat :=
  (List.range v.words).reverse.foldl
    (fun acc i => acc <|> (highestSetBit W (v.word i)).map (fun loc => i * W + loc)) none

/-- `BitStore::trailing_zeros` (`src/store.rs`): scan words backwards; the
final word's unused bit count is subtracted with `usize` wrapping arithmetic. -/
def trailingZeros (v : BV W) : Nat :=
  if v.len = 0 then 0
  else
    let lastWord := v.words - 1
    let unused := W - v.len % W
    match (List.range (lastWord + 1)).reverse.find? (fun i => v.word i != 0) with
    | some i => usizeSub ((lastWord - i) * W + wordLeadingZeros W (v.word i)) unused
    | none => v.len

end BV

/-! ## Bit-polynomials `BitPolynomial<Word>` (`src/polynomial.rs`) -/

/-- `BitPolynomial` (`src/polynomial.rs`): a bit-vector of coefficients,
index `k` holding the coefficient of `x^k`; storage may be non-monic
(trailing zero coefficients are allowed). -/
structure BPoly (W : Nat) where
  coeffs : BV W
deriving DecidableEq, Repr

namespace BPoly

variable {W : Nat}

/-- `BitPolynomial::len`: the number of stored coefficients. -/
def len (p : BPoly W) : Nat := p.coeffs.len

/-- `BitPolynomial::degree`: `coeffs.last_set().unwrap_or(0)`. -/
def degree (p : BPoly W) : Nat := (p.coeffs.lastSet).getD 0

/-- `BitPolynomial::is_zero`: `coeffs.none()`. -/
def isZero (p : BPoly W) : Bool := p.coeffs.noneSet

/-- `BitPolynomial::is_monic`: `coeffs.trailing_zeros() == 0`. -/
def isMonic (p : BPoly W) : Bool := p.coeffs.trailingZeros == 0

/-- `BitPolynomial::coeff(i)`. -/
def coeff (p : BPoly W) (i : Nat) : Bool := p.coeffs.get i

/-- `BitPolynomial::one()`: the constant polynomial 1. -/
def one (W : Nat) : BPoly W := ⟨BV.ones W 1⟩

/-- `BitPolynomial::x_to_the(n)`: `x^n` stored in `n + 1` coefficients. -/
def xToThe (W n : Nat) : BPoly W := ⟨(BV.zeros W (n + 1)).setBit n true⟩

/-- `BitPolynomial::from_coefficients`: wrap a coefficient bit-vector,
which may be non-monic. -/
def fromCoefficients (c : BV W) : BPoly W := ⟨c⟩

/-- `BitPolynomial::plus_eq` (`src/polynomial.rs`): after the zero edge
cases, resize if needed, then XOR word by word — but only over
`monic_words`, which is `0` whenever `rhs` is not monic. -/
def plusEq (p q : BPoly W) : BPoly W :=
  if q.isZero then p
  else if p.isZero then ⟨q.coeffs⟩
  else
    let p := if p.len < q.degree + 1 then (⟨p.coeffs.resize (q.degree + 1)⟩ : BPoly W) else p
    let monicWords := if q.isMonic then q.degree / W + 1 else 0
    (List.range monicWords).foldl
      (fun (acc : BPoly W) i => ⟨acc.coeffs.setWord i (q.coeffs.word i ^^^ acc.coeffs.word i)⟩) p

end BPoly

/-! ## The companion-matrix characteristic polynomial (`src/matrix.rs`) -/

/-- `BitMatrix::characteristic_polynomial_companion_matrix(top_row)`
(`src/matrix.rs`): start from `n + 1` one-coefficients, then write the top
row in reverse order into slots `0 .. n-1` (`coeffs.set(n - j - 1, top_row[j])`). -/
def charPolyCompanionMatrix {W : Nat} (topRow : BV W) : BPoly W :=
  let n := topRow.len
  let coeffs := (List.range n).foldl
    (fun (acc : BV W) j => acc.setBit (n - j - 1) (topRow.get j)) (BV.ones W (n + 1))
  BPoly.fromCoefficients coeffs

/-! ## Claim C7: `all()` at lengths that are exact word multiples -/

/-- C7: the claim says `all()` returns `true` iff every one of the `L` bits is
set, in particular also when `L` is an exact multiple of the word width `W`.
The code computes `unused_bits = W - L % W`, which is `W` when `W ∣ L`, so the
final word is compared against `MAX.unbounded_shr(W) = 0`: an all-ones store of
length `W` fails the test while an all-zeros store of length `W` passes it,
contradicting the method's own documentation and the claim. (At a length that
is not a word multiple, such as 12 with `W = 8`, the method answers correctly.) -/
theorem C7_all_full_word_bug :
    (BV.ones 8 8).countOnes = (BV.ones 8 8).len ∧ (BV.ones 8 8).allSet = false ∧
    (BV.zeros 8 8).countOnes = 0 ∧ (BV.zeros 8 8).len = 8 ∧ (BV.zeros 8 8).allSet = true ∧
    (BV.ones 8 12).allSet = true ∧ (BV.zeros 8 12).allSet = false := by decide

/-! ## Claim C8: `plus_eq` on non-monic operands -/

/-- C8: the claim says `p.plus_eq(&q)` XORs the coefficient sequences for all
polynomials `p`, `q`, regardless of whether their storage is monic. The code
computes `monic_words = 0` whenever `rhs` is not monic (has trailing zero
coefficients in storage), so the XOR loop runs zero times and a non-zero `q`
adds nothing. At `p = 1` (storage `[1]`) and `q = 1` stored with one trailing
zero coefficient (bit-vector "10"), the claim demands coefficient 0 of the sum
to be `1 XOR 1 = 0`, but the code leaves `p` unchanged with coefficient 0 = 1. -/
theorem C8_plus_eq_nonmonic_bug :
    ((BPoly.one 8).coeff 0 = true) ∧
    ((BPoly.fromCoefficients (⟨2, [1]⟩ : BV 8)).isZero = false) ∧
    ((BPoly.fromCoefficients (⟨2, [1]⟩ : BV 8)).coeff 0 = true) ∧
    (((BPoly.one 8).plusEq (BPoly.fromCoefficients (⟨2, [1]⟩ : BV 8))).coeff 0 = true) := by
  decide

/-! ## Bit-matrices at row level (`src/matrix.rs`)

A `BitMatrix` owns a vector of rows; the elimination algorithms (`src/lu.rs`,
`src/gauss.rs`, the echelon methods of `src/matrix.rs`) access those rows only
through single-bit reads/writes, whole-row XOR, row swaps and row push/pop, so
the rows are embedded by their bit sequences (`List Bool`). -/

/-- A bit-matrix as its list of rows (`BitMatrix { m_rows }`). -/
abbrev Mat : Type := List (List Bool)

namespace Mat

/-- `BitMatrix::rows`. -/
def rows (M : Mat) : Nat := M.length

/-- `BitMatrix::cols`: the common row length (`0` for an empty matrix). -/
def cols (M : Mat) : Nat := (M.headD []).length

/-- `BitMatrix::get(r, c)`. -/
def mget (M : Mat) (i j : Nat) : Bool := (M.getD i []).getD j false

/-- `BitMatrix::set(r, c, val)`. -/
def mset (M : Mat) (i j : Nat) (v : Bool) : Mat := M.set i ((M.getD i []).set j v)

/-- `BitMatrix::swap_rows(i0, i1)` (`Vec::swap` on the row vector). -/
def swapRows (M : Mat) (i j : Nat) : Mat :=
  let ri := M.getD i []
  let rj := M.getD j []
  (M.set i rj).set j ri

/-- `BitStore::dot` of two rows: the parity of the positionwise AND. -/
def dotRow (u v : List Bool) : Bool := (List.zipWith and u v).foldl xor false

/-- `BitMatrix::col(j)`: materialize column `j`. -/
def colOf (M : Mat) (j : Nat) : List Bool := M.map (fun row => row.getD j false)

/-- `BitMatrix::dot_matrix` (`src/matrix.rs`): entry `(i, j)` is
`row(i) · col(j)`. -/
def dotMatrix (M N : Mat) : Mat :=
  (List.range M.rows).map (fun i => (List.range N.cols).map (fun j => dotRow (M.getD i []) (colOf N j)))

/-- `BitMatrix::unit_lower` (`src/matrix.rs`): `lower()` (zero out each row
past its diagonal slot) followed by `set_diagonal(true)`. -/
def unitLower (M : Mat) : Mat :=
  M.mapIdx (fun i row => row.mapIdx (fun j b => if j > i then false else if j = i then true else b))

/-- `BitMatrix::upper` (`src/matrix.rs`): zero out each row before its
diagonal slot. -/
def upper (M : Mat) : Mat :=
  M.mapIdx (fun i row => row.mapIdx (fun j b => if j < i then false else b))

/-- `BitMatrix::identity(n)`. -/
def identity (n : Nat) : Mat :=
  (List.range n).map (fun i => (List.range n).map (fun j => decide (i = j)))

end Mat

/-! ## The LU decomposition `BitLU` (`src/lu.rs`) -/

/-- The state held by `BitLU`: the packed `LU` matrix, the LAPACK-style
`swaps` vector, and the rank. -/
structure LUState where
  LU : Mat
  swaps : List Nat
  rank : Nat

namespace LUState

/-- The pivot search of `BitLU::new`: the first `p` in `[j, R)` with
`LU[p][j]` set, else `R`. -/
def pivotFrom (LU : Mat) (R j : Nat) : Nat :=
  (((List.range R).drop j).find? (fun p => Mat.mget LU p j)).getD R

/-- One column step `j` of `BitLU::new` (`src/lu.rs`): record `swaps[j] = j`,
search for a pivot, either decrement the rank, or swap the pivot row up and
clear the column below it over columns `j+1 .. C`. -/
def luStep (R C : Nat) (st : LUState) (j : Nat) : LUState :=
  let st := { st with swaps := st.swaps.set j j }
  let p := pivotFrom st.LU R j
  if p = R then { st with rank := st.rank - 1 }
  else
    let st :=
      if p ≠ j then { st with LU := Mat.swapRows st.LU p j, swaps := st.swaps.set j p } else st
    let LU := (List.range' (j + 1) (R - (j + 1))).foldl
      (fun LU i =>
        if Mat.mget LU i j then
          (List.range' (j + 1) (C - (j + 1))).foldl
            (fun LU k => Mat.mset LU i k (xor (Mat.mget LU i k) (Mat.mget LU j k))) LU
        else LU) st.LU
    { st with LU := LU }

/-- `BitLU::new(A)` for a square matrix `A`. -/
def luNew (A : Mat) : LUState :=
  let R := A.rows
  (List.range R).foldl (luStep R A.cols) ⟨A, List.replicate R 0, R⟩

/-- `BitLU::permute_matrix(B)` (`src/lu.rs`): replay the swaps left to right. -/
def permuteMatrix (swaps : List Nat) (B : Mat) : Mat :=
  (List.range B.rows).foldl (fun B i => Mat.swapRows B i (swaps.getD i 0)) B

end LUState

/-! ## Row-echelon reduction (`src/matrix.rs`) and the Gauss solver (`src/gauss.rs`) -/

namespace Mat

/-- `BitStore::first_set` of a row: the index of the first set bit. -/
def firstSetRow : List Bool → Option Nat
  | [] => none
  | b :: l => if b then some 0 else (firstSetRow l).map (fun i => i + 1)

/-- `BitStore::xor_eq` of two equal-length rows. -/
def xorRow (u v : List Bool) : List Bool := List.zipWith xor u v

/-- One column step of `BitMatrix::to_echelon_form` (`src/matrix.rs`): scan
rows `r ..` of column `j` for a pivot; if found, mark the column, swap the
pivot row up to row `r`, XOR row `r` into every lower row with a set bit in
column `j`, and advance `r`. -/
def echelonStep (numRows : Nat) (st : Mat × Nat × List Bool) (j : Nat) :
    Mat × Nat × List Bool :=
  let M := st.1
  let r := st.2.1
  let piv := st.2.2
  let p := ((((List.range numRows).drop r).find? (fun p => mget M p j))).getD numRows
  if p < numRows then
    let piv := piv.set j true
    let M := if p ≠ r then swapRows M p r else M
    let rowR := M.getD r []
    let M := (List.range' (r + 1) (numRows - (r + 1))).foldl
      (fun M i => if mget M i j then M.set i (xorRow (M.getD i []) rowR) else M) M
    (M, r + 1, piv)
  else (M, r, piv)

/-- `BitMatrix::to_echelon_form` (`src/matrix.rs`): returns the reduced
matrix together with the pivot-column marker vector. -/
def toEchelonForm (M : Mat) : Mat × List Bool :=
  let numRows := M.rows
  let res := (List.range M.cols).foldl (echelonStep numRows)
    (M, 0, List.replicate M.cols false)
  (res.1, res.2.2)

/-- `BitMatrix::to_reduced_echelon_form` (`src/matrix.rs`): echelon form,
then from the bottom up XOR each pivot row into the rows above it that still
have a set bit in its pivot column. -/
def toReducedEchelonForm (M : Mat) : Mat × List Bool :=
  let res := toEchelonForm M
  let M := (List.range res.1.rows).reverse.foldl
    (fun M r =>
      match firstSetRow (M.getD r []) with
      | some p =>
        let rowR := M.getD r []
        (List.range r).foldl
          (fun M i => if mget M i p then M.set i (xorRow (M.getD i []) rowR) else M) M
      | none => M) res.1
  (M, res.2)

/-- `BitMatrix::dot` with a vector (`src/matrix.rs`): entry `i` is
`row(i) · v`. -/
def matVec (A : Mat) (x : List Bool) : List Bool := A.map (fun row => dotRow row x)

end Mat

/-- The state held by `BitGauss` (`src/gauss.rs`). -/
structure GaussState where
  Aref : Mat
  bref : List Bool
  rank : Nat
  free : List Nat
  solutionCount : Nat
deriving DecidableEq, Repr

namespace GaussState

open Mat

/-- `BitGauss::new(A, b)` (`src/gauss.rs`): augment `A` with `b` as an extra
column, reduce, detach the last column and last pivot bit, count the rank,
collect the free columns, check consistency of the zero rows, and cap the
solution count at the largest power of two fitting a `usize`. -/
def gaussNew (A : Mat) (b : List Bool) : GaussState :=
  let Aaug := A.mapIdx (fun i row => row ++ [b.getD i false])
  let res := toReducedEchelonForm Aaug
  let M := res.1
  let bref := M.map (fun row => row.getD (row.length - 1) false)
  let Aref := M.map (fun row => row.dropLast)
  let hasPivot := res.2.dropLast
  let rank := (hasPivot.filter id).length
  let free := (List.range hasPivot.length).filter (fun j => !(hasPivot.getD j false))
  let consistent := (List.range' rank (Aref.length - rank)).all (fun i => !(bref.getD i false))
  let solutionCount := if consistent then 1 <<< (min free.length (usizeBits - 1)) else 0
  ⟨Aref, bref, rank, free, solutionCount⟩

/-- `BitGauss::is_consistent`. -/
def isConsistent (s : GaussState) : Bool := s.solutionCount > 0

/-- `BitGauss::back_substitute_into` (`src/gauss.rs`): from row `rank - 1`
down to row 0, write `b_ref[r]` into the leading slot of the row and XOR in
the later slots with set coefficients. The `none` branch mirrors the
`first_set().unwrap()` call, which cannot fire for states built by
`gaussNew` (rows below `rank` are the zero rows). -/
def backSubstitute (s : GaussState) (x : List Bool) : List Bool :=
  (List.range s.rank).reverse.foldl
    (fun x r =>
      match firstSetRow (s.Aref.getD r []) with
      | none => x
      | some j =>
        let x := x.set j (s.bref.getD r false)
        (List.range' (j + 1) (x.length - (j + 1))).foldl
          (fun x k => if mget s.Aref r k then x.set j (xor (x.getD j false) (x.getD k false)) else x)
          x) x

/-- `BitGauss::x()` (`src/gauss.rs`), with the random starting vector passed
in explicitly (shallow embedding of the PRNG draw). -/
def xRand (s : GaussState) (rand : List Bool) : Option (List Bool) :=
  if !s.isConsistent then none
  else some (backSubstitute s rand)

/-- `BitGauss::xi(i)` (`src/gauss.rs`): reject an inconsistent system or an
index above `solution_count`, write the binary digits of `i` into the free
slots of a zero vector, and back-substitute. -/
def xi (s : GaussState) (i : Nat) : Option (List Bool) :=
  if !s.isConsistent then none
  else if i > s.solutionCount then none
  else
    let x := List.replicate s.bref.length false
    let fin := (List.range s.free.length).foldl
      (fun (st : List Bool × Nat) f => (st.1.set (s.free.getD f 0) (st.2 &&& 1 != 0), st.2 >>> 1))
      (x, i)
    some (backSubstitute s fin.1)

end GaussState

/-! ## Generic fold, list and GF(2) bridging lemmas -/

theorem foldl_invariant {α β : Type*} {P : β → Prop} (f : β → α → β) :
    ∀ (l : List α) (init : β), P init → (∀ b a, P b → a ∈ l → P (f b a)) →
    P (l.foldl f init)
  | [], _, h0, _ => h0
  | a :: l, init, h0, hstep => by
    refine foldl_invariant f l (f init a) (hstep init a h0 (by simp)) ?_
    exact fun b a' hb ha' => hstep b a' hb (by simp [ha'])

theorem getD_set_eq {α : Type*} (l : List α) (i : Nat) (a d : α) (h : i < l.length) :
    (l.set i a).getD i d = a := by
  simp [List.getD_eq_getElem?_getD, List.getElem?_set_self h]

theorem getD_set_ne {α : Type*} (l : List α) {i j : Nat} (a : α) (d : α) (h : i ≠ j) :
    (l.set i a).getD j d = l.getD j d := by
  simp [List.getD_eq_getElem?_getD, List.getElem?_set_ne h]

theorem getD_append_left {α : Type*} (l r : List α) (i : Nat) (d : α) (h : i < l.length) :
    (l ++ r).getD i d = l.getD i d := by
  simp [List.getD_eq_getElem?_getD, List.getElem?_append, h]

/-- The image of `Bool` in `ZMod 2`. -/
def b2z (b : Bool) : ZMod 2 := if b then 1 else 0

theorem b2z_xor (a b : Bool) : b2z (xor a b) = b2z a + b2z b := by
  cases a <;> cases b <;> decide

theorem b2z_and (a b : Bool) : b2z (a && b) = b2z a * b2z b := by
  cases a <;> cases b <;> decide

theorem b2z_inj {a b : Bool} (h : b2z a = b2z b) : a = b := by
  cases a <;> cases b <;> first | rfl | exact absurd h (by decide)

theorem b2z_false : b2z false = 0 := rfl

theorem b2z_true : b2z true = 1 := rfl

theorem foldl_xor_init (l : List Bool) (i : Bool) : l.foldl xor i = xor i (l.foldl xor false) := by
  induction l generalizing i with
  | nil => simp
  | cons a l ih =>
    simp only [List.foldl_cons]
    rw [ih (xor i a), ih (xor false a)]
    cases i <;> cases a <;> simp

theorem b2z_foldl_xor (l : List Bool) : b2z (l.foldl xor false) = (l.map b2z).sum := by
  induction l with
  | nil => simp [b2z]
  | cons a l ih =>
    simp only [List.foldl_cons, List.map_cons, List.sum_cons]
    rw [foldl_xor_init, b2z_xor, ih]
    cases a <;> simp [b2z]

/-- `dotRow` is the `ZMod 2` inner product over the common index range. -/
theorem b2z_dotRow (u v : List Bool) :
    b2z (Mat.dotRow u v) =
      ∑ c ∈ Finset.range (min u.length v.length), b2z (u.getD c false) * b2z (v.getD c false) := by
  unfold Mat.dotRow
  rw [b2z_foldl_xor]
  induction u generalizing v with
  | nil => simp
  | cons a u ih =>
    cases v with
    | nil => simp
    | cons b v =>
      simp only [List.zipWith_cons_cons, List.map_cons, List.sum_cons, List.length_cons]
      rw [ih v, b2z_and, Nat.succ_min_succ, Finset.sum_range_succ']
      simp only [List.getD_cons_succ, List.getD_cons_zero]
      ring

/-- `firstSetRow` characterised through `getD`. -/
theorem firstSetRow_eq_some_iff (l : List Bool) (c : Nat) :
    Mat.firstSetRow l = some c ↔
      c < l.length ∧ l.getD c false = true ∧ ∀ t < c, l.getD t false = false := by
  induction l generalizing c with
  | nil => simp [Mat.firstSetRow]
  | cons a l ih =>
    cases a with
    | true =>
      simp only [Mat.firstSetRow, if_pos rfl]
      constructor
      · rintro h
        injection h with h
        subst h
        exact ⟨by simp, rfl, fun t ht => absurd ht (Nat.not_lt_zero t)⟩
      · rintro ⟨_, hget, hlow⟩
        cases c with
        | zero => rfl
        | succ c => exact absurd (hlow 0 (Nat.succ_pos c)) (by simp)
    | false =>
      simp only [Mat.firstSetRow, Bool.false_eq_true, if_false, Option.map_eq_some']
      constructor
      · rintro ⟨k, hk, rfl⟩
        obtain ⟨h1, h2, h3⟩ := (ih k).mp hk
        refine ⟨by simpa using Nat.succ_lt_succ h1, by simpa using h2, ?_⟩
        intro t ht
        cases t with
        | zero => rfl
        | succ t => simpa using h3 t (by omega)
      · rintro ⟨h1, h2, h3⟩
        cases c with
        | zero => simp at h2
        | succ c =>
          refine ⟨c, (ih c).mpr ⟨by simpa using h1, by simpa using h2, ?_⟩, rfl⟩
          intro t ht
          simpa using h3 (t + 1) (by omega)

/-- `firstSetRow` is `none` exactly on all-zero rows. -/
theorem firstSetRow_eq_none_iff (l : List Bool) :
    Mat.firstSetRow l = none ↔ ∀ t, l.getD t false = false := by
  induction l with
  | nil => simp [Mat.firstSetRow]
  | cons a l ih =>
    cases a with
    | true =>
      simp only [Mat.firstSetRow, if_pos rfl]
      constructor
      · intro h
        cases h
      · intro h
        exact absurd (h 0) (by simp)
    | false =>
      simp only [Mat.firstSetRow, Bool.false_eq_true, if_false, Option.map_eq_none']
      rw [ih]
      constructor
      · intro h t
        cases t with
        | zero => rfl
        | succ t => simpa using h t
      · intro h t
        simpa using h (t + 1)

/-! ## Correctness development for the echelon reduction -/

namespace GaussProof

open Mat

/-- Shape of a list-of-rows matrix: `R` rows of common length `C`. -/
def Shape (R C : Nat) (M : Mat) : Prop := M.length = R ∧ ∀ row ∈ M, row.length = C

theorem Shape.row_len {R C : Nat} {M : Mat} (h : Shape R C M) (i : Nat) :
    (M.getD i []).length = C ∨ M.getD i [] = [] := by
  by_cases hi : i < M.length
  · left
    refine h.2 _ ?_
    rw [List.getD_eq_getElem?_getD, List.getElem?_eq_getElem hi]
    exact List.getElem_mem hi
  · right
    rw [List.getD_eq_getElem?_getD, List.getElem?_eq_none (by omega)]
    rfl

theorem Shape.row_len_of_lt {R C : Nat} {M : Mat} (h : Shape R C M) {i : Nat} (hi : i < R) :
    (M.getD i []).length = C := by
  have hi' : i < M.length := h.1 ▸ hi
  refine h.2 _ ?_
  rw [List.getD_eq_getElem?_getD, List.getElem?_eq_getElem hi']
  exact List.getElem_mem hi'

theorem Shape.set {R C : Nat} {M : Mat} (h : Shape R C M) {row : List Bool}
    (hrow : row.length = C) (i : Nat) : Shape R C (M.set i row) := by
  refine ⟨by simpa using h.1, fun r hr => ?_⟩
  rcases List.mem_or_eq_of_mem_set hr with h' | rfl
  · exact h.2 _ h'
  · exact hrow

theorem length_swapRows (M : Mat) (i j : Nat) : (swapRows M i j).length = M.length := by
  simp [swapRows]

theorem getD_swapRows (M : Mat) {i j : Nat} (hi : i < M.length) (hj : j < M.length) (t : Nat) :
    (swapRows M i j).getD t [] =
      if t = j then M.getD i [] else if t = i then M.getD j [] else M.getD t [] := by
  unfold swapRows
  by_cases htj : t = j
  · subst htj
    rw [if_pos rfl, getD_set_eq _ _ _ _ (by simpa using hj)]
  · rw [if_neg htj, getD_set_ne _ _ _ (fun h => htj h.symm)]
    by_cases hti : t = i
    · subst hti
      rw [if_pos rfl, getD_set_eq _ _ _ _ hi]
    · rw [if_neg hti, getD_set_ne _ _ _ (fun h => hti h.symm)]

theorem Shape.swapRows {R C : Nat} {M : Mat} (h : Shape R C M) {i j : Nat}
    (hi : i < R) (hj : j < R) : Shape R C (Mat.swapRows M i j) := by
  have hi' : i < M.length := h.1 ▸ hi
  have hj' : j < M.length := h.1 ▸ hj
  have h1 := h.set (h.row_len_of_lt hj) i
  have h2 := @Shape.set R C _ h1 (M.getD i []) (h.row_len_of_lt hi) j
  exact h2

/-- The GF(2) defect of one augmented row against `x`: zero iff the row's
equation is satisfied. -/
def Qrow (x row : List Bool) : ZMod 2 :=
  b2z (Mat.dotRow row.dropLast x) + b2z (row.getD (row.length - 1) false)

/-- One row of an augmented system is satisfied by `x`: the dot product of
the coefficient part with `x` equals the final (right-hand side) entry. -/
def rowSat (x row : List Bool) : Prop :=
  Mat.dotRow row.dropLast x = row.getD (row.length - 1) false

/-- Every row of an augmented matrix is satisfied by `x` (out-of-range rows
are empty and trivially satisfied). -/
def satIdx (M : Mat) (x : List Bool) : Prop := ∀ i, rowSat x (M.getD i [])

theorem rowSat_iff_Qrow (x row : List Bool) : rowSat x row ↔ Qrow x row = 0 := by
  unfold rowSat Qrow
  cases hb : Mat.dotRow row.dropLast x <;> cases hc : row.getD (row.length - 1) false <;>
    simp [b2z]
  decide

theorem getD_zipWith_xor (u v : List Bool) (c : Nat) (hc : c < min u.length v.length) :
    (Mat.xorRow u v).getD c false = xor (u.getD c false) (v.getD c false) := by
  unfold Mat.xorRow
  have hcz : c < (List.zipWith xor u v).length := by simpa using hc
  rw [List.getD_eq_getElem?_getD, List.getElem?_eq_getElem hcz]
  rw [List.getElem_zipWith]
  rw [List.getD_eq_getElem?_getD, List.getElem?_eq_getElem (by omega : c < u.length)]
  rw [List.getD_eq_getElem?_getD, List.getElem?_eq_getElem (by omega : c < v.length)]
  rfl

theorem length_xorRow (u v : List Bool) : (Mat.xorRow u v).length = min u.length v.length := by
  simp [Mat.xorRow]

theorem getD_dropLast (u : List Bool) (c : Nat) (hc : c < u.length - 1) :
    u.dropLast.getD c false = u.getD c false := by
  have h1 : c < u.dropLast.length := by simpa using hc
  rw [List.getD_eq_getElem?_getD, List.getElem?_eq_getElem h1,
    List.getD_eq_getElem?_getD, List.getElem?_eq_getElem (by omega : c < u.length)]
  simp [List.getElem_dropLast]

/-- The dot product of a row's coefficient part with `x` as a `ZMod 2` sum. -/
theorem b2z_dotRow_dropLast (row x : List Bool) :
    b2z (Mat.dotRow row.dropLast x) =
      ∑ c ∈ Finset.range (min (row.length - 1) x.length),
        b2z (row.getD c false) * b2z (x.getD c false) := by
  rw [b2z_dotRow]
  rw [List.length_dropLast]
  refine Finset.sum_congr rfl (fun c hc => ?_)
  rw [Finset.mem_range] at hc
  rw [getD_dropLast _ _ (by omega)]

theorem Qrow_xorRow (x u v : List Bool) (hlen : u.length = v.length) (hpos : 0 < u.length) :
    Qrow x (Mat.xorRow u v) = Qrow x u + Qrow x v := by
  unfold Qrow
  have hx : (Mat.xorRow u v).length = u.length := by
    rw [length_xorRow, hlen, Nat.min_self]
  rw [b2z_dotRow_dropLast, b2z_dotRow_dropLast, b2z_dotRow_dropLast, hx, hlen]
  have hgl : (Mat.xorRow u v).getD (v.length - 1) false =
      xor (u.getD (v.length - 1) false) (v.getD (v.length - 1) false) := by
    refine getD_zipWith_xor u v _ ?_
    omega
  rw [hgl, b2z_xor]
  have hsum : ∀ c ∈ Finset.range (min (v.length - 1) x.length),
      b2z ((Mat.xorRow u v).getD c false) * b2z (x.getD c false) =
        b2z (u.getD c false) * b2z (x.getD c false) +
          b2z (v.getD c false) * b2z (x.getD c false) := by
    intro c hc
    rw [Finset.mem_range] at hc
    rw [getD_zipWith_xor u v c (by omega), b2z_xor, add_mul]
  rw [Finset.sum_congr rfl hsum, Finset.sum_add_distrib]
  ring

/-- Satisfaction migrates through adding one row into another. -/
theorem rowSat_xorRow_iff (x u v : List Bool) (hlen : u.length = v.length)
    (hpos : 0 < u.length) (hv : rowSat x v) :
    rowSat x (Mat.xorRow u v) ↔ rowSat x u := by
  rw [rowSat_iff_Qrow, rowSat_iff_Qrow, Qrow_xorRow x u v hlen hpos,
    (rowSat_iff_Qrow x v).mp hv, add_zero]

theorem satIdx_swapRows (M : Mat) (x : List Bool) {i j : Nat} (hi : i < M.length)
    (hj : j < M.length) : satIdx (Mat.swapRows M i j) x ↔ satIdx M x := by
  constructor
  · intro h t
    by_cases hti : t = i
    · have := h j
      rw [getD_swapRows M hi hj j, if_pos rfl] at this
      rwa [hti]
    · by_cases htj : t = j
      · by_cases hij : i = j
        · exact absurd (htj.trans hij.symm) hti
        · have := h i
          rw [getD_swapRows M hi hj i, if_neg hij, if_pos rfl] at this
          rwa [htj]
      · have := h t
        rwa [getD_swapRows M hi hj t, if_neg htj, if_neg hti] at this
  · intro h t
    rw [getD_swapRows M hi hj t]
    by_cases htj : t = j
    · rw [if_pos htj]
      exact h i
    · rw [if_neg htj]
      by_cases hti : t = i
      · rw [if_pos hti]
        exact h j
      · rw [if_neg hti]
        exact h t

/-- Closed form for the inner elimination fold: each listed row with a set
bit in column `j` is replaced by its XOR with the (fixed) pivot row, rows
off the list are untouched. -/
theorem elimFold_getD (rowR : List Bool) (j : Nat) (Mstart : Mat) (is : List Nat)
    (hnodup : is.Nodup) (hbound : ∀ i ∈ is, i < Mstart.length) (t : Nat) :
    ((is.foldl (fun M i => if mget M i j then M.set i (Mat.xorRow (M.getD i []) rowR) else M)
        Mstart).getD t []) =
      if t ∈ is ∧ mget Mstart t j = true then Mat.xorRow (Mstart.getD t []) rowR
      else Mstart.getD t [] := by
  induction is generalizing Mstart with
  | nil => simp
  | cons i rest ih =>
    simp only [List.foldl_cons]
    have hnd := List.nodup_cons.mp hnodup
    set M1 := if mget Mstart i j then Mstart.set i (Mat.xorRow (Mstart.getD i []) rowR)
      else Mstart with hM1
    have hlen1 : M1.length = Mstart.length := by
      rw [hM1]
      split <;> simp
    have hgetne : ∀ s, s ≠ i → M1.getD s [] = Mstart.getD s [] := by
      intro s hs
      rw [hM1]
      split
      · exact getD_set_ne _ _ _ (fun h => hs h.symm)
      · rfl
    have hmgetne : ∀ s, s ≠ i → mget M1 s j = mget Mstart s j := by
      intro s hs
      unfold mget
      rw [hgetne s hs]
    rw [ih M1 hnd.2 (fun i' hi' => by rw [hlen1]; exact hbound i' (by simp [hi']))]
    by_cases hti : t = i
    · subst hti
      rw [if_neg (fun hc => hnd.1 hc.1)]
      by_cases hm : mget Mstart t j
      · rw [if_pos ⟨List.mem_cons_self t rest, hm⟩, hM1, if_pos hm]
        exact getD_set_eq _ _ _ _ (hbound t (List.mem_cons_self t rest))
      · rw [if_neg (fun hc => hm hc.2), hM1, if_neg hm]
    · rw [hmgetne t hti, hgetne t hti]
      simp only [List.mem_cons, hti, false_or]

/-- The elimination fold preserves the matrix length. -/
theorem elimFold_length (rowR : List Bool) (j : Nat) (Mstart : Mat) (is : List Nat) :
    ((is.foldl (fun M i => if mget M i j then M.set i (Mat.xorRow (M.getD i []) rowR) else M)
        Mstart).length) = Mstart.length := by
  induction is generalizing Mstart with
  | nil => rfl
  | cons i rest ih =>
    simp only [List.foldl_cons]
    rw [ih]
    split <;> simp

/-- The elimination fold preserves the solution set, provided the pivot row
itself is off the target list. -/
theorem satIdx_elimFold (rowR : List Bool) (j r : Nat) (Mstart : Mat) (is : List Nat)
    (hnodup : is.Nodup) (hbound : ∀ i ∈ is, i < Mstart.length) (hr : Mstart.getD r [] = rowR)
    (hrnot : r ∉ is)
    (hlen : ∀ i ∈ is, (Mstart.getD i []).length = rowR.length) (hpos : 0 < rowR.length)
    (x : List Bool) :
    satIdx ((is.foldl (fun M i => if mget M i j then M.set i (Mat.xorRow (M.getD i []) rowR) else M)
        Mstart)) x ↔ satIdx Mstart x := by
  have hclosed := elimFold_getD rowR j Mstart is hnodup hbound
  constructor
  · intro h t
    have hR : rowSat x rowR := by
      have := h r
      rw [hclosed r, if_neg (fun hc => hrnot hc.1)] at this
      rwa [hr] at this
    have ht := h t
    rw [hclosed t] at ht
    by_cases hc : t ∈ is ∧ mget Mstart t j = true
    · rw [if_pos hc] at ht
      exact (rowSat_xorRow_iff x _ rowR (hlen t hc.1) (by rw [hlen t hc.1]; exact hpos) hR).mp ht
    · rwa [if_neg hc] at ht
  · intro h t
    have hR : rowSat x rowR := by
      have := h r
      rwa [hr] at this
    rw [hclosed t]
    by_cases hc : t ∈ is ∧ mget Mstart t j = true
    · rw [if_pos hc]
      exact (rowSat_xorRow_iff x _ rowR (hlen t hc.1) (by rw [hlen t hc.1]; exact hpos) hR).mpr (h t)
    · rw [if_neg hc]
      exact h t

theorem mem_drop_range {R r p : Nat} (h : p ∈ (List.range R).drop r) : r ≤ p ∧ p < R := by
  obtain ⟨k, hk, hget⟩ := List.mem_iff_getElem.mp h
  rw [List.getElem_drop, List.getElem_range] at hget
  simp only [List.length_drop, List.length_range] at hk
  omega

theorem mem_drop_range_of {R r i : Nat} (h1 : r ≤ i) (h2 : i < R) :
    i ∈ (List.range R).drop r := by
  rw [List.mem_iff_getElem]
  refine ⟨i - r, by simp only [List.length_drop, List.length_range]; omega, ?_⟩
  rw [List.getElem_drop, List.getElem_range]
  omega

theorem rowLen_of_getD {C : Nat} {M : Mat} (h : ∀ t, t < M.length → (M.getD t []).length = C) :
    ∀ row ∈ M, row.length = C := by
  intro row hrow
  obtain ⟨t, ht, rfl⟩ := List.mem_iff_getElem.mp hrow
  have := h t ht
  rwa [List.getD_eq_getElem?_getD, List.getElem?_eq_getElem ht, Option.getD_some] at this

theorem filter_length_set_true (l : List Bool) (j : Nat) (hj : j < l.length)
    (hold : l.getD j false = false) :
    ((l.set j true).filter id).length = (l.filter id).length + 1 := by
  induction l generalizing j with
  | nil => simp at hj
  | cons a l ih =>
    cases j with
    | zero =>
      simp only [List.getD_cons_zero] at hold
      subst hold
      simp [List.filter]
    | succ j =>
      simp only [List.getD_cons_succ] at hold
      simp only [List.set_cons_succ, List.filter]
      cases a <;> simp [ih j (by simpa using hj) hold]

/-- Invariant of the `to_echelon_form` column fold after processing the
first `j` columns; the state is `(M, r, piv)`. -/
structure EchInv (R C j : Nat) (M0 : Mat) (M : Mat) (r : Nat) (piv : List Bool) : Prop where
  lenM : M.length = R
  rowLen : ∀ row ∈ M, row.length = C
  hrR : r ≤ R
  hrj : r ≤ j
  pivLen : piv.length = C
  pivCount : (piv.filter id).length = r
  pivHigh : ∀ c, j ≤ c → piv.getD c false = false
  rowsFirst : ∀ i < r, ∃ c, c < j ∧ Mat.firstSetRow (M.getD i []) = some c
  mono : ∀ i i' c c', i < i' → i' < r →
    Mat.firstSetRow (M.getD i []) = some c → Mat.firstSetRow (M.getD i' []) = some c' → c < c'
  lowZero : ∀ i c, r ≤ i → c < j → (M.getD i []).getD c false = false
  pivIff : ∀ c, piv.getD c false = true ↔ ∃ i < r, Mat.firstSetRow (M.getD i []) = some c
  sol : ∀ x, satIdx M0 x ↔ satIdx M x

/-- The no-pivot branch of `echelonStep` leaves the state unchanged. -/
theorem echelonStep_none {R j : Nat} {M : Mat} {r : Nat} {piv : List Bool}
    (hfind : (((List.range R).drop r).find? (fun p => Mat.mget M p j)) = none) :
    Mat.echelonStep R (M, r, piv) j = (M, r, piv) := by
  unfold Mat.echelonStep
  simp only [hfind, Option.getD_none]
  rw [if_neg (lt_irrefl R)]

/-- The pivot branch of `echelonStep`, written out explicitly. -/
theorem echelonStep_some {R j : Nat} {M : Mat} {r : Nat} {piv : List Bool} {p : Nat}
    (hfind : (((List.range R).drop r).find? (fun p => Mat.mget M p j)) = some p)
    (hpR : p < R) :
    Mat.echelonStep R (M, r, piv) j =
      ((List.range' (r + 1) (R - (r + 1))).foldl
          (fun Mc i => if Mat.mget Mc i j then
              Mc.set i (Mat.xorRow (Mc.getD i [])
                ((if p ≠ r then Mat.swapRows M p r else M).getD r []))
            else Mc) (if p ≠ r then Mat.swapRows M p r else M),
        r + 1, piv.set j true) := by
  unfold Mat.echelonStep
  simp only [hfind, Option.getD_some]
  rw [if_pos hpR]

/-- One column step preserves the echelon invariant. -/
theorem echInv_step {R C j : Nat} {M0 M : Mat} {r : Nat} {piv : List Bool}
    (hjC : j < C) (hinv : EchInv R C j M0 M r piv) :
    EchInv R C (j + 1) M0 (Mat.echelonStep R (M, r, piv) j).1
      (Mat.echelonStep R (M, r, piv) j).2.1 (Mat.echelonStep R (M, r, piv) j).2.2 := by
  have hshape : Shape R C M := ⟨hinv.lenM, hinv.rowLen⟩
  cases hfind : (((List.range R).drop r).find? (fun p => Mat.mget M p j)) with
  | none =>
    rw [echelonStep_none hfind]
    show EchInv R C (j + 1) M0 M r piv
    have hnop : ∀ i, r ≤ i → Mat.mget M i j = false := by
      intro i hi
      by_cases hiR : i < R
      · have := List.find?_eq_none.mp hfind i (mem_drop_range_of hi hiR)
        simpa using this
      · unfold Mat.mget
        have hnil : M.getD i [] = [] := by
          rw [List.getD_eq_getElem?_getD, List.getElem?_eq_none (by rw [hinv.lenM]; omega)]
          rfl
        rw [hnil]
        rfl
    refine ⟨hinv.lenM, hinv.rowLen, hinv.hrR, by have := hinv.hrj; omega, hinv.pivLen,
      hinv.pivCount, fun c hc => hinv.pivHigh c (by omega), fun i hi => ?_, hinv.mono,
      fun i c hi hc => ?_, hinv.pivIff, hinv.sol⟩
    · obtain ⟨c, hc, h⟩ := hinv.rowsFirst i hi
      exact ⟨c, by omega, h⟩
    · rcases Nat.lt_or_ge c j with h | h
      · exact hinv.lowZero i c hi h
      · have hcj : c = j := by omega
        subst hcj
        exact hnop i hi
  | some p =>
    obtain ⟨hrp, hpR⟩ := mem_drop_range (List.mem_of_find?_eq_some hfind)
    have hpj : Mat.mget M p j = true := by
      have := List.find?_some hfind
      simpa using this
    have hrR : r < R := lt_of_le_of_lt hrp hpR
    have hCpos : 0 < C := by omega
    rw [echelonStep_some hfind hpR]
    set M1 := if p ≠ r then Mat.swapRows M p r else M with hM1def
    set rowR := M1.getD r [] with hrowRdef
    set is := List.range' (r + 1) (R - (r + 1)) with hisdef
    set M2 := is.foldl
      (fun Mc i => if Mat.mget Mc i j then Mc.set i (Mat.xorRow (Mc.getD i []) rowR) else Mc) M1
      with hM2def
    show EchInv R C (j + 1) M0 M2 (r + 1) (piv.set j true)
    have hM1len : M1.length = R := by
      rw [hM1def]
      split
      · rw [length_swapRows, hinv.lenM]
      · exact hinv.lenM
    have hM1get : ∀ t, M1.getD t [] =
        if t = r then M.getD p [] else if t = p then M.getD r [] else M.getD t [] := by
      intro t
      rw [hM1def]
      rcases eq_or_ne p r with hpr | hpr
      · rw [if_neg (fun h => h hpr)]
        subst hpr
        by_cases htp : t = p
        · rw [if_pos htp, htp]
        · rw [if_neg htp, if_neg htp]
      · rw [if_pos hpr]
        exact getD_swapRows M (hinv.lenM ▸ hpR) (hinv.lenM ▸ hrR) t
    have hrowR : rowR = M.getD p [] := by
      rw [hrowRdef, hM1get r, if_pos rfl]
    have hrowRlen : rowR.length = C := by
      rw [hrowR]
      exact hshape.row_len_of_lt hpR
    have hrowRj : rowR.getD j false = true := by
      rw [hrowR]
      exact hpj
    have hrowRlow : ∀ c, c < j → rowR.getD c false = false := by
      intro c hc
      rw [hrowR]
      exact hinv.lowZero p c hrp hc
    have hfirstRowR : Mat.firstSetRow rowR = some j := by
      rw [firstSetRow_eq_some_iff]
      exact ⟨by rw [hrowRlen]; exact hjC, hrowRj, hrowRlow⟩
    have hmem_is : ∀ i, i ∈ is ↔ r + 1 ≤ i ∧ i < R := by
      intro i
      rw [hisdef, List.mem_range'_1]
      omega
    have hM1rows_lt : ∀ t, t < r → M1.getD t [] = M.getD t [] := by
      intro t ht
      rw [hM1get t, if_neg (by omega), if_neg (by omega)]
    have hM1rowlen : ∀ t, t < R → (M1.getD t []).length = C := by
      intro t ht
      rw [hM1get t]
      split
      · exact hshape.row_len_of_lt hpR
      · split
        · exact hshape.row_len_of_lt hrR
        · exact hshape.row_len_of_lt ht
    have hM1lowZero : ∀ i c, r ≤ i → c < j → (M1.getD i []).getD c false = false := by
      intro i c hi hc
      rw [hM1get i]
      split
      · exact hinv.lowZero p c hrp hc
      · split
        · exact hinv.lowZero r c le_rfl hc
        · exact hinv.lowZero i c hi hc
    have hnodup : is.Nodup := by
      rw [hisdef]
      exact List.nodup_range' _ _
    have hbound : ∀ i ∈ is, i < M1.length := by
      intro i hi
      rw [hM1len]
      exact ((hmem_is i).mp hi).2
    have hclosed : ∀ t, M2.getD t [] =
        if t ∈ is ∧ Mat.mget M1 t j = true then Mat.xorRow (M1.getD t []) rowR
        else M1.getD t [] := by
      intro t
      rw [hM2def]
      exact elimFold_getD rowR j M1 is hnodup hbound t
    have hM2len : M2.length = R := by
      rw [hM2def, elimFold_length, hM1len]
    have hM2rows_le : ∀ t, t ≤ r → M2.getD t [] = M1.getD t [] := by
      intro t ht
      rw [hclosed t, if_neg]
      rintro ⟨hmem, _⟩
      have := (hmem_is t).mp hmem
      omega
    have hM2rows_lt : ∀ t, t < r → M2.getD t [] = M.getD t [] := by
      intro t ht
      rw [hM2rows_le t (by omega), hM1rows_lt t ht]
    have hM2rowR : M2.getD r [] = rowR := by
      rw [hM2rows_le r le_rfl, hrowRdef]
    have hM2nil : ∀ t, R ≤ t → M2.getD t [] = [] := by
      intro t ht
      rw [List.getD_eq_getElem?_getD, List.getElem?_eq_none (by rw [hM2len]; omega)]
      rfl
    have hM2rowlen : ∀ t, t < R → (M2.getD t []).length = C := by
      intro t ht
      rw [hclosed t]
      split
      · rw [length_xorRow, hM1rowlen t ht, hrowRlen, Nat.min_self]
      · exact hM1rowlen t ht
    have hM2colj : ∀ i, r < i → Mat.mget M2 i j = false := by
      intro i hi
      by_cases hiR : i < R
      · show (M2.getD i []).getD j false = false
        rw [hclosed i]
        by_cases hcond : i ∈ is ∧ Mat.mget M1 i j = true
        · rw [if_pos hcond]
          rw [getD_zipWith_xor _ _ j (by rw [hM1rowlen i hiR, hrowRlen, Nat.min_self]; exact hjC)]
          have h1 : (M1.getD i []).getD j false = true := hcond.2
          rw [h1, hrowRj]
          rfl
        · rw [if_neg hcond]
          rcases Bool.eq_false_or_eq_true (Mat.mget M1 i j) with h | h
          · exact absurd ⟨(hmem_is i).mpr ⟨by omega, hiR⟩, h⟩ hcond
          · exact h
      · show (M2.getD i []).getD j false = false
        rw [hM2nil i (by omega)]
        rfl
    have hM2low : ∀ i c, r + 1 ≤ i → c < j + 1 → (M2.getD i []).getD c false = false := by
      intro i c hi hc
      rcases Nat.lt_or_ge c j with hcj | hcj
      · by_cases hiR : i < R
        · rw [hclosed i]
          split
          · rw [getD_zipWith_xor _ _ c
              (by rw [hM1rowlen i hiR, hrowRlen, Nat.min_self]; omega)]
            rw [hM1lowZero i c (by omega) hcj, hrowRlow c hcj]
            rfl
          · exact hM1lowZero i c (by omega) hcj
        · rw [hM2nil i (by omega)]
          rfl
      · have hcj' : c = j := by omega
        subst hcj'
        exact hM2colj i (by omega)
    refine ⟨hM2len, rowLen_of_getD (fun t ht => hM2rowlen t (by rwa [hM2len] at ht)),
      by omega, by have := hinv.hrj; omega, by simpa using hinv.pivLen, ?_, ?_, ?_, ?_, hM2low,
      ?_, ?_⟩
    · rw [filter_length_set_true piv j (by rw [hinv.pivLen]; exact hjC)
        (hinv.pivHigh j le_rfl), hinv.pivCount]
    · intro c hc
      rw [getD_set_ne _ _ _ (by omega), hinv.pivHigh c (by omega)]
    · intro i hi
      rcases Nat.lt_or_ge i r with hir | hir
      · obtain ⟨c, hcj, h⟩ := hinv.rowsFirst i hir
        exact ⟨c, by omega, by rw [hM2rows_lt i hir]; exact h⟩
      · have hieq : i = r := by omega
        subst hieq
        exact ⟨j, by omega, by rw [hM2rowR]; exact hfirstRowR⟩
    · intro i i' c c' hii hi' h h'
      rcases Nat.lt_or_ge i' r with hir | hir
      · rw [hM2rows_lt i (by omega)] at h
        rw [hM2rows_lt i' hir] at h'
        exact hinv.mono i i' c c' hii hir h h'
      · have hieq : i' = r := by omega
        subst hieq
        rw [hM2rowR, hfirstRowR] at h'
        injection h' with h'
        subst h'
        rw [hM2rows_lt i hii] at h
        obtain ⟨c0, hc0, h0⟩ := hinv.rowsFirst i hii
        rw [h0] at h
        injection h with h
        omega
    · intro c
      by_cases hcj : c = j
      · subst hcj
        rw [getD_set_eq _ _ _ _ (by rw [hinv.pivLen]; exact hjC)]
        constructor
        · intro _
          exact ⟨r, by omega, by rw [hM2rowR]; exact hfirstRowR⟩
        · intro _
          rfl
      · rw [getD_set_ne _ _ _ (fun h => hcj h.symm)]
        rw [hinv.pivIff c]
        constructor
        · rintro ⟨i, hi, h⟩
          exact ⟨i, by omega, by rw [hM2rows_lt i hi]; exact h⟩
        · rintro ⟨i, hi, h⟩
          rcases Nat.lt_or_ge i r with hir | hir
          · rw [hM2rows_lt i hir] at h
            exact ⟨i, hir, h⟩
          · have hieq : i = r := by omega
            subst hieq
            rw [hM2rowR, hfirstRowR] at h
            injection h with h
            exact absurd h.symm hcj
    · intro x
      rw [hinv.sol x]
      have hstep1 : satIdx M x ↔ satIdx M1 x := by
        rw [hM1def]
        split
        · exact (satIdx_swapRows M x (hinv.lenM ▸ hpR) (hinv.lenM ▸ hrR)).symm
        · rfl
      rw [hstep1]
      rw [hM2def]
      refine (satIdx_elimFold rowR j r M1 is hnodup hbound hrowRdef.symm ?_ ?_ ?_ x).symm
      · intro hmem
        have := (hmem_is r).mp hmem
        omega
      · intro i hi
        rw [hM1rowlen i ((hmem_is i).mp hi).2, hrowRlen]
      · rw [hrowRlen]
        exact hCpos

/-- The invariant holds before the first column is processed. -/
theorem echInv_init (R C : Nat) (M0 : Mat) (hshape : Shape R C M0) :
    EchInv R C 0 M0 M0 0 (List.replicate C false) := by
  refine ⟨hshape.1, hshape.2, Nat.zero_le R, le_rfl, by simp, by simp,
    fun c _ => by simp, fun i hi => absurd hi (Nat.not_lt_zero i),
    fun i i' c c' _ hi' _ _ => absurd hi' (Nat.not_lt_zero i'),
    fun i c _ hc => absurd hc (Nat.not_lt_zero c), fun c => ?_, fun x => Iff.rfl⟩
  simp only [List.getD_eq_getElem?_getD, List.getElem?_replicate]
  constructor
  · intro h
    by_cases hc : c < C <;> simp [hc] at h
  · rintro ⟨i, hi, _⟩
    exact absurd hi (Nat.not_lt_zero i)

/-- After the whole column fold, the invariant holds at `j = C`. -/
theorem toEchelonForm_inv {R C : Nat} {M0 : Mat} (hshape : Shape R C M0) (hR : 0 < R) :
    ∃ M r piv, Mat.toEchelonForm M0 = (M, piv) ∧ EchInv R C C M0 M r piv := by
  have hrows : M0.rows = R := hshape.1
  have hcols : M0.cols = C := by
    unfold Mat.cols
    cases M0 with
    | nil => rw [Mat.rows] at hrows; simp at hrows; omega
    | cons row rest => exact hshape.2 row (by simp [List.headD])
  have key : ∀ n, n ≤ C → ∃ M r piv,
      (List.range n).foldl (Mat.echelonStep R) (M0, 0, List.replicate C false) = (M, r, piv) ∧
        EchInv R C n M0 M r piv := by
    intro n
    induction n with
    | zero => exact fun _ => ⟨M0, 0, _, rfl, echInv_init R C M0 hshape⟩
    | succ n ih =>
      intro hn
      obtain ⟨M, r, piv, heq, hinv⟩ := ih (by omega)
      have hstep := echInv_step (by omega : n < C) hinv
      exact ⟨_, _, _, by rw [List.range_succ, List.foldl_append, heq]; rfl, hstep⟩
  obtain ⟨M, r, piv, heq, hinv⟩ := key C le_rfl
  refine ⟨M, r, piv, ?_, hinv⟩
  unfold Mat.toEchelonForm
  rw [hrows, hcols]
  show (((List.range C).foldl (Mat.echelonStep R) (M0, 0, List.replicate C false)).1,
    ((List.range C).foldl (Mat.echelonStep R) (M0, 0, List.replicate C false)).2.2) = (M, piv)
  rw [heq]

/-- Adding a row with a later leading bit does not move a row's leading bit. -/
theorem firstSet_xorRow_of_lt {u v : List Bool} {pu pv : Nat}
    (hu : Mat.firstSetRow u = some pu) (hv : Mat.firstSetRow v = some pv)
    (hlt : pu < pv) (hlen : u.length = v.length) :
    Mat.firstSetRow (Mat.xorRow u v) = some pu := by
  obtain ⟨hu1, hu2, hu3⟩ := (firstSetRow_eq_some_iff u pu).mp hu
  obtain ⟨hv1, hv2, hv3⟩ := (firstSetRow_eq_some_iff v pv).mp hv
  refine (firstSetRow_eq_some_iff _ pu).mpr ⟨?_, ?_, ?_⟩
  · rw [length_xorRow, hlen, Nat.min_self]
    omega
  · rw [getD_zipWith_xor u v pu (by omega), hu2, hv3 pu hlt]
    rfl
  · intro t ht
    rw [getD_zipWith_xor u v t (by omega), hu3 t ht, hv3 t (by omega)]
    rfl

/-- The bottom-up reduced-echelon pass preserves the full invariant (the
pivot structure, the leading bits of every row, and the solution set). -/
theorem redPass_inv {R C : Nat} {M0 M : Mat} {r : Nat} {piv : List Bool}
    (hC : 0 < C) (hinv : EchInv R C C M0 M r piv) :
    EchInv R C C M0
      ((List.range M.rows).reverse.foldl
        (fun Mc rr =>
          match Mat.firstSetRow (Mc.getD rr []) with
          | some p =>
            (List.range rr).foldl
              (fun Md i => if Mat.mget Md i p then
                  Md.set i (Mat.xorRow (Md.getD i []) (Mc.getD rr [])) else Md) Mc
          | none => Mc) M) r piv := by
  refine @foldl_invariant _ _ (fun Mc => EchInv R C C M0 Mc r piv) _ _ M hinv ?_
  intro Mc rr hMc hrrmem
  have hrrR : rr < R := by
    have := (List.mem_reverse).mp hrrmem
    have := List.mem_range.mp this
    rwa [Mat.rows, hinv.lenM] at this
  cases hfs : Mat.firstSetRow (Mc.getD rr []) with
  | none => exact hMc
  | some p =>
    -- a nonzero row lies strictly inside the pivot block
    have hrr_lt : rr < r := by
      by_contra hge
      have hzero : ∀ t, (Mc.getD rr []).getD t false = false := by
        intro t
        by_cases htC : t < C
        · exact hMc.lowZero rr t (by omega) htC
        · rcases Shape.row_len ⟨hMc.lenM, hMc.rowLen⟩ rr with h | h
          · rw [List.getD_eq_getElem?_getD, List.getElem?_eq_none (by omega)]
            rfl
          · rw [h]
            rfl
      rw [(firstSetRow_eq_none_iff _).mpr hzero] at hfs
      cases hfs
    obtain ⟨p0, hp0C, hp0⟩ := hMc.rowsFirst rr hrr_lt
    have hpp0 : p = p0 := by
      rw [hfs] at hp0
      injection hp0
    subst hpp0
    set rowR := Mc.getD rr [] with hrowRdef
    have hrowRlen : rowR.length = C := by
      rw [hrowRdef]
      exact Shape.row_len_of_lt ⟨hMc.lenM, hMc.rowLen⟩ hrrR
    have hnodup : (List.range rr).Nodup := List.nodup_range rr
    have hbound : ∀ i ∈ List.range rr, i < Mc.length := by
      intro i hi
      rw [hMc.lenM]
      have := List.mem_range.mp hi
      omega
    have hclosed := elimFold_getD rowR p Mc (List.range rr) hnodup hbound
    have hlenEq : ∀ i ∈ List.range rr, (Mc.getD i []).length = rowR.length := by
      intro i hi
      rw [hrowRlen]
      exact Shape.row_len_of_lt ⟨hMc.lenM, hMc.rowLen⟩
        (by have := List.mem_range.mp hi; omega)
    have hfirstKeep : ∀ t, Mat.firstSetRow
        (((List.range rr).foldl
          (fun Md i => if Mat.mget Md i p then
              Md.set i (Mat.xorRow (Md.getD i []) rowR) else Md) Mc).getD t []) =
        Mat.firstSetRow (Mc.getD t []) := by
      intro t
      rw [hclosed t]
      by_cases hcond : t ∈ List.range rr ∧ Mat.mget Mc t p = true
      · rw [if_pos hcond]
        have htrr : t < rr := List.mem_range.mp hcond.1
        obtain ⟨ct, hctC, hct⟩ := hMc.rowsFirst t (by omega)
        have hlt : ct < p := hMc.mono t rr ct p htrr hrr_lt hct hfs
        rw [hct, firstSet_xorRow_of_lt hct hfs hlt
          (by rw [hrowRlen]; exact Shape.row_len_of_lt ⟨hMc.lenM, hMc.rowLen⟩ (by omega))]
      · rw [if_neg hcond]
    set Md := (List.range rr).foldl
      (fun Md i => if Mat.mget Md i p then
          Md.set i (Mat.xorRow (Md.getD i []) rowR) else Md) Mc with hMddef
    show EchInv R C C M0 Md r piv
    have hMdlen : Md.length = R := by
      rw [hMddef, elimFold_length, hMc.lenM]
    have hMdrows_ge : ∀ t, rr ≤ t → Md.getD t [] = Mc.getD t [] := by
      intro t ht
      rw [hclosed t, if_neg]
      rintro ⟨hmem, _⟩
      have := List.mem_range.mp hmem
      omega
    have hMdrowlen : ∀ t, t < R → (Md.getD t []).length = C := by
      intro t ht
      rw [hclosed t]
      split
      · rename_i hcond
        rw [length_xorRow, hrowRlen,
          Shape.row_len_of_lt ⟨hMc.lenM, hMc.rowLen⟩ ht, Nat.min_self]
      · exact Shape.row_len_of_lt ⟨hMc.lenM, hMc.rowLen⟩ ht
    refine ⟨hMdlen, rowLen_of_getD (fun t ht => hMdrowlen t (by rwa [hMdlen] at ht)),
      hMc.hrR, hMc.hrj, hMc.pivLen, hMc.pivCount, hMc.pivHigh, ?_, ?_, ?_, ?_, ?_⟩
    · intro i hi
      obtain ⟨c, hc, h⟩ := hMc.rowsFirst i hi
      refine ⟨c, hc, ?_⟩
      rw [hfirstKeep i]
      exact h
    · intro i i' c c' hii hi' h h'
      rw [hfirstKeep i] at h
      rw [hfirstKeep i'] at h'
      exact hMc.mono i i' c c' hii hi' h h'
    · intro i c hi hc
      rw [hMdrows_ge i (by omega)]
      exact hMc.lowZero i c hi hc
    · intro c
      rw [hMc.pivIff c]
      constructor
      · rintro ⟨i, hi, h⟩
        refine ⟨i, hi, ?_⟩
        rw [hfirstKeep i]
        exact h
      · rintro ⟨i, hi, h⟩
        rw [hfirstKeep i] at h
        exact ⟨i, hi, h⟩
    · intro x
      rw [hMc.sol x, hMddef]
      exact (satIdx_elimFold rowR p rr Mc (List.range rr) hnodup hbound hrowRdef.symm
        (fun hmem => by have := List.mem_range.mp hmem; omega) hlenEq
        (by rw [hrowRlen]; exact hC) x).symm

/-- The reduced echelon form satisfies the echelon invariant for some rank. -/
theorem toReducedEchelonForm_inv {R C : Nat} {M0 : Mat} (hshape : Shape R C M0)
    (hR : 0 < R) (hC : 0 < C) :
    ∃ r, EchInv R C C M0 (Mat.toReducedEchelonForm M0).1 r (Mat.toReducedEchelonForm M0).2 := by
  obtain ⟨M, r, piv, heq, hinv⟩ := toEchelonForm_inv hshape hR
  have hred := redPass_inv hC hinv
  refine ⟨r, ?_⟩
  have h2 : (Mat.toReducedEchelonForm M0).2 = piv := by
    show (Mat.toEchelonForm M0).2 = piv
    rw [heq]
  have h1 : (Mat.toReducedEchelonForm M0).1 =
      (List.range M.rows).reverse.foldl
        (fun Mc rr =>
          match Mat.firstSetRow (Mc.getD rr []) with
          | some p =>
            (List.range rr).foldl
              (fun Md i => if Mat.mget Md i p then
                  Md.set i (Mat.xorRow (Md.getD i []) (Mc.getD rr [])) else Md) Mc
          | none => Mc) M := by
    show (List.range (Mat.toEchelonForm M0).1.rows).reverse.foldl _ (Mat.toEchelonForm M0).1 = _
    rw [heq]
  rw [h1, h2]
  exact hred

theorem list_ext_getD {l1 l2 : List Bool} (hlen : l1.length = l2.length)
    (h : ∀ c, l1.getD c false = l2.getD c false) : l1 = l2 := by
  apply List.ext_getElem hlen
  intro n h1 h2
  have := h n
  rwa [List.getD_eq_getElem?_getD, List.getD_eq_getElem?_getD,
    List.getElem?_eq_getElem h1, List.getElem?_eq_getElem h2, Option.getD_some,
    Option.getD_some] at this

theorem set_oob {α : Type*} (l : List α) (j : Nat) (a : α) (h : l.length ≤ j) :
    l.set j a = l := by
  induction l generalizing j with
  | nil => rfl
  | cons b l ih =>
    cases j with
    | zero => simp at h
    | succ j =>
      simp only [List.set_cons_succ]
      rw [ih j (by simpa using h)]

theorem foldl_congr_mem {α β : Type*} (l : List α) (f g : β → α → β) :
    ∀ (a : β), (∀ b, ∀ x ∈ l, f b x = g b x) → l.foldl f a = l.foldl g a := by
  induction l with
  | nil => intro a _; rfl
  | cons x l ih =>
    intro a h
    simp only [List.foldl_cons]
    rw [h a x (by simp)]
    exact ih _ (fun b y hy => h b y (by simp [hy]))

theorem sum_map_range {M : Type*} [AddCommMonoid M] (f : Nat → M) (n : Nat) :
    ((List.range n).map f).sum = ∑ i ∈ Finset.range n, f i := by
  induction n with
  | zero => simp
  | succ n ih =>
    rw [List.range_succ, List.map_append, List.sum_append, ih, Finset.sum_range_succ]
    simp

theorem dotRow_zero {u : List Bool} (h : ∀ c, u.getD c false = false) (v : List Bool) :
    Mat.dotRow u v = false := by
  apply b2z_inj
  rw [b2z_dotRow, Finset.sum_eq_zero (fun c _ => by rw [h c]; simp [b2z]), b2z_false]

theorem dotRow_set_of_zero {row : List Bool} {j : Nat} (hj : row.getD j false = false)
    (x : List Bool) (v : Bool) : Mat.dotRow row (x.set j v) = Mat.dotRow row x := by
  apply b2z_inj
  rw [b2z_dotRow, b2z_dotRow, List.length_set]
  refine Finset.sum_congr rfl (fun c hc => ?_)
  by_cases hcj : c = j
  · subst hcj
    rw [hj]
    simp [b2z]
  · rw [getD_set_ne _ _ _ (fun h => hcj h.symm)]

theorem concat_getD_last {α : Type*} (l : List α) (a d : α) :
    (l ++ [a]).getD l.length d = a := by
  rw [List.getD_eq_getElem?_getD, List.getElem?_concat_length]
  rfl

theorem getD_lt {α : Type*} (l : List α) (i : Nat) (d : α) (h : i < l.length) :
    l.getD i d = l[i] := by
  rw [List.getD_eq_getElem?_getD, List.getElem?_eq_getElem h]
  rfl

theorem getD_ge {α : Type*} (l : List α) (i : Nat) (d : α) (h : l.length ≤ i) :
    l.getD i d = d := by
  rw [List.getD_eq_getElem?_getD, List.getElem?_eq_none h]
  rfl

theorem getD_mapIdx_append (A : Mat) (b : List Bool) (i : Nat) :
    (A.mapIdx (fun i row => row ++ [b.getD i false])).getD i [] =
      if i < A.length then A.getD i [] ++ [b.getD i false] else [] := by
  by_cases hi : i < A.length
  · rw [if_pos hi, getD_lt _ i [] (by simpa using hi), getD_lt A i [] hi]
    simp [List.getElem_mapIdx]
  · rw [if_neg hi, getD_ge _ i [] (by simpa using hi)]

theorem augment_shape {R : Nat} {A : Mat} {b : List Bool} (hA : Shape R R A) :
    Shape R (R + 1) (A.mapIdx (fun i row => row ++ [b.getD i false])) := by
  refine ⟨by simpa using hA.1, ?_⟩
  intro row hrow
  obtain ⟨i, hi, hrow_eq⟩ := List.mem_iff_getElem.mp hrow
  rw [List.getElem_mapIdx] at hrow_eq
  rw [← hrow_eq, List.length_append, List.length_singleton,
    hA.2 _ (List.getElem_mem _)]

theorem getD_map_dotRow (A : Mat) (x : List Bool) (i : Nat) (hi : i < A.length) :
    (Mat.matVec A x).getD i false = Mat.dotRow (A.getD i []) x := by
  unfold Mat.matVec
  rw [getD_lt _ i false (by simpa using hi), getD_lt A i [] hi]
  simp [List.getElem_map]

theorem getD_map_dropLast (M : Mat) (i : Nat) :
    (M.map (fun row => row.dropLast)).getD i [] = (M.getD i []).dropLast := by
  by_cases hi : i < M.length
  · rw [getD_lt _ i [] (by simpa using hi), getD_lt M i [] hi]
    simp [List.getElem_map]
  · rw [getD_ge _ i [] (by simpa using hi), getD_ge M i [] (by omega)]
    rfl

theorem getD_map_lastcol (M : Mat) (i : Nat) :
    (M.map (fun row => row.getD (row.length - 1) false)).getD i false =
      (M.getD i []).getD ((M.getD i []).length - 1) false := by
  by_cases hi : i < M.length
  · rw [getD_lt _ i false (by simpa using hi), getD_lt M i [] hi]
    simp [List.getElem_map]
  · rw [getD_ge _ i false (by simpa using hi), getD_ge M i [] (by omega)]
    rfl

theorem matVec_eq_iff_satIdx {R : Nat} {A : Mat} {b : List Bool} (hA : Shape R R A)
    (hb : b.length = R) (x : List Bool) :
    Mat.matVec A x = b ↔ satIdx (A.mapIdx (fun i row => row ++ [b.getD i false])) x := by
  have hlenA : A.length = R := hA.1
  constructor
  · intro h i
    unfold rowSat
    rw [getD_mapIdx_append]
    by_cases hi : i < A.length
    · rw [if_pos hi, List.dropLast_concat]
      have hlast : (A.getD i [] ++ [b.getD i false]).length - 1 = (A.getD i []).length := by
        simp
      rw [hlast, concat_getD_last]
      rw [← getD_map_dotRow A x i hi]
      show (Mat.matVec A x).getD i false = b.getD i false
      rw [h]
    · rw [if_neg hi]
      simp [Mat.dotRow]
  · intro h
    apply list_ext_getD
    · unfold Mat.matVec
      rw [List.length_map, hlenA, hb]
    · intro i
      by_cases hi : i < A.length
      · rw [getD_map_dotRow A x i hi]
        have hrs := h i
        unfold rowSat at hrs
        rw [getD_mapIdx_append, if_pos hi, List.dropLast_concat] at hrs
        have hlast : (A.getD i [] ++ [b.getD i false]).length - 1 = (A.getD i []).length := by
          simp
        rwa [hlast, concat_getD_last] at hrs
      · rw [getD_ge _ i false (by unfold Mat.matVec; simpa using hi),
          getD_ge b i false (by omega)]

/-- The inner back-substitution fold writes only slot `j`; its final value
there is an accumulating XOR over the scanned slots. -/
theorem bsubInner_getD (row : List Bool) (j : Nat) (ks : List Nat) :
    ∀ x1 : List Bool, (∀ k ∈ ks, j < k) →
      ((ks.foldl (fun x k => if row.getD k false then
          x.set j (xor (x.getD j false) (x.getD k false)) else x) x1).length = x1.length) ∧
      (∀ c, c ≠ j → (ks.foldl (fun x k => if row.getD k false then
          x.set j (xor (x.getD j false) (x.getD k false)) else x) x1).getD c false =
        x1.getD c false) ∧
      (j < x1.length → (ks.foldl (fun x k => if row.getD k false then
          x.set j (xor (x.getD j false) (x.getD k false)) else x) x1).getD j false =
        ks.foldl (fun a k => if row.getD k false then xor a (x1.getD k false) else a)
          (x1.getD j false)) := by
  induction ks with
  | nil => exact fun x1 _ => ⟨rfl, fun c _ => rfl, fun _ => rfl⟩
  | cons k ks ih =>
    intro x1 hks
    have hks' : ∀ k' ∈ ks, j < k' := fun k' hk' => hks k' (by simp [hk'])
    set x2 := if row.getD k false then
      x1.set j (xor (x1.getD j false) (x1.getD k false)) else x1 with hx2
    have hlen2 : x2.length = x1.length := by
      rw [hx2]
      split <;> simp
    have hne2 : ∀ c, c ≠ j → x2.getD c false = x1.getD c false := by
      intro c hc
      rw [hx2]
      split
      · exact getD_set_ne _ _ _ (fun h => hc h.symm)
      · rfl
    obtain ⟨ihlen, ihne, ihj⟩ := ih x2 hks'
    refine ⟨ihlen.trans hlen2, fun c hc => (ihne c hc).trans (hne2 c hc), fun hj => ?_⟩
    have hj2 : j < x2.length := by rwa [hlen2]
    simp only [List.foldl_cons]
    rw [ihj hj2]
    have hacc : x2.getD j false =
        if row.getD k false then xor (x1.getD j false) (x1.getD k false)
        else x1.getD j false := by
      rw [hx2]
      split
      · exact getD_set_eq _ _ _ _ hj
      · rfl
    rw [hacc]
    exact foldl_congr_mem ks _ _ _
      (fun a k' hk' => by rw [hne2 k' (by have := hks' k' hk'; omega)])

/-- The GF(2) value of the accumulating XOR fold. -/
theorem b2z_accFold (row x : List Bool) (ks : List Nat) :
    ∀ a0 : Bool,
      b2z (ks.foldl (fun a k => if row.getD k false then xor a (x.getD k false) else a) a0) =
        b2z a0 + (ks.map (fun k => b2z (row.getD k false) * b2z (x.getD k false))).sum := by
  induction ks with
  | nil => intro a0; simp
  | cons k ks ih =>
    intro a0
    simp only [List.foldl_cons, List.map_cons, List.sum_cons]
    rw [ih]
    by_cases hk : row.getD k false = true
    · rw [if_pos hk, b2z_xor, hk, b2z_true]
      ring
    · rw [if_neg hk]
      have hk' : row.getD k false = false := by
        cases h : row.getD k false
        · rfl
        · exact absurd h hk
      rw [hk', b2z_false]
      ring

/-- One outer back-substitution step only changes the pivot slot and makes
the pivot row's equation hold. -/
theorem bsubStep_spec {R : Nat} (row x : List Bool) {j : Nat} (bval : Bool)
    (hrowlen : row.length = R) (hxlen : x.length = R)
    (hfs : Mat.firstSetRow row = some j) :
    ∃ v, ((List.range' (j + 1) ((x.set j bval).length - (j + 1))).foldl
        (fun x k => if row.getD k false then
            x.set j (xor (x.getD j false) (x.getD k false)) else x) (x.set j bval) =
      x.set j v ∧
      Mat.dotRow row ((List.range' (j + 1) ((x.set j bval).length - (j + 1))).foldl
        (fun x k => if row.getD k false then
            x.set j (xor (x.getD j false) (x.getD k false)) else x) (x.set j bval)) = bval) := by
  obtain ⟨hjlen, hjbit, hjlow⟩ := (firstSetRow_eq_some_iff row j).mp hfs
  have hjR : j < R := hrowlen ▸ hjlen
  have hx1len : (x.set j bval).length = x.length := by simp
  have hks : ∀ k ∈ List.range' (j + 1) ((x.set j bval).length - (j + 1)), j < k := by
    intro k hk
    have := List.mem_range'_1.mp hk
    omega
  obtain ⟨hlen, hne, hjval⟩ :=
    bsubInner_getD row j (List.range' (j + 1) ((x.set j bval).length - (j + 1)))
      (x.set j bval) hks
  set res := (List.range' (j + 1) ((x.set j bval).length - (j + 1))).foldl
      (fun x k => if row.getD k false then
          x.set j (xor (x.getD j false) (x.getD k false)) else x) (x.set j bval) with hres
  refine ⟨res.getD j false, ?_, ?_⟩
  · apply list_ext_getD
    · rw [hlen, hx1len, List.length_set]
    · intro c
      by_cases hc : c = j
      · subst hc
        rw [getD_set_eq _ _ _ _ (by omega)]
      · rw [hne c hc, getD_set_ne _ _ _ (fun h => hc h.symm),
          getD_set_ne _ _ _ (fun h => hc h.symm)]
  · apply b2z_inj
    have hreslen : res.length = R := by rw [hlen, hx1len, hxlen]
    rw [b2z_dotRow, hrowlen, hreslen, Nat.min_self]
    have hS : ∀ c, c ≠ j → res.getD c false = x.getD c false := by
      intro c hc
      rw [hne c hc, getD_set_ne _ _ _ (fun h => hc h.symm)]
    set S : ZMod 2 := ∑ i ∈ Finset.range (R - (j + 1)),
      b2z (row.getD (j + 1 + i) false) * b2z (x.getD (j + 1 + i) false) with hSdef
    have hsplit : R = (j + 1) + (R - (j + 1)) := by omega
    have hsum : ∑ c ∈ Finset.range R, b2z (row.getD c false) * b2z (res.getD c false) =
        b2z (res.getD j false) + S := by
      rw [hsplit, Finset.sum_range_add, Finset.sum_range_succ,
        Finset.sum_eq_zero (fun c hc => by
          rw [hjlow c (Finset.mem_range.mp hc)]; simp [b2z]),
        hjbit, b2z_true, one_mul, zero_add]
      congr 1
      rw [hSdef]
      refine Finset.sum_congr rfl (fun i hi => ?_)
      rw [hS (j + 1 + i) (by omega)]
    have hval : b2z (res.getD j false) = b2z bval + S := by
      rw [hjval (by rw [hx1len]; omega), getD_set_eq _ _ _ _ (by omega), b2z_accFold,
        List.range'_eq_map_range, List.map_map, sum_map_range]
      congr 1
      rw [hSdef, hx1len, hxlen]
      refine Finset.sum_congr rfl (fun i hi => ?_)
      simp only [Function.comp]
      rw [getD_set_ne _ _ _ (by omega)]
    rw [hsum, hval]
    have hself : ∀ a : ZMod 2, a + a = 0 := by decide
    calc b2z bval + S + S = b2z bval + (S + S) := by ring
      _ = b2z bval + 0 := by rw [hself S]
      _ = b2z bval := by rw [add_zero]

theorem filter_dropLast_count (l : List Bool) (hne : l ≠ []) :
    (l.filter id).length =
      (l.dropLast.filter id).length + (if l.getD (l.length - 1) false then 1 else 0) := by
  conv_lhs => rw [← List.dropLast_append_getLast hne]
  rw [List.filter_append, List.length_append]
  congr 1
  have hlast : l.getD (l.length - 1) false = l.getLast hne := by
    rw [List.getLast_eq_getElem]
    exact getD_lt l _ false (by have := List.length_pos.mpr hne; omega)
  rw [hlast]
  cases l.getLast hne <;> simp

theorem firstSet_dropLast {l : List Bool} {c : Nat} (hfs : Mat.firstSetRow l = some c)
    (hc : c < l.length - 1) : Mat.firstSetRow l.dropLast = some c := by
  obtain ⟨h1, h2, h3⟩ := (firstSetRow_eq_some_iff l c).mp hfs
  refine (firstSetRow_eq_some_iff _ c).mpr ⟨by simpa using hc, ?_, ?_⟩
  · rw [getD_dropLast _ _ hc]
    exact h2
  · intro t ht
    rw [getD_dropLast _ _ (by omega)]
    exact h3 t ht

theorem firstSet_dropLast_rev {l : List Bool} {c : Nat}
    (hfs : Mat.firstSetRow l.dropLast = some c) : Mat.firstSetRow l = some c := by
  obtain ⟨h1, h2, h3⟩ := (firstSetRow_eq_some_iff _ c).mp hfs
  have hc : c < l.length - 1 := by simpa using h1
  refine (firstSetRow_eq_some_iff l c).mpr ⟨by omega, ?_, ?_⟩
  · rw [← getD_dropLast _ _ hc]
    exact h2
  · intro t ht
    rw [← getD_dropLast _ _ (by omega)]
    exact h3 t ht

/-- Everything `back_substitute_into` and the solution accessors need from a
state built by `BitGauss::new` on a consistent square system. -/
structure SolverOK (R : Nat) (A : Mat) (b : List Bool) (s : GaussState) : Prop where
  lenA : s.Aref.length = R
  rowLenA : ∀ i, i < R → (s.Aref.getD i []).length = R
  lenB : s.bref.length = R
  rankR : s.rank ≤ R
  rowsFirst : ∀ i, i < s.rank → ∃ c, c < R ∧ Mat.firstSetRow (s.Aref.getD i []) = some c
  mono : ∀ i i' c c', i < i' → i' < s.rank →
    Mat.firstSetRow (s.Aref.getD i []) = some c →
    Mat.firstSetRow (s.Aref.getD i' []) = some c' → c < c'
  lowZero : ∀ i c, s.rank ≤ i → (s.Aref.getD i []).getD c false = false
  lowB : ∀ i, s.rank ≤ i → s.bref.getD i false = false
  solEq : ∀ x, Mat.matVec A x = b ↔
    ∀ i, Mat.dotRow (s.Aref.getD i []) x = s.bref.getD i false

/-- A consistent state built by `BitGauss::new` on a square system has the
reduced-echelon structure promised by `SolverOK`. -/
theorem gaussNew_ok {R : Nat} {A : Mat} {b : List Bool} (hA : Shape R R A)
    (hb : b.length = R) (hR : 0 < R)
    (hcons : (GaussState.gaussNew A b).isConsistent = true) :
    SolverOK R A b (GaussState.gaussNew A b) := by
  obtain ⟨r, hinv⟩ :=
    toReducedEchelonForm_inv (augment_shape hA) hR (by omega : 0 < R + 1)
  set Mf := (Mat.toReducedEchelonForm (A.mapIdx (fun i row => row ++ [b.getD i false]))).1
    with hMf
  set pivf := (Mat.toReducedEchelonForm (A.mapIdx (fun i row => row ++ [b.getD i false]))).2
    with hpivf
  have hAref : (GaussState.gaussNew A b).Aref = Mf.map (fun row => row.dropLast) := rfl
  have hbref : (GaussState.gaussNew A b).bref =
      Mf.map (fun row => row.getD (row.length - 1) false) := rfl
  have hrank : (GaussState.gaussNew A b).rank = (pivf.dropLast.filter id).length := rfl
  have hcount : (GaussState.gaussNew A b).solutionCount =
      if (List.range' (pivf.dropLast.filter id).length
            ((Mf.map (fun row => row.dropLast)).length - (pivf.dropLast.filter id).length)).all
          (fun i => !((Mf.map (fun row => row.getD (row.length - 1) false)).getD i false))
      then 1 <<< (min ((List.range pivf.dropLast.length).filter
          (fun j => !(pivf.dropLast.getD j false))).length (usizeBits - 1)) else 0 := rfl
  have hMlen : Mf.length = R := hinv.lenM
  have hMrowlen : ∀ i, i < R → (Mf.getD i []).length = R + 1 :=
    fun i hi => Shape.row_len_of_lt ⟨hinv.lenM, hinv.rowLen⟩ hi
  have hpivlen : pivf.length = R + 1 := hinv.pivLen
  have hrR : r ≤ R := hinv.hrR
  have hcons' : 0 < (GaussState.gaussNew A b).solutionCount := by
    have h := hcons
    unfold GaussState.isConsistent at h
    exact of_decide_eq_true h
  have hflag : (List.range' (pivf.dropLast.filter id).length
      ((Mf.map (fun row => row.dropLast)).length - (pivf.dropLast.filter id).length)).all
      (fun i => !((Mf.map (fun row => row.getD (row.length - 1) false)).getD i false)) = true := by
    cases hf : (List.range' (pivf.dropLast.filter id).length
        ((Mf.map (fun row => row.dropLast)).length - (pivf.dropLast.filter id).length)).all
        (fun i => !((Mf.map (fun row => row.getD (row.length - 1) false)).getD i false)) with
    | false =>
      rw [hf] at hcount
      simp only [Bool.false_eq_true, if_false] at hcount
      omega
    | true => rfl
  have hBlow : ∀ i, (pivf.dropLast.filter id).length ≤ i →
      (GaussState.gaussNew A b).bref.getD i false = false := by
    intro i hi
    rw [hbref]
    by_cases hiR : i < R
    · have hmem : i ∈ List.range' (pivf.dropLast.filter id).length
          ((Mf.map (fun row => row.dropLast)).length - (pivf.dropLast.filter id).length) := by
        rw [List.mem_range'_1]
        refine ⟨hi, ?_⟩
        rw [List.length_map, hMlen]
        omega
      have := List.all_eq_true.mp hflag i hmem
      simpa using this
    · rw [getD_ge _ i false (by rw [List.length_map, hMlen]; omega)]
  have hpivR : pivf.getD R false = false := by
    cases hp : pivf.getD R false with
    | false => rfl
    | true =>
      obtain ⟨i, hi, hfsi⟩ := (hinv.pivIff R).mp hp
      have hr1 : 1 ≤ r := by omega
      have hieq : i = r - 1 := by
        by_contra hne
        obtain ⟨c', hc', hfs'⟩ := hinv.rowsFirst (r - 1) (by omega)
        have := hinv.mono i (r - 1) R c' (by omega) (by omega) hfsi hfs'
        omega
      subst hieq
      have hrankeq : (pivf.dropLast.filter id).length + 1 = r := by
        have hne : pivf ≠ [] := by
          intro h
          rw [h] at hpivlen
          simp at hpivlen
        have hcd := filter_dropLast_count pivf hne
        rw [hinv.pivCount] at hcd
        have hidx : pivf.length - 1 = R := by omega
        rw [hidx, hp, if_pos rfl] at hcd
        omega
      have hbtrue : (GaussState.gaussNew A b).bref.getD (r - 1) false = true := by
        rw [hbref, getD_map_lastcol]
        have hlen : (Mf.getD (r - 1) []).length = R + 1 := hMrowlen (r - 1) (by omega)
        obtain ⟨h1, h2, h3⟩ := (firstSetRow_eq_some_iff _ R).mp hfsi
        rw [hlen]
        simpa using h2
      have := hBlow (r - 1) (by omega)
      rw [this] at hbtrue
      cases hbtrue
  have hrankr : (GaussState.gaussNew A b).rank = r := by
    rw [hrank]
    have hne : pivf ≠ [] := by
      intro h
      rw [h] at hpivlen
      simp at hpivlen
    have hcd := filter_dropLast_count pivf hne
    rw [hinv.pivCount] at hcd
    have hidx : pivf.length - 1 = R := by omega
    rw [hidx, hpivR, if_neg (by simp)] at hcd
    omega
  have hArefrow : ∀ i, (GaussState.gaussNew A b).Aref.getD i [] = (Mf.getD i []).dropLast := by
    intro i
    rw [hAref, getD_map_dropLast]
  have hbrefrow : ∀ i, (GaussState.gaussNew A b).bref.getD i false =
      (Mf.getD i []).getD ((Mf.getD i []).length - 1) false := by
    intro i
    rw [hbref, getD_map_lastcol]
  have hpivNoLast : ∀ i c, i < r → Mat.firstSetRow (Mf.getD i []) = some c → c < R := by
    intro i c hi hfs
    have hcR1 : c < R + 1 := by
      obtain ⟨h1, _, _⟩ := (firstSetRow_eq_some_iff _ c).mp hfs
      have := hMrowlen i (by omega)
      omega
    by_contra hge
    have hceq : c = R := by omega
    rw [hceq] at hfs
    have := (hinv.pivIff R).mpr ⟨i, hi, hfs⟩
    rw [hpivR] at this
    cases this
  refine ⟨?_, ?_, ?_, ?_, ?_, ?_, ?_, ?_, ?_⟩
  · rw [hAref, List.length_map, hMlen]
  · intro i hi
    rw [hArefrow i, List.length_dropLast, hMrowlen i hi]
    omega
  · rw [hbref, List.length_map, hMlen]
  · rw [hrankr]
    exact hinv.hrR
  · intro i hi
    rw [hrankr] at hi
    obtain ⟨c, hcR1, hfs⟩ := hinv.rowsFirst i hi
    have hcR : c < R := hpivNoLast i c hi hfs
    refine ⟨c, hcR, ?_⟩
    rw [hArefrow i]
    exact firstSet_dropLast hfs (by rw [hMrowlen i (by omega)]; omega)
  · intro i i' c c' hii hi' h h'
    rw [hrankr] at hi'
    rw [hArefrow i] at h
    rw [hArefrow i'] at h'
    exact hinv.mono i i' c c' hii hi' (firstSet_dropLast_rev h) (firstSet_dropLast_rev h')
  · intro i c hi
    rw [hrankr] at hi
    rw [hArefrow i]
    by_cases hiR : i < R
    · by_cases hcR : c < R
      · rw [getD_dropLast _ _ (by rw [hMrowlen i hiR]; omega)]
        exact hinv.lowZero i c hi (by omega)
      · rw [getD_ge _ c false (by rw [List.length_dropLast, hMrowlen i hiR]; omega)]
    · rw [getD_ge _ c false ?_]
      rw [List.length_dropLast, getD_ge Mf i [] (by omega)]
      simp
  · intro i hi
    rw [hrankr] at hi
    exact hBlow i (by omega)
  · intro x
    rw [matVec_eq_iff_satIdx hA hb x, hinv.sol x]
    constructor
    · intro h i
      rw [hArefrow i, hbrefrow i]
      exact h i
    · intro h i
      have := h i
      rw [hArefrow i, hbrefrow i] at this
      exact this

/-- Partial correctness of back substitution: after the rows
`rank - 1, …, rank - m` have been processed (in that order), their
equations hold and the vector still has length `R`. -/
theorem bsub_partial {R : Nat} {A : Mat} {b : List Bool} {s : GaussState}
    (hOK : SolverOK R A b s) (x0 : List Bool) (hx0 : x0.length = R) :
    ∀ m, m ≤ s.rank →
      ((List.range' (s.rank - m) m).reverse.foldl
          (fun x r =>
            match Mat.firstSetRow (s.Aref.getD r []) with
            | none => x
            | some j =>
              let x := x.set j (s.bref.getD r false)
              (List.range' (j + 1) (x.length - (j + 1))).foldl
                (fun x k => if Mat.mget s.Aref r k then
                    x.set j (xor (x.getD j false) (x.getD k false)) else x) x) x0).length = R ∧
      ∀ r, s.rank - m ≤ r → r < s.rank →
        Mat.dotRow (s.Aref.getD r [])
          ((List.range' (s.rank - m) m).reverse.foldl
            (fun x r =>
              match Mat.firstSetRow (s.Aref.getD r []) with
              | none => x
              | some j =>
                let x := x.set j (s.bref.getD r false)
                (List.range' (j + 1) (x.length - (j + 1))).foldl
                  (fun x k => if Mat.mget s.Aref r k then
                      x.set j (xor (x.getD j false) (x.getD k false)) else x) x) x0) =
          s.bref.getD r false := by
  intro m
  induction m with
  | zero =>
    intro _
    exact ⟨by simpa using hx0, fun r hr1 hr2 => absurd hr1 (by omega)⟩
  | succ m ih =>
    intro hm
    obtain ⟨ihlen, iheq⟩ := ih (by omega)
    have ht : s.rank - m = s.rank - (m + 1) + 1 := by omega
    rw [List.range'_succ, List.reverse_cons, List.foldl_append, ← ht]
    simp only [List.foldl_cons, List.foldl_nil]
    set xm := (List.range' (s.rank - m) m).reverse.foldl
      (fun x r =>
        match Mat.firstSetRow (s.Aref.getD r []) with
        | none => x
        | some j =>
          let x := x.set j (s.bref.getD r false)
          (List.range' (j + 1) (x.length - (j + 1))).foldl
            (fun x k => if Mat.mget s.Aref r k then
                x.set j (xor (x.getD j false) (x.getD k false)) else x) x) x0 with hxm
    obtain ⟨j, hjR, hfs⟩ := hOK.rowsFirst (s.rank - (m + 1)) (by omega)
    have hmatch : (match Mat.firstSetRow (s.Aref.getD (s.rank - (m + 1)) []) with
        | none => xm
        | some j =>
          let x := xm.set j (s.bref.getD (s.rank - (m + 1)) false)
          (List.range' (j + 1) (x.length - (j + 1))).foldl
            (fun x k => if Mat.mget s.Aref (s.rank - (m + 1)) k then
                x.set j (xor (x.getD j false) (x.getD k false)) else x) x) =
        (List.range' (j + 1)
            ((xm.set j (s.bref.getD (s.rank - (m + 1)) false)).length - (j + 1))).foldl
          (fun x k => if (s.Aref.getD (s.rank - (m + 1)) []).getD k false then
              x.set j (xor (x.getD j false) (x.getD k false)) else x)
          (xm.set j (s.bref.getD (s.rank - (m + 1)) false)) := by
      rw [hfs]
      rfl
    rw [hmatch]
    obtain ⟨v, hveq, hvdot⟩ := bsubStep_spec (s.Aref.getD (s.rank - (m + 1)) []) xm
      (s.bref.getD (s.rank - (m + 1)) false)
      (hOK.rowLenA _ (by have := hOK.rankR; omega)) ihlen hfs
    refine ⟨?_, ?_⟩
    · rw [hveq, List.length_set]
      exact ihlen
    · intro rr hr1 hr2
      by_cases hrt : rr = s.rank - (m + 1)
      · rw [hrt]
        exact hvdot
      · rw [hveq]
        obtain ⟨c', hc'R, hfs'⟩ := hOK.rowsFirst rr hr2
        have hlt : j < c' := hOK.mono (s.rank - (m + 1)) rr j c' (by omega) hr2 hfs hfs'
        obtain ⟨h1, h2, h3⟩ := (firstSetRow_eq_some_iff _ c').mp hfs'
        rw [dotRow_set_of_zero (h3 j hlt)]
        exact iheq rr (by omega) hr2

/-- `back_substitute_into` produces a genuine solution on a state with the
`SolverOK` structure, whatever the starting vector. -/
theorem backSubstitute_correct {R : Nat} {A : Mat} {b : List Bool} {s : GaussState}
    (hOK : SolverOK R A b s) (x0 : List Bool) (hx0 : x0.length = R) :
    Mat.matVec A (GaussState.backSubstitute s x0) = b := by
  obtain ⟨hlen, heqs⟩ := bsub_partial hOK x0 hx0 s.rank le_rfl
  have hfold : GaussState.backSubstitute s x0 =
      (List.range' (s.rank - s.rank) s.rank).reverse.foldl
        (fun x r =>
          match Mat.firstSetRow (s.Aref.getD r []) with
          | none => x
          | some j =>
            let x := x.set j (s.bref.getD r false)
            (List.range' (j + 1) (x.length - (j + 1))).foldl
              (fun x k => if Mat.mget s.Aref r k then
                  x.set j (xor (x.getD j false) (x.getD k false)) else x) x) x0 := by
    unfold GaussState.backSubstitute
    rw [Nat.sub_self, ← List.range_eq_range']
  rw [hOK.solEq]
  intro i
  by_cases hi : i < s.rank
  · rw [hfold]
    exact heqs i (by omega) hi
  · rw [hOK.lowB i (by omega)]
    exact dotRow_zero (fun c => hOK.lowZero i c (by omega)) _

/-- The free-slot filling fold keeps the vector's length. -/
theorem fill_length (free : List Nat) (ks : List Nat) :
    ∀ (x : List Bool) (i : Nat),
      ((ks.foldl (fun (st : List Bool × Nat) f =>
        (st.1.set (free.getD f 0) (st.2 &&& 1 != 0), st.2 >>> 1)) (x, i)).1).length =
        x.length := by
  induction ks with
  | nil => intro x i; rfl
  | cons k ks ih =>
    intro x i
    simp only [List.foldl_cons]
    rw [ih]
    simp

/-- The running index is shifted right once per processed slot. -/
theorem fill_snd (free : List Nat) (ks : List Nat) :
    ∀ (x : List Bool) (i : Nat),
      ((ks.foldl (fun (st : List Bool × Nat) f =>
        (st.1.set (free.getD f 0) (st.2 &&& 1 != 0), st.2 >>> 1)) (x, i)).2) =
        i >>> ks.length := by
  induction ks with
  | nil => intro x i; simp
  | cons k ks ih =>
    intro x i
    simp only [List.foldl_cons, List.length_cons]
    rw [ih, ← Nat.shiftRight_add, Nat.add_comm 1 ks.length]

/-- The filled vector depends only on the low `n` bits of the index. -/
theorem fill_fst_congr (free : List Nat) (n : Nat) :
    ∀ (x : List Bool) (i i' : Nat),
      (∀ f, f < n → (i >>> f) &&& 1 = (i' >>> f) &&& 1) →
      ((List.range n).foldl (fun (st : List Bool × Nat) f =>
        (st.1.set (free.getD f 0) (st.2 &&& 1 != 0), st.2 >>> 1)) (x, i)).1 =
      ((List.range n).foldl (fun (st : List Bool × Nat) f =>
        (st.1.set (free.getD f 0) (st.2 &&& 1 != 0), st.2 >>> 1)) (x, i')).1 := by
  induction n with
  | zero => intro x i i' _; rfl
  | succ n ih =>
    intro x i i' h
    rw [List.range_succ, List.foldl_append, List.foldl_append]
    simp only [List.foldl_cons, List.foldl_nil]
    have h1 := ih x i i' (fun f hf => h f (by omega))
    have h2 := fill_snd free (List.range n) x i
    have h2' := fill_snd free (List.range n) x i'
    rw [List.length_range] at h2 h2'
    rw [h1, h2, h2', h n (by omega)]

/-- Closed form for the filled vector when the free slots are `0, …, N-1`. -/
theorem fill_range_getD (N : Nat) :
    ∀ n, n ≤ N → ∀ (x : List Bool) (i : Nat), N ≤ x.length → ∀ c,
      ((List.range n).foldl (fun (st : List Bool × Nat) f =>
        (st.1.set ((List.range N).getD f 0) (st.2 &&& 1 != 0), st.2 >>> 1)) (x, i)).1.getD
          c false =
      if c < n then ((i >>> c) &&& 1 != 0) else x.getD c false := by
  intro n
  induction n with
  | zero =>
    intro _ x i _ c
    simp
  | succ n ih =>
    intro hn x i hx c
    rw [List.range_succ, List.foldl_append]
    simp only [List.foldl_cons, List.foldl_nil]
    have hgetn : (List.range N).getD n 0 = n := by
      rw [getD_lt _ n 0 (by simpa using (by omega : n < N))]
      exact List.getElem_range _ _
    have hsnd := fill_snd (List.range N) (List.range n) x i
    rw [List.length_range] at hsnd
    rw [hgetn, hsnd]
    by_cases hc : c = n
    · subst hc
      rw [getD_set_eq _ _ _ _ (by rw [fill_length]; omega), if_pos (by omega)]
    · rw [getD_set_ne _ _ _ (fun hh => hc hh.symm), ih (by omega) x i hx c]
      by_cases hcn : c < n
      · rw [if_pos hcn, if_pos (by omega)]
      · rw [if_neg hcn, if_neg (by omega)]

end GaussProof

/-! ## Claim C6: the companion characteristic polynomial's coefficient order -/

/-- C6 counterexample: the claim says the returned polynomial has the
coefficient of `x^k` equal to `c_k` for `k < n`. For the top row
`[c_0, c_1] = [1, 0]` (bit-vector "10") the code writes the top row in
reverse, producing `x + x^2`, whose `x^0` coefficient is `0 ≠ c_0 = 1`
(and whose `x^1` coefficient is `1 ≠ c_1 = 0`). -/
theorem C6_coefficient_order_counterexample :
    ((⟨2, [1]⟩ : BV 8).get 0 = true) ∧ ((⟨2, [1]⟩ : BV 8).get 1 = false) ∧
    ((charPolyCompanionMatrix (⟨2, [1]⟩ : BV 8)).coeff 0 = false) ∧
    ((charPolyCompanionMatrix (⟨2, [1]⟩ : BV 8)).coeff 1 = true) ∧
    ((charPolyCompanionMatrix (⟨2, [1]⟩ : BV 8)).coeff 2 = true) := by decide

/-! ## Bit-level facts about the word intrinsics and the packed store -/

namespace BVProof

theorem testBit_wmax (W k : Nat) : (wmax W).testBit k = decide (k < W) :=
  Nat.testBit_two_pow_sub_one W k

theorem testBit_ushl_wmax (W s k : Nat) :
    (ushl W (wmax W) s).testBit k = decide (s ≤ k ∧ k < W) := by
  unfold ushl
  rw [Nat.testBit_mod_two_pow, Nat.testBit_shiftLeft, testBit_wmax]
  by_cases h1 : k < W <;> by_cases h2 : s ≤ k <;>
    simp [h1, h2] <;> omega

theorem testBit_ushr_wmax (W s k : Nat) :
    (ushr (wmax W) s).testBit k = decide (s + k < W) := by
  unfold ushr
  rw [Nat.testBit_shiftRight, testBit_wmax]

theorem testBit_withSetBits (W start stop k : Nat) :
    (withSetBits W start stop).testBit k =
      decide (start ≤ k ∧ k < W ∧ W - stop + k < W) := by
  unfold withSetBits
  rw [Nat.testBit_and, testBit_ushl_wmax, testBit_ushr_wmax]
  by_cases h1 : start ≤ k <;> by_cases h2 : k < W <;> by_cases h3 : W - stop + k < W <;>
    simp [h1, h2, h3] <;> omega

/-- For an in-range window `stop ≤ W` the mask is exactly `start ≤ k < stop`. -/
theorem testBit_withSetBits_le {W stop : Nat} (hstop : stop ≤ W) (start k : Nat) :
    (withSetBits W start stop).testBit k = decide (start ≤ k ∧ k < stop) := by
  rw [testBit_withSetBits]
  by_cases h1 : start ≤ k <;> by_cases h2 : k < stop <;>
    simp [h1, h2] <;> omega

theorem testBit_wnot (W x k : Nat) :
    (wnot W x).testBit k = ((decide (k < W)).xor (x.testBit k)) := by
  unfold wnot
  rw [Nat.testBit_xor, testBit_wmax]

theorem testBit_replaceBits (W u start stop w k : Nat) (hstop : stop ≤ W) :
    (replaceBits W u start stop w).testBit k =
      if start ≤ k ∧ k < stop then w.testBit k
      else (decide (k < W) && u.testBit k) := by
  unfold replaceBits
  rw [Nat.testBit_or, Nat.testBit_and, Nat.testBit_and, testBit_wnot,
    testBit_withSetBits_le hstop]
  by_cases h1 : start ≤ k ∧ k < stop
  · rw [if_pos h1]
    have hkW : k < W := by omega
    simp [h1, hkW]
  · rw [if_neg h1]
    by_cases h2 : k < W
    · simp [h1, h2]
    · simp [h1, h2]

theorem replaceBits_lt (W u start stop w : Nat) : replaceBits W u start stop w < 2 ^ W := by
  have h : ∀ k, W ≤ k → (replaceBits W u start stop w).testBit k = false := by
    intro k hk
    unfold replaceBits
    rw [Nat.testBit_or, Nat.testBit_and, Nat.testBit_and, testBit_wnot, testBit_withSetBits]
    have h1 : decide (k < W) = false := by simp; omega
    have h2 : (decide (start ≤ k ∧ k < W ∧ W - stop + k < W)) = false := by simp; omega
    rw [h1, h2]
    simp
  exact Nat.lt_pow_two_of_testBit _ h

theorem get_eq_testBit {W : Nat} (v : BV W) (i : Nat) :
    v.get i = (v.word (i / W)).testBit (i % W) := by
  unfold BV.get
  rw [Nat.one_shiftLeft, Nat.and_two_pow]
  cases h : (v.word (i / W)).testBit (i % W) <;> simp [h, Nat.pow_eq_zero]

theorem wordsNeeded_eq {W len : Nat} (hW : 0 < W) (hlen : 0 < len) :
    wordsNeeded W len = (len - 1) / W + 1 := by
  unfold wordsNeeded
  have h : len + (W - 1) = (len - 1) + 1 * W := by omega
  rw [h, Nat.add_mul_div_right _ _ hW]

theorem div_lt_words {W len k : Nat} (hW : 0 < W) (hk : k / W < (len - 1) / W) :
    k < len := by
  by_contra h
  have h1 : len - 1 ≤ k := by omega
  have h2 := Nat.div_le_div_right (c := W) h1
  omega

theorem lt_len_iff_mod {W len k : Nat} (hW : 0 < W) (hlen : 0 < len)
    (hdiv : k / W = (len - 1) / W) : k < len ↔ k % W ≤ (len - 1) % W := by
  obtain ⟨A, h5, h6⟩ : ∃ A, k = A + k % W ∧ len - 1 = A + (len - 1) % W := by
    refine ⟨W * (k / W), (Nat.div_add_mod k W).symm, ?_⟩
    rw [hdiv]
    exact (Nat.div_add_mod (len - 1) W).symm
  omega

/-- The packed-store invariant every constructor establishes and every
mutator must restore: exact backing length, in-range words, and zero bits
at and above the logical length (the zero-tail property). -/
structure Inv {W : Nat} (v : BV W) : Prop where
  slen : v.store.length = wordsNeeded W v.len
  wlt : ∀ w ∈ v.store, w < 2 ^ W
  tail : ∀ k, v.len ≤ k → v.get k = false

theorem word_lt {W : Nat} {v : BV W} (h : Inv v) (hW : 0 < W) (i : Nat) :
    v.word i < 2 ^ W := by
  unfold BV.word
  by_cases hi : i < v.store.length
  · rw [GaussProof.getD_lt _ _ _ hi]
    exact h.wlt _ (List.getElem_mem hi)
  · rw [GaussProof.getD_ge _ _ _ (by omega)]
    exact Nat.pos_pow_of_pos _ (by omega)

theorem word_set {W : Nat} (v : BV W) (i u j : Nat) (hi : i < v.store.length) :
    (⟨v.len, v.store.set i u⟩ : BV W).word j = if j = i then u else v.word j := by
  unfold BV.word
  simp only
  by_cases hj : j = i
  · subst hj
    rw [if_pos rfl]
    exact getD_set_eq _ _ _ _ hi
  · rw [if_neg hj]
    exact getD_set_ne _ _ _ (fun h => hj h.symm)

theorem words_pos_len_pos {W : Nat} {v : BV W} (hInv : Inv v) (hW : 0 < W)
    (h : 0 < v.words) : 0 < v.len := by
  by_contra hl
  have hz : v.len = 0 := by omega
  unfold BV.words at h
  rw [hInv.slen, hz] at h
  unfold wordsNeeded at h
  rw [Nat.zero_add, Nat.div_eq_of_lt (by omega)] at h
  omega

/-- Full specification of `BitVec::set_word`: the length is unchanged, the
invariant (in particular the zero tail) is restored whatever the written
word, and reads see the new word exactly on the live bits of slot `i`. -/
theorem setWord_spec {W : Nat} {v : BV W} (hInv : Inv v) (hW : 0 < W)
    {i : Nat} (hi : i < v.words) {w : Nat} (hw : w < 2 ^ W) :
    (v.setWord i w).len = v.len ∧ Inv (v.setWord i w) ∧
    ∀ k, (v.setWord i w).get k =
      if k / W = i ∧ k < v.len then w.testBit (k % W) else v.get k := by
  have hlen : 0 < v.len := words_pos_len_pos hInv hW (by omega)
  have hwordsEq : v.words = (v.len - 1) / W + 1 := by
    unfold BV.words
    rw [hInv.slen, wordsNeeded_eq hW hlen]
  have histore : i < v.store.length := hi
  unfold BV.setWord
  by_cases hcase : i < v.words - 1
  · rw [if_pos hcase]
    have hget : ∀ k, (⟨v.len, v.store.set i w⟩ : BV W).get k =
        if k / W = i ∧ k < v.len then w.testBit (k % W) else v.get k := by
      intro k
      rw [get_eq_testBit, get_eq_testBit]
      rw [word_set v i w (k / W) histore]
      by_cases hk : k / W = i
      · have hklen : k < v.len := div_lt_words hW (by omega)
        rw [if_pos hk, if_pos ⟨hk, hklen⟩]
      · rw [if_neg hk, if_neg (fun hc => hk hc.1)]
    refine ⟨rfl, ⟨by simpa using hInv.slen, ?_, ?_⟩, hget⟩
    · intro u hu
      rcases List.mem_or_eq_of_mem_set hu with h' | rfl
      · exact hInv.wlt _ h'
      · exact hw
    · intro k hk
      have hk' : v.len ≤ k := hk
      rw [hget k, if_neg ?_]
      · exact hInv.tail k hk'
      · rintro ⟨h1, h2⟩
        omega
  · rw [if_neg hcase]
    have hieq : i = (v.len - 1) / W := by omega
    set lastOffset := (v.len - 1) % W with hlo
    have hlow : lastOffset < W := Nat.mod_lt _ hW
    have hstop : lastOffset + 1 ≤ W := by omega
    set neww := replaceBits W (v.word i) 0 (lastOffset + 1) w with hneww
    have holdbit : ∀ b, lastOffset < b → (v.word i).testBit b = false := by
      intro b hb
      by_cases hbW : b < W
      · have hget := get_eq_testBit v (i * W + b)
        have hdiv : (i * W + b) / W = i := by
          rw [Nat.add_comm, Nat.add_mul_div_right _ _ hW, Nat.div_eq_of_lt hbW]
          omega
        have hmod : (i * W + b) % W = b := by
          rw [Nat.add_comm, Nat.add_mul_mod_self_right]
          exact Nat.mod_eq_of_lt hbW
        rw [hdiv, hmod] at hget
        rw [← hget]
        refine hInv.tail _ ?_
        have h2 : v.len - 1 = i * W + lastOffset := by
          rw [hieq, hlo]
          exact (Nat.div_add_mod' _ _).symm
        omega
      · refine Nat.testBit_eq_false_of_lt ?_
        calc v.word i < 2 ^ W := word_lt hInv hW i
          _ ≤ 2 ^ b := Nat.pow_le_pow_right (by omega) (by omega)
    have hnewbit : ∀ b, neww.testBit b =
        if b ≤ lastOffset then w.testBit b else false := by
      intro b
      rw [hneww, testBit_replaceBits W _ 0 (lastOffset + 1) w b hstop]
      by_cases hb : b ≤ lastOffset
      · rw [if_pos ⟨by omega, by omega⟩, if_pos hb]
      · rw [if_neg (by omega), if_neg hb, holdbit b (by omega)]
        simp
    have hget : ∀ k, (⟨v.len, v.store.set i neww⟩ : BV W).get k =
        if k / W = i ∧ k < v.len then w.testBit (k % W) else v.get k := by
      intro k
      rw [get_eq_testBit, get_eq_testBit]
      rw [word_set v i neww (k / W) histore]
      by_cases hk : k / W = i
      · rw [if_pos hk, hnewbit]
        have hiff : k < v.len ↔ k % W ≤ lastOffset :=
          lt_len_iff_mod hW hlen (by omega)
        by_cases hklen : k < v.len
        · rw [if_pos (hiff.mp hklen), if_pos ⟨hk, hklen⟩]
        · rw [if_neg (fun hc => hklen (hiff.mpr hc)), if_neg (fun hc => hklen hc.2)]
          rw [← get_eq_testBit]
          exact (hInv.tail k (by omega)).symm
      · rw [if_neg hk, if_neg (fun hc => hk hc.1)]
    refine ⟨rfl, ⟨by simpa using hInv.slen, ?_, ?_⟩, hget⟩
    · intro u hu
      rcases List.mem_or_eq_of_mem_set hu with h' | rfl
      · exact hInv.wlt _ h'
      · exact replaceBits_lt W _ 0 (lastOffset + 1) w
    · intro k hk
      have hk' : v.len ≤ k := hk
      rw [hget k, if_neg (fun hc => by omega)]
      exact hInv.tail k hk'

theorem pred_div_mod {W len : Nat} (hW : 0 < W) (h : len % W ≠ 0) :
    (len - 1) / W = len / W ∧ (len - 1) % W = len % W - 1 := by
  have hs : len % W < W := Nat.mod_lt _ hW
  have hd : len % W - 1 < W := by omega
  have h1 : len - 1 = (len % W - 1) + W * (len / W) := by
    have := Nat.div_add_mod len W
    omega
  constructor
  · rw [h1, Nat.add_mul_div_left _ _ hW, Nat.div_eq_of_lt hd]
    omega
  · rw [h1, Nat.add_mul_mod_self_left, Nat.mod_eq_of_lt hd]

/-- Full specification of `BitStore::set`: within the logical length it
sets exactly the requested bit and preserves the invariant. -/
theorem setBit_spec {W : Nat} {v : BV W} (hInv : Inv v) (hW : 0 < W)
    {i : Nat} (hi : i < v.len) (val : Bool) :
    (v.setBit i val).len = v.len ∧ Inv (v.setBit i val) ∧
    ∀ k, (v.setBit i val).get k = if k = i then val else v.get k := by
  have hlen : 0 < v.len := by omega
  have hwordsEq : v.words = (v.len - 1) / W + 1 := by
    unfold BV.words
    rw [hInv.slen, wordsNeeded_eq hW hlen]
  have hwi : i / W < v.words := by
    rw [hwordsEq]
    have := Nat.div_le_div_right (c := W) (show i ≤ v.len - 1 by omega)
    omega
  have hmaskbit : ∀ b, (1 <<< (i % W)).testBit b = decide (i % W = b) := by
    intro b
    rw [Nat.one_shiftLeft, Nat.testBit_two_pow]
  have hmasklt : 1 <<< (i % W) < 2 ^ W := by
    rw [Nat.one_shiftLeft]
    exact Nat.pow_lt_pow_right (by omega) (Nat.mod_lt _ hW)
  have hcur : ((v.word (i / W) &&& 1 <<< (i % W)) != 0) = v.get i := rfl
  have hmodne : ∀ k, k / W = i / W → k ≠ i → k % W ≠ i % W := by
    intro k hdiv hne hmod
    apply hne
    have h1 : k = k % W + W * (k / W) := by
      have := Nat.div_add_mod k W
      omega
    have h2 : i = i % W + W * (i / W) := by
      have := Nat.div_add_mod i W
      omega
    rw [h1, h2, hdiv, hmod]
  unfold BV.setBit
  simp only
  by_cases hc : ((v.word (i / W) &&& 1 <<< (i % W)) != 0) ≠ val
  · rw [if_pos hc]
    obtain ⟨hlen', hInv', hget'⟩ :=
      setWord_spec hInv hW hwi (Nat.xor_lt_two_pow (word_lt hInv hW (i / W)) hmasklt)
    refine ⟨hlen', hInv', ?_⟩
    intro k
    rw [hget' k]
    by_cases hk : k = i
    · subst hk
      rw [if_pos ⟨rfl, hi⟩, Nat.testBit_xor, hmaskbit, decide_eq_true rfl]
      rw [hcur] at hc
      rw [get_eq_testBit] at hc
      cases h1 : (v.word (k / W)).testBit (k % W) <;> cases val <;>
        rw [h1] at hc <;> simp at hc ⊢
    · by_cases hkd : k / W = i / W ∧ k < v.len
      · rw [if_pos hkd, if_neg hk, Nat.testBit_xor, hmaskbit,
          decide_eq_false (fun hmm => hmodne k hkd.1 hk hmm.symm), get_eq_testBit, hkd.1]
        simp
      · rw [if_neg hkd, if_neg hk]
  · rw [if_neg hc]
    refine ⟨rfl, hInv, ?_⟩
    intro k
    by_cases hk : k = i
    · subst hk
      rw [if_pos rfl]
      rw [hcur] at hc
      cases h1 : v.get k <;> cases val <;> rw [h1] at hc <;> simp at hc ⊢
    · rw [if_neg hk]

/-- `BitVec::clean` establishes the invariant from a well-sized store and
does not change the live bits. -/
theorem clean_spec {W : Nat} {v : BV W} (hW : 0 < W)
    (hslen : v.store.length = wordsNeeded W v.len)
    (hwlt : ∀ w ∈ v.store, w < 2 ^ W) :
    (BV.clean v).len = v.len ∧ Inv (BV.clean v) ∧
    ∀ k, k < v.len → (BV.clean v).get k = v.get k := by
  unfold BV.clean
  by_cases hsh : v.len % W ≠ 0
  · rw [if_pos hsh]
    have hlen : 0 < v.len := by
      rcases Nat.eq_zero_or_pos v.len with h | h
      · rw [h] at hsh
        simp at hsh
      · exact h
    obtain ⟨hpd, hpm⟩ := pred_div_mod hW hsh
    have hsw : v.len % W < W := Nat.mod_lt _ hW
    have hidx : (v.len - 1) / W < v.store.length := by
      rw [hslen, wordsNeeded_eq hW hlen]
      omega
    have hmaskbit : ∀ b, (wnot W (shlw W (wmax W) (v.len % W))).testBit b =
        decide (b < v.len % W) := by
      intro b
      show (wnot W (ushl W (wmax W) (v.len % W))).testBit b = _
      rw [testBit_wnot, testBit_ushl_wmax]
      by_cases h1 : b < W <;> by_cases h2 : b < v.len % W <;> simp [h1, h2] <;> omega
    have hword : ∀ j, (⟨v.len, v.store.set ((v.len - 1) / W)
        (v.store.getD ((v.len - 1) / W) 0 &&& wnot W (shlw W (wmax W) (v.len % W)))⟩ :
          BV W).word j =
        if j = (v.len - 1) / W
        then v.word ((v.len - 1) / W) &&& wnot W (shlw W (wmax W) (v.len % W))
        else v.word j := by
      intro j
      exact word_set v _ _ j hidx
    have hget : ∀ k, (⟨v.len, v.store.set ((v.len - 1) / W)
        (v.store.getD ((v.len - 1) / W) 0 &&& wnot W (shlw W (wmax W) (v.len % W)))⟩ :
          BV W).get k = if k < v.len then v.get k else false := by
      intro k
      rw [get_eq_testBit, hword]
      by_cases hkd : k / W = (v.len - 1) / W
      · rw [if_pos hkd, Nat.testBit_and, hmaskbit]
        have hiff : k < v.len ↔ k % W ≤ (v.len - 1) % W := lt_len_iff_mod hW hlen hkd
        by_cases hklen : k < v.len
        · rw [if_pos hklen, get_eq_testBit, hkd]
          have : k % W < v.len % W := by
            have := hiff.mp hklen
            omega
          simp [this]
        · rw [if_neg hklen]
          have : ¬ (k % W < v.len % W) := by
            have := hiff
            omega
          simp [this]
      · rw [if_neg hkd]
        by_cases hklen : k < v.len
        · rw [if_pos hklen, get_eq_testBit]
        · rw [if_neg hklen]
          have hge : v.store.length ≤ k / W := by
            rw [hslen, wordsNeeded_eq hW hlen]
            have := Nat.div_le_div_right (c := W) (show v.len - 1 ≤ k by omega)
            omega
          unfold BV.word
          rw [GaussProof.getD_ge _ _ _ hge]
          simp
    refine ⟨rfl, ⟨by simpa using hslen, ?_, ?_⟩, ?_⟩
    · intro u hu
      rcases List.mem_or_eq_of_mem_set hu with h' | rfl
      · exact hwlt _ h'
      · calc v.store.getD ((v.len - 1) / W) 0 &&& _ ≤ v.store.getD ((v.len - 1) / W) 0 :=
            Nat.and_le_left
          _ < 2 ^ W := by
            rw [GaussProof.getD_lt _ _ _ hidx]
            exact hwlt _ (List.getElem_mem hidx)
    · intro k hk
      have hk' : v.len ≤ k := hk
      rw [hget k, if_neg (by omega)]
    · intro k hk
      rw [hget k, if_pos hk]
  · rw [if_neg hsh]
    have hmod : v.len % W = 0 := by omega
    refine ⟨rfl, ⟨hslen, hwlt, ?_⟩, fun k _ => rfl⟩
    intro k hk
    have hk' : v.len ≤ k := hk
    have hge : v.store.length ≤ k / W := by
      rw [hslen]
      have hq : v.len = W * (v.len / W) := by
        have := Nat.div_add_mod v.len W
        omega
      have h1 : wordsNeeded W v.len = v.len / W := by
        unfold wordsNeeded
        rw [show v.len + (W - 1) = (W - 1) + W * (v.len / W) by omega,
          Nat.add_mul_div_left _ _ hW, Nat.div_eq_of_lt (by omega), Nat.zero_add]
      rw [h1]
      exact Nat.div_le_div_right hk'
    rw [get_eq_testBit]
    unfold BV.word
    rw [GaussProof.getD_ge _ _ _ hge]
    simp

theorem zeros_inv {W : Nat} (hW : 0 < W) (len : Nat) :
    Inv (BV.zeros W len) ∧ (BV.zeros W len).len = len ∧
    ∀ k, (BV.zeros W len).get k = false := by
  have hget : ∀ k, (BV.zeros W len).get k = false := by
    intro k
    rw [get_eq_testBit]
    unfold BV.word BV.zeros
    by_cases hk : k / W < wordsNeeded W len
    · rw [GaussProof.getD_lt _ _ _ (by simpa using hk)]
      simp [List.getElem_replicate]
    · rw [GaussProof.getD_ge _ _ _ (by simpa using hk)]
      simp
  exact ⟨⟨by simp [BV.zeros], fun w hw => by
      rw [List.eq_of_mem_replicate hw]; exact Nat.pos_pow_of_pos _ (by omega),
    fun k _ => hget k⟩, rfl, hget⟩

theorem ones_inv {W : Nat} (hW : 0 < W) (len : Nat) :
    Inv (BV.ones W len) ∧ (BV.ones W len).len = len ∧
    ∀ k, (BV.ones W len).get k = decide (k < len) := by
  have hbase : (⟨len, List.replicate (wordsNeeded W len) (wmax W)⟩ : BV W).store.length =
      wordsNeeded W (⟨len, List.replicate (wordsNeeded W len) (wmax W)⟩ : BV W).len := by
    simp
  have hwlt : ∀ w ∈ (⟨len, List.replicate (wordsNeeded W len) (wmax W)⟩ : BV W).store,
      w < 2 ^ W := by
    intro w hw
    rw [List.eq_of_mem_replicate hw]
    unfold wmax
    have := Nat.pos_pow_of_pos W (show 0 < 2 by omega)
    omega
  obtain ⟨hlen, hInv, hlive⟩ := clean_spec hW hbase hwlt
  refine ⟨hInv, hlen, ?_⟩
  intro k
  by_cases hk : k < len
  · rw [show BV.ones W len = BV.clean ⟨len, List.replicate (wordsNeeded W len) (wmax W)⟩
      from rfl]
    rw [hlive k hk, decide_eq_true hk, get_eq_testBit]
    unfold BV.word
    have hkw : k / W < wordsNeeded W len := by
      rw [wordsNeeded_eq hW (by omega)]
      have := Nat.div_le_div_right (c := W) (show k ≤ len - 1 by omega)
      omega
    show ((List.replicate (wordsNeeded W len) (wmax W)).getD (k / W) 0).testBit (k % W) = true
    rw [GaussProof.getD_lt _ _ _ (by simpa using hkw)]
    rw [List.getElem_replicate, testBit_wmax]
    simp [Nat.mod_lt _ hW]
  · rw [decide_eq_false hk]
    exact hInv.tail k (by rw [hlen]; show len ≤ k; omega)

/-- Closed form of the coefficient-building fold of
`characteristic_polynomial_companion_matrix`: after the first `m` writes,
slots `n-m … n-1` hold the reversed top row and all other slots still hold
the initial all-ones pattern. -/
theorem charPolyFold_get {W : Nat} (hW : 0 < W) (topRow : BV W) :
    ∀ m, m ≤ topRow.len →
      BVProof.Inv ((List.range m).foldl
        (fun (acc : BV W) j => acc.setBit (topRow.len - j - 1) (topRow.get j))
        (BV.ones W (topRow.len + 1))) ∧
      ((List.range m).foldl
        (fun (acc : BV W) j => acc.setBit (topRow.len - j - 1) (topRow.get j))
        (BV.ones W (topRow.len + 1))).len = topRow.len + 1 ∧
      ∀ k, ((List.range m).foldl
        (fun (acc : BV W) j => acc.setBit (topRow.len - j - 1) (topRow.get j))
        (BV.ones W (topRow.len + 1))).get k =
          if topRow.len - m ≤ k ∧ k < topRow.len then topRow.get (topRow.len - 1 - k)
          else decide (k < topRow.len + 1) := by
  intro m
  induction m with
  | zero =>
    intro _
    obtain ⟨hInv, hlen, hget⟩ := BVProof.ones_inv hW (topRow.len + 1)
    refine ⟨hInv, hlen, ?_⟩
    intro k
    simp only [List.range_zero, List.foldl_nil]
    rw [hget k, if_neg ?_]
    rintro ⟨h1, h2⟩
    omega
  | succ m ih =>
    intro hm
    obtain ⟨ihInv, ihlen, ihget⟩ := ih (by omega)
    rw [List.range_succ, List.foldl_append]
    simp only [List.foldl_cons, List.foldl_nil]
    obtain ⟨hlen', hInv', hget'⟩ :=
      BVProof.setBit_spec ihInv hW (show topRow.len - m - 1 < _ by rw [ihlen]; omega)
        (topRow.get m)
    refine ⟨hInv', by rw [hlen', ihlen], ?_⟩
    intro k
    rw [hget' k]
    by_cases hk : k = topRow.len - m - 1
    · subst hk
      rw [if_pos rfl, if_pos (by omega)]
      congr 1
      omega
    · rw [if_neg hk, ihget k]
      by_cases h1 : topRow.len - m ≤ k ∧ k < topRow.len
      · rw [if_pos h1, if_pos (by omega)]
      · rw [if_neg h1, if_neg (by omega)]

end BVProof

/-! ## The companion matrix over `GF(2)` and its characteristic polynomial -/

/-- `BitMatrix::companion(top_row)` (`src/matrix.rs`): the zero matrix with
the top row copied in and ones on the first sub-diagonal. -/
def companionMat (top : List Bool) : Mat :=
  (List.range top.length).map (fun i =>
    if i = 0 then top
    else (List.range top.length).map (fun j => decide (j + 1 = i)))

/-- A list-of-rows matrix read as an `n × n` matrix over `GF(2)`. -/
def toMZ (n : Nat) (M : Mat) : Matrix (Fin n) (Fin n) (ZMod 2) :=
  Matrix.of fun i j => b2z (Mat.mget M i j)

namespace CompanionProof

open Polynomial

theorem neg_one_char2 : (-1 : Polynomial (ZMod 2)) = 1 := by
  have h : (1 : Polynomial (ZMod 2)) + 1 = 0 := by
    rw [← Polynomial.C_1, ← Polynomial.C_add]
    rw [show (1 : ZMod 2) + 1 = 0 from rfl, Polynomial.C_0]
  rw [neg_eq_iff_add_eq_zero]
  exact h

theorem neg_C_char2 (a : ZMod 2) : -(Polynomial.C a) = Polynomial.C a := by
  have h : -(Polynomial.C a) = (-1) * Polynomial.C a := by ring
  rw [h, neg_one_char2, one_mul]

/-- The minor of the char-matrix at `(0, last)` is triangular with `-1`s on
the diagonal. -/
theorem det_minor0 (n : Nat) (c : Fin (n + 2) → ZMod 2) :
    ((Matrix.charmatrix (Matrix.of fun i j : Fin (n + 2) =>
        if (i : Nat) = 0 then c j else if (j : Nat) + 1 = (i : Nat) then 1 else 0)).submatrix
      ((0 : Fin (n + 2)).succAbove) ((Fin.last (n + 1)).succAbove)).det = (-1) ^ (n + 1) := by
  rw [Fin.succAbove_zero, Fin.succAbove_last]
  have htri : (((Matrix.charmatrix (Matrix.of fun i j : Fin (n + 2) =>
      if (i : Nat) = 0 then c j else if (j : Nat) + 1 = (i : Nat) then 1 else 0)).submatrix
      Fin.succ Fin.castSucc)).BlockTriangular id := by
    intro i j hij
    have hij' : (j : Nat) < (i : Nat) := hij
    rw [Matrix.submatrix_apply, Matrix.charmatrix_apply_ne _ _ _
      (by intro hc; have := congrArg Fin.val hc; simp at this; omega)]
    have hz : (Matrix.of fun i j : Fin (n + 2) =>
        if (i : Nat) = 0 then c j else if (j : Nat) + 1 = (i : Nat) then 1 else 0)
        i.succ j.castSucc = 0 := by
      simp only [Matrix.of_apply, Fin.val_succ, Fin.coe_castSucc]
      rw [if_neg (by omega), if_neg (by omega)]
    rw [hz, Polynomial.C_0, neg_zero]
  rw [Matrix.det_of_upperTriangular htri]
  have hdiag : ∀ i : Fin (n + 1),
      ((Matrix.charmatrix (Matrix.of fun i j : Fin (n + 2) =>
        if (i : Nat) = 0 then c j else if (j : Nat) + 1 = (i : Nat) then 1 else 0)).submatrix
        Fin.succ Fin.castSucc) i i = -1 := by
    intro i
    rw [Matrix.submatrix_apply, Matrix.charmatrix_apply_ne _ _ _
      (by intro hc; have := congrArg Fin.val hc
          simp only [Fin.val_succ, Fin.coe_castSucc] at this; omega)]
    have h1 : (Matrix.of fun i j : Fin (n + 2) =>
        if (i : Nat) = 0 then c j else if (j : Nat) + 1 = (i : Nat) then 1 else 0)
        i.succ i.castSucc = 1 := by
      simp [Matrix.of_apply]
    rw [h1, Polynomial.C_1]
  calc ∏ i : Fin (n + 1), ((Matrix.charmatrix _).submatrix Fin.succ Fin.castSucc) i i
      = ∏ _i : Fin (n + 1), (-1 : Polynomial (ZMod 2)) :=
        Finset.prod_congr rfl (fun i _ => hdiag i)
    _ = (-1) ^ (n + 1) := by
        rw [Finset.prod_const, Finset.card_univ, Fintype.card_fin]

/-- The minor of the char-matrix at `(last, last)` is the char-matrix of
the one-smaller companion. -/
theorem minor_last_eq (n : Nat) (c : Fin (n + 2) → ZMod 2) :
    ((Matrix.charmatrix (Matrix.of fun i j : Fin (n + 2) =>
        if (i : Nat) = 0 then c j else if (j : Nat) + 1 = (i : Nat) then 1 else 0)).submatrix
      ((Fin.last (n + 1)).succAbove) ((Fin.last (n + 1)).succAbove)) =
    Matrix.charmatrix (Matrix.of fun i j : Fin (n + 1) =>
        if (i : Nat) = 0 then c j.castSucc else if (j : Nat) + 1 = (i : Nat) then 1 else 0) := by
  rw [Fin.succAbove_last]
  ext i j
  have hentry : (Matrix.of fun i j : Fin (n + 2) =>
      if (i : Nat) = 0 then c j else if (j : Nat) + 1 = (i : Nat) then 1 else 0)
      i.castSucc j.castSucc =
      (Matrix.of fun i j : Fin (n + 1) =>
        if (i : Nat) = 0 then c j.castSucc else if (j : Nat) + 1 = (i : Nat) then 1 else 0)
      i j := by
    simp only [Matrix.of_apply, Fin.coe_castSucc]
  by_cases hij : i = j
  · subst hij
    rw [Matrix.submatrix_apply, Matrix.charmatrix_apply_eq, Matrix.charmatrix_apply_eq, hentry]
  · rw [Matrix.submatrix_apply,
      Matrix.charmatrix_apply_ne _ _ _ (fun hc => hij (Fin.castSucc_injective _ hc)),
      Matrix.charmatrix_apply_ne _ _ _ hij, hentry]

/-- The characteristic polynomial of the `GF(2)` row-companion matrix:
`x^n + c_0 x^{n-1} + … + c_{n-1}`. -/
theorem charpoly_rowCompanion (n : Nat) :
    ∀ c : Fin (n + 1) → ZMod 2,
      (Matrix.of fun i j : Fin (n + 1) =>
        if (i : Nat) = 0 then c j
        else if (j : Nat) + 1 = (i : Nat) then 1 else 0).charpoly =
      Polynomial.X ^ (n + 1) +
        ∑ j : Fin (n + 1), Polynomial.C (c j) * Polynomial.X ^ (n - (j : Nat)) := by
  induction n with
  | zero =>
    intro c
    rw [Matrix.charpoly, Matrix.det_fin_one, Matrix.charmatrix_apply_eq]
    have h00 : (Matrix.of fun i j : Fin 1 =>
        if (i : Nat) = 0 then c j else if (j : Nat) + 1 = (i : Nat) then 1 else 0) 0 0 = c 0 := by
      simp [Matrix.of_apply]
    rw [h00, sub_eq_add_neg, neg_C_char2, Fin.sum_univ_one]
    simp
  | succ n ih =>
    intro c
    rw [Matrix.charpoly, Matrix.det_succ_column _ (Fin.last (n + 1)), Fin.sum_univ_succ,
      Fin.sum_univ_castSucc]
    have hmid : ∀ i : Fin n,
        (-1 : Polynomial (ZMod 2)) ^ (((i.castSucc.succ : Fin (n + 2)) : Nat) +
            ((Fin.last (n + 1) : Fin (n + 2)) : Nat)) *
          (Matrix.charmatrix (Matrix.of fun i j : Fin (n + 2) =>
            if (i : Nat) = 0 then c j else if (j : Nat) + 1 = (i : Nat) then 1 else 0))
            i.castSucc.succ (Fin.last (n + 1)) *
          ((Matrix.charmatrix (Matrix.of fun i j : Fin (n + 2) =>
            if (i : Nat) = 0 then c j else if (j : Nat) + 1 = (i : Nat) then 1 else 0)).submatrix
            (i.castSucc.succ.succAbove) ((Fin.last (n + 1)).succAbove)).det = 0 := by
      intro i
      have hne : i.castSucc.succ ≠ Fin.last (n + 1) := by
        intro hc
        have := congrArg Fin.val hc
        simp [Fin.val_succ, Fin.coe_castSucc, Fin.val_last] at this
        omega
      rw [Matrix.charmatrix_apply_ne _ _ _ hne]
      have hz : (Matrix.of fun i j : Fin (n + 2) =>
          if (i : Nat) = 0 then c j else if (j : Nat) + 1 = (i : Nat) then 1 else 0)
          i.castSucc.succ (Fin.last (n + 1)) = 0 := by
        simp only [Matrix.of_apply, Fin.val_succ, Fin.coe_castSucc, Fin.val_last]
        rw [if_neg (by omega), if_neg (by omega)]
      rw [hz, Polynomial.C_0, neg_zero, mul_zero, zero_mul]
    rw [Finset.sum_congr rfl (fun i _ => hmid i), Finset.sum_const_zero, zero_add]
    have hterm0 : (-1 : Polynomial (ZMod 2)) ^ (((0 : Fin (n + 2)) : Nat) +
          ((Fin.last (n + 1) : Fin (n + 2)) : Nat)) *
        (Matrix.charmatrix (Matrix.of fun i j : Fin (n + 2) =>
          if (i : Nat) = 0 then c j else if (j : Nat) + 1 = (i : Nat) then 1 else 0))
          0 (Fin.last (n + 1)) *
        ((Matrix.charmatrix (Matrix.of fun i j : Fin (n + 2) =>
          if (i : Nat) = 0 then c j else if (j : Nat) + 1 = (i : Nat) then 1 else 0)).submatrix
          ((0 : Fin (n + 2)).succAbove) ((Fin.last (n + 1)).succAbove)).det =
        Polynomial.C (c (Fin.last (n + 1))) := by
      rw [det_minor0 n c]
      have hne : (0 : Fin (n + 2)) ≠ Fin.last (n + 1) := by
        intro hc
        have := congrArg Fin.val hc
        simp [Fin.val_last] at this
      rw [Matrix.charmatrix_apply_ne _ _ _ hne]
      have hval : (Matrix.of fun i j : Fin (n + 2) =>
          if (i : Nat) = 0 then c j else if (j : Nat) + 1 = (i : Nat) then 1 else 0)
          0 (Fin.last (n + 1)) = c (Fin.last (n + 1)) := by
        simp [Matrix.of_apply]
      rw [hval, neg_C_char2, neg_one_char2]
      simp
    rw [hterm0]
    have hlast : (Fin.last n).succ = Fin.last (n + 1) := by
      ext
      simp [Fin.val_succ, Fin.val_last]
    rw [hlast]
    have hterml : (-1 : Polynomial (ZMod 2)) ^ (((Fin.last (n + 1) : Fin (n + 2)) : Nat) +
          ((Fin.last (n + 1) : Fin (n + 2)) : Nat)) *
        (Matrix.charmatrix (Matrix.of fun i j : Fin (n + 2) =>
          if (i : Nat) = 0 then c j else if (j : Nat) + 1 = (i : Nat) then 1 else 0))
          (Fin.last (n + 1)) (Fin.last (n + 1)) *
        ((Matrix.charmatrix (Matrix.of fun i j : Fin (n + 2) =>
          if (i : Nat) = 0 then c j else if (j : Nat) + 1 = (i : Nat) then 1 else 0)).submatrix
          ((Fin.last (n + 1)).succAbove) ((Fin.last (n + 1)).succAbove)).det =
        Polynomial.X * (Polynomial.X ^ (n + 1) +
          ∑ j : Fin (n + 1), Polynomial.C (c j.castSucc) * Polynomial.X ^ (n - (j : Nat))) := by
      rw [minor_last_eq n c]
      have hch : Matrix.charpoly (Matrix.of fun i j : Fin (n + 1) =>
          if (i : Nat) = 0 then c j.castSucc else if (j : Nat) + 1 = (i : Nat) then 1 else 0) =
          (Matrix.charmatrix (Matrix.of fun i j : Fin (n + 1) =>
            if (i : Nat) = 0 then c j.castSucc
            else if (j : Nat) + 1 = (i : Nat) then 1 else 0)).det := rfl
      rw [← hch, ih (fun j => c j.castSucc)]
      rw [Matrix.charmatrix_apply_eq]
      have hval : (Matrix.of fun i j : Fin (n + 2) =>
          if (i : Nat) = 0 then c j else if (j : Nat) + 1 = (i : Nat) then 1 else 0)
          (Fin.last (n + 1)) (Fin.last (n + 1)) = 0 := by
        simp only [Matrix.of_apply, Fin.val_last]
        rw [if_neg (by omega), if_neg (by omega)]
      rw [hval, Polynomial.C_0, sub_zero]
      rw [show ((-1 : Polynomial (ZMod 2)) ^ ((Fin.last (n + 1) : Fin (n + 2)).val +
        (Fin.last (n + 1) : Fin (n + 2)).val)) = ((-1) ^ 2) ^ (n + 1) by
          rw [← pow_mul]; congr 1; simp [Fin.val_last]; ring]
      rw [neg_one_sq, one_pow, one_mul]
    rw [hterml]
    rw [Fin.sum_univ_castSucc (f := fun j : Fin (n + 2) =>
      Polynomial.C (c j) * Polynomial.X ^ (n + 1 - (j : Nat)))]
    have hexp : ∀ j : Fin (n + 1), n + 1 - ((j.castSucc : Fin (n + 2)) : Nat) =
        (n - (j : Nat)) + 1 := by
      intro j
      have := j.isLt
      simp only [Fin.coe_castSucc]
      omega
    have hXsum : Polynomial.X * (Polynomial.X ^ (n + 1) +
        ∑ j : Fin (n + 1), Polynomial.C (c j.castSucc) * Polynomial.X ^ (n - (j : Nat))) =
        Polynomial.X ^ (n + 2) +
          ∑ j : Fin (n + 1), Polynomial.C (c j.castSucc) *
            Polynomial.X ^ (n + 1 - ((j.castSucc : Fin (n + 2)) : Nat)) := by
      rw [mul_add, Finset.mul_sum]
      congr 1
      · ring
      · refine Finset.sum_congr rfl (fun j _ => ?_)
        rw [hexp j, pow_succ]
        ring
    rw [show (Fin.last (n + 1) : Fin (n + 2)).val = n + 1 by simp [Fin.val_last]]
    rw [Nat.sub_self, pow_zero, mul_one]
    rw [hXsum]
    ring

/-- The embedded `BitMatrix::companion` read over `GF(2)` is the abstract
row-companion matrix. -/
theorem toMZ_companionMat {W : Nat} (topRow : BV W) :
    toMZ topRow.len (companionMat ((List.range topRow.len).map topRow.get)) =
      Matrix.of fun i j : Fin topRow.len =>
        if (i : Nat) = 0 then b2z (topRow.get j)
        else if (j : Nat) + 1 = (i : Nat) then 1 else 0 := by
  ext i j
  have hn : ((List.range topRow.len).map topRow.get).length = topRow.len := by simp
  have hrow : (companionMat ((List.range topRow.len).map topRow.get)).getD (i : Nat) [] =
      if (i : Nat) = 0 then (List.range topRow.len).map topRow.get
      else (List.range topRow.len).map (fun k => decide (k + 1 = (i : Nat))) := by
    unfold companionMat
    rw [hn]
    rw [GaussProof.getD_lt _ _ _ (by simpa using i.isLt), List.getElem_map,
      List.getElem_range]
  show b2z (Mat.mget (companionMat ((List.range topRow.len).map topRow.get)) i j) = _
  unfold Mat.mget
  rw [hrow]
  by_cases hi : (i : Nat) = 0
  · rw [if_pos hi]
    rw [GaussProof.getD_lt _ _ _ (by simpa using j.isLt), List.getElem_map,
      List.getElem_range]
    simp only [Matrix.of_apply]
    rw [if_pos hi]
  · rw [if_neg hi]
    rw [GaussProof.getD_lt _ _ _ (by simpa using j.isLt), List.getElem_map,
      List.getElem_range]
    simp only [Matrix.of_apply]
    rw [if_neg hi]
    by_cases hj : (j : Nat) + 1 = (i : Nat)
    · rw [if_pos hj]
      simp [b2z, hj]
    · rw [if_neg hj]
      simp [b2z, hj]

end CompanionProof

/-! ## Claim C6 (amended): the companion characteristic polynomial -/

/-- C6 (amended): `characteristic_polynomial_companion_matrix` writes the
top row in REVERSE: for a top row of length `n ≥ 1` the returned
polynomial has coefficient `c_j` at `x^(n-1-j)` (not at `x^j` as the claim
says — see the counterexample), leading coefficient `1` at `x^n`, and
nothing above; and, read over `GF(2)`, this reversed-coefficient
polynomial IS the characteristic polynomial of the companion matrix built
by `BitMatrix::companion` from that top row. -/
theorem C6_companion_charpoly_amended {W : Nat} (topRow : BV W) (hW : 0 < W)
    (hn : 0 < topRow.len) :
    (∀ k, k < topRow.len →
      (charPolyCompanionMatrix topRow).coeff k = topRow.get (topRow.len - 1 - k)) ∧
    (charPolyCompanionMatrix topRow).coeff topRow.len = true ∧
    (∀ k, topRow.len < k → (charPolyCompanionMatrix topRow).coeff k = false) ∧
    Matrix.charpoly (toMZ topRow.len (companionMat ((List.range topRow.len).map topRow.get))) =
      ∑ k ∈ Finset.range (topRow.len + 1),
        Polynomial.C (b2z ((charPolyCompanionMatrix topRow).coeff k)) * Polynomial.X ^ k := by
  obtain ⟨hInv, hlen, hget⟩ := BVProof.charPolyFold_get hW topRow topRow.len le_rfl
  have hcoeff : ∀ k, (charPolyCompanionMatrix topRow).coeff k =
      if topRow.len - topRow.len ≤ k ∧ k < topRow.len then topRow.get (topRow.len - 1 - k)
      else decide (k < topRow.len + 1) := by
    intro k
    exact hget k
  have hc1 : ∀ k, k < topRow.len →
      (charPolyCompanionMatrix topRow).coeff k = topRow.get (topRow.len - 1 - k) := by
    intro k hk
    rw [hcoeff k, if_pos ⟨by omega, hk⟩]
  have hc2 : (charPolyCompanionMatrix topRow).coeff topRow.len = true := by
    rw [hcoeff _, if_neg (by omega)]
    simp
  have hc3 : ∀ k, topRow.len < k → (charPolyCompanionMatrix topRow).coeff k = false := by
    intro k hk
    rw [hcoeff k, if_neg (by omega)]
    simp
    omega
  refine ⟨hc1, hc2, hc3, ?_⟩
  rw [CompanionProof.toMZ_companionMat topRow]
  obtain ⟨m, hm⟩ : ∃ m, topRow.len = m + 1 := ⟨topRow.len - 1, by omega⟩
  rw [hm]
  rw [CompanionProof.charpoly_rowCompanion m (fun j => b2z (topRow.get j))]
  rw [Finset.sum_range_succ]
  have hcoefftop : (charPolyCompanionMatrix topRow).coeff (m + 1) = true := by
    rw [← hm]
    exact hc2
  rw [hcoefftop]
  have hb2ztrue : b2z true = 1 := rfl
  rw [hb2ztrue, Polynomial.C_1, one_mul]
  rw [Fin.sum_univ_eq_sum_range (fun j => Polynomial.C (b2z (topRow.get j)) *
    Polynomial.X ^ (m - j)) (m + 1)]
  rw [← Finset.sum_range_reflect (fun j => Polynomial.C (b2z (topRow.get j)) *
    Polynomial.X ^ (m - j)) (m + 1)]
  rw [add_comm]
  congr 1
  refine Finset.sum_congr rfl (fun k hk => ?_)
  have hkm : k < m + 1 := Finset.mem_range.mp hk
  rw [hc1 k (by omega)]
  have he1 : topRow.len - 1 - k = m + 1 - 1 - k := by omega
  have he2 : m - (m + 1 - 1 - k) = k := by omega
  rw [he1]
  rw [show m + 1 - 1 - k = m - k by omega, show m - (m - k) = k by omega]

/-- Witness for C6: on the top row "10" the amended theorem yields the
leading coefficient of the returned polynomial. -/
theorem C6_companion_charpoly_amended_witness :
    (charPolyCompanionMatrix (⟨2, [1]⟩ : BV 8)).coeff 2 = true :=
  (C6_companion_charpoly_amended (⟨2, [1]⟩ : BV 8) (by decide) (by decide)).2.1

/-! ## Bit-slices (`src/slice.rs`) -/

/-- `BitSlice` (`src/slice.rs`): a non-owning view into backing words,
kept as the index of the first backing word (`m_store` as an offset into
the word array), the bit offset of slice bit 0 inside that word
(`m_offset`), the bit length (`m_len`) and the cached word count
(`m_words`). The backing words are passed explicitly to each operation. -/
structure BitSlice where
  first : Nat
  offset : Nat
  len : Nat
  swords : Nat
deriving DecidableEq, Repr

namespace BitSlice

/-- `BitSlice::new(words, start, end)`. -/
def new (W start stop : Nat) : BitSlice :=
  ⟨start / W, start % W, stop - start, wordsNeeded W (stop - start)⟩

/-- `BitSlice::recipe_for_word(i)` (`src/slice.rs`): how many high bits of
backing word `first+i` and low bits of word `first+i+1` make slice word `i`. -/
def recipeForWord (W : Nat) (s : BitSlice) (i : Nat) : Nat × Nat :=
  let u0Bits := W - s.offset
  let u1Bits := s.offset
  if i = s.swords - 1 then
    let last := s.offset + s.len - 1
    let lastOffset := last % W
    if lastOffset < s.offset then (u0Bits, lastOffset + 1)
    else (lastOffset - s.offset + 1, 0)
  else (u0Bits, u1Bits)

/-- `BitSlice::set_word(i, value)` (`src/slice.rs`): write through the view
into the backing words, touching only the bits of slice word `i`. -/
def setWord (W : Nat) (store : List Nat) (s : BitSlice) (i : Nat) (value : Nat) : List Nat :=
  let r := recipeForWord W s i
  let u0idx := s.first + i
  let store1 := store.set u0idx
    (replaceBits W (store.getD u0idx 0) s.offset (s.offset + r.1) (ushl W value s.offset))
  if r.2 ≠ 0 then
    store1.set (u0idx + 1)
      (replaceBits W (store1.getD (u0idx + 1) 0) 0 r.2 (ushr value r.1))
  else store1

end BitSlice

/-- Bit `b` of a backing word array. -/
def bitAt (W : Nat) (store : List Nat) (b : Nat) : Bool :=
  (store.getD (b / W) 0).testBit (b % W)

namespace BVProof

/-- `BitVec::resize` keeps the invariant; the live bits shared by the old
and new lengths are unchanged. -/
theorem resize_spec {W : Nat} {v : BV W} (hInv : Inv v) (hW : 0 < W) (newLen : Nat) :
    (v.resize newLen).len = newLen ∧ Inv (v.resize newLen) ∧
    ∀ k, k < min v.len newLen → (v.resize newLen).get k = v.get k := by
  unfold BV.resize
  by_cases hne : newLen ≠ v.len
  · rw [if_pos hne]
    have hlistlen : (BV.listResize v.store (wordsNeeded W newLen)).length =
        wordsNeeded W newLen := by
      unfold BV.listResize
      simp only [List.length_append, List.length_take, List.length_replicate]
      omega
    have hlistlt : ∀ w ∈ BV.listResize v.store (wordsNeeded W newLen), w < 2 ^ W := by
      intro w hw
      unfold BV.listResize at hw
      rcases List.mem_append.mp hw with h' | h'
      · exact hInv.wlt _ (List.mem_of_mem_take h')
      · rw [List.eq_of_mem_replicate h']
        exact Nat.pos_pow_of_pos _ (by omega)
    have hword : ∀ j, (BV.listResize v.store (wordsNeeded W newLen)).getD j 0 =
        if j < wordsNeeded W newLen then v.word j else 0 := by
      intro j
      by_cases hj : j < wordsNeeded W newLen
      · rw [if_pos hj]
        by_cases hjs : j < v.store.length
        · rw [GaussProof.getD_lt _ _ _ (by rw [hlistlen]; omega)]
          unfold BV.listResize
          rw [List.getElem_append_left (by simp only [List.length_take]; omega)]
          rw [List.getElem_take]
          unfold BV.word
          rw [GaussProof.getD_lt _ _ _ hjs]
        · have hv : v.word j = 0 := by
            unfold BV.word
            rw [GaussProof.getD_ge _ _ _ (by omega)]
          rw [hv, GaussProof.getD_lt _ _ _ (by rw [hlistlen]; omega)]
          unfold BV.listResize
          rw [List.getElem_append_right (by simp only [List.length_take]; omega)]
          rw [List.getElem_replicate]
      · rw [if_neg hj, GaussProof.getD_ge _ _ _ (by rw [hlistlen]; omega)]
    have hget' : ∀ k, (⟨newLen, BV.listResize v.store (wordsNeeded W newLen)⟩ : BV W).get k =
        if k / W < wordsNeeded W newLen then v.get k else false := by
      intro k
      rw [get_eq_testBit]
      show ((BV.listResize v.store (wordsNeeded W newLen)).getD (k / W) 0).testBit (k % W) = _
      rw [hword]
      by_cases hk : k / W < wordsNeeded W newLen
      · rw [if_pos hk, if_pos hk, get_eq_testBit]
      · rw [if_neg hk, if_neg hk]
        simp
    have hmono : ∀ a c : Nat, a ≤ c → wordsNeeded W a ≤ wordsNeeded W c := by
      intro a c hac
      unfold wordsNeeded
      exact Nat.div_le_div_right (by omega)
    by_cases hlt : newLen < v.len
    · rw [if_pos hlt]
      obtain ⟨hclen, hcInv, hclive⟩ := clean_spec hW
        (show (⟨newLen, BV.listResize v.store (wordsNeeded W newLen)⟩ : BV W).store.length =
          wordsNeeded W (⟨newLen, BV.listResize v.store (wordsNeeded W newLen)⟩ : BV W).len
          from hlistlen) hlistlt
      refine ⟨hclen, hcInv, ?_⟩
      intro k hk
      have hknew : k < newLen := by omega
      rw [hclive k hknew, hget' k, if_pos ?_]
      rw [wordsNeeded_eq hW (by omega)]
      have := Nat.div_le_div_right (c := W) (show k ≤ newLen - 1 by omega)
      omega
    · rw [if_neg hlt]
      have hgrow : v.len < newLen := by omega
      have htail : ∀ k, newLen ≤ k →
          (⟨newLen, BV.listResize v.store (wordsNeeded W newLen)⟩ : BV W).get k = false := by
        intro k hk
        rw [hget' k]
        by_cases hkw : k / W < wordsNeeded W newLen
        · rw [if_pos hkw]
          exact hInv.tail k (by omega)
        · rw [if_neg hkw]
      refine ⟨rfl, ⟨hlistlen, hlistlt, fun k hk => htail k hk⟩, ?_⟩
      intro k hk
      have hkv : k < v.len := by omega
      rw [hget' k, if_pos ?_]
      have h1 : k / W < wordsNeeded W v.len := by
        rw [wordsNeeded_eq hW (by omega)]
        have := Nat.div_le_div_right (c := W) (show k ≤ v.len - 1 by omega)
        omega
      have h2 := hmono v.len newLen (by omega)
      omega
  · rw [if_neg hne]
    have heq : newLen = v.len := by omega
    exact ⟨heq.symm, hInv, fun k _ => rfl⟩

theorem divmod_window {W : Nat} (hW : 0 < W) (u0idx off stop b : Nat) (hstop : stop ≤ W) :
    (b / W = u0idx ∧ off ≤ b % W ∧ b % W < stop) ↔
      (u0idx * W + off ≤ b ∧ b < u0idx * W + stop) := by
  have hsm : (u0idx + 1) * W = u0idx * W + W := Nat.succ_mul u0idx W
  constructor
  · rintro ⟨h1, h2, h3⟩
    have hb : W * u0idx + b % W = b := by
      rw [← h1]
      exact Nat.div_add_mod b W
    have hcomm : W * u0idx = u0idx * W := Nat.mul_comm W u0idx
    omega
  · rintro ⟨h1, h2⟩
    have hdiv : b / W = u0idx := Nat.div_eq_of_lt_le (by omega) (by omega)
    have hb : W * u0idx + b % W = b := by
      rw [← hdiv]
      exact Nat.div_add_mod b W
    have hcomm : W * u0idx = u0idx * W := Nat.mul_comm W u0idx
    exact ⟨hdiv, by omega, by omega⟩

/-- Writing the shifted value into the first backing word only changes the
bits of that word in the window `[offset, stop)`. -/
theorem set_replace_low {W : Nat} (hW : 0 < W) (store : List Nat) (u0idx : Nat)
    (hlt : u0idx < store.length) (offset stop value : Nat) (hstop : stop ≤ W) (b : Nat) :
    bitAt W (store.set u0idx
        (replaceBits W (store.getD u0idx 0) offset stop (ushl W value offset))) b =
      if b / W = u0idx ∧ offset ≤ b % W ∧ b % W < stop
      then value.testBit (b % W - offset)
      else bitAt W store b := by
  unfold bitAt
  have hbW : b % W < W := Nat.mod_lt _ hW
  by_cases hbw : b / W = u0idx
  · rw [hbw, getD_set_eq _ _ _ _ hlt, testBit_replaceBits _ _ _ _ _ _ hstop]
    by_cases hin : offset ≤ b % W ∧ b % W < stop
    · rw [if_pos hin, if_pos ⟨rfl, hin.1, hin.2⟩]
      show (ushl W value offset).testBit (b % W) = value.testBit (b % W - offset)
      unfold ushl
      rw [Nat.testBit_mod_two_pow, Nat.testBit_shiftLeft]
      simp [hbW, hin.1]
    · rw [if_neg hin, if_neg (fun hc => hin ⟨hc.2.1, hc.2.2⟩)]
      simp [hbW]
  · rw [getD_set_ne _ _ _ (fun h => hbw h.symm), if_neg (fun hc => hbw hc.1)]

/-- Writing the down-shifted value into the second backing word only
changes the bits of that word below `u1Bits`. -/
theorem set_replace_high {W : Nat} (hW : 0 < W) (store : List Nat) (idx1 : Nat)
    (hlt : idx1 < store.length) (u1Bits u0Bits value : Nat) (hstop : u1Bits ≤ W) (b : Nat) :
    bitAt W (store.set idx1
        (replaceBits W (store.getD idx1 0) 0 u1Bits (ushr value u0Bits))) b =
      if b / W = idx1 ∧ b % W < u1Bits
      then value.testBit (u0Bits + b % W)
      else bitAt W store b := by
  unfold bitAt
  have hbW : b % W < W := Nat.mod_lt _ hW
  by_cases hbw : b / W = idx1
  · rw [hbw, getD_set_eq _ _ _ _ hlt, testBit_replaceBits _ _ _ _ _ _ hstop]
    by_cases hin : b % W < u1Bits
    · rw [if_pos ⟨Nat.zero_le _, hin⟩, if_pos ⟨rfl, hin⟩]
      show (ushr value u0Bits).testBit (b % W) = value.testBit (u0Bits + b % W)
      unfold ushr
      rw [Nat.testBit_shiftRight]
    · rw [if_neg (fun hc => hin hc.2), if_neg (fun hc => hin hc.2)]
      simp [hbW]
  · rw [getD_set_ne _ _ _ (fun h => hbw h.symm), if_neg (fun hc => hbw hc.1)]

set_option maxHeartbeats 1600000 in
/-- Full specification of `BitSlice::set_word`: the backing store keeps its
length, and exactly the backing bits in the window of slice word `i` — all
inside the slice's accessible view — take the low bits of `value`; every
other backing bit is untouched. -/
theorem sliceSetWord_spec {W : Nat} (hW : 0 < W) (s : BitSlice) (hoff : s.offset < W)
    (hswords : s.swords = wordsNeeded W s.len) (hlen : 0 < s.len)
    {i : Nat} (hi : i < s.swords) (store : List Nat) (value : Nat)
    (hfit : s.first * W + s.offset + s.len ≤ store.length * W) :
    (BitSlice.setWord W store s i value).length = store.length ∧
    ∀ b, bitAt W (BitSlice.setWord W store s i value) b =
      if s.first * W + s.offset + i * W ≤ b ∧
          b < s.first * W + s.offset + min ((i + 1) * W) s.len
      then value.testBit (b - (s.first * W + s.offset + i * W))
      else bitAt W store b := by
  have hq : s.len - 1 = (s.len - 1) / W * W + (s.len - 1) % W := (Nat.div_add_mod' _ _).symm
  have hr : (s.len - 1) % W < W := Nat.mod_lt _ hW
  have hwords : s.swords = (s.len - 1) / W + 1 := by
    rw [hswords, wordsNeeded_eq hW hlen]
  have hu0 : (s.first + i) * W = s.first * W + i * W := Nat.add_mul s.first i W
  have hu01 : (s.first + i + 1) * W = s.first * W + i * W + W := by
    rw [Nat.add_mul (s.first + i) 1 W, hu0]
    omega
  have hiq : i * W ≤ (s.len - 1) / W * W := Nat.mul_le_mul_right W (by omega)
  have hu0lt : s.first + i < store.length := by
    have h1 : (s.first + i) * W < store.length * W := by omega
    exact lt_of_mul_lt_mul_right h1 (Nat.zero_le W)
  by_cases hcase : i = s.swords - 1
  · have hieq : i = (s.len - 1) / W := by omega
    have hlast : s.offset + s.len - 1 = (s.offset + (s.len - 1) % W) + W * ((s.len - 1) / W) := by
      have hc : W * ((s.len - 1) / W) = (s.len - 1) / W * W := Nat.mul_comm _ _
      omega
    have hlomod : (s.offset + s.len - 1) % W = (s.offset + (s.len - 1) % W) % W := by
      rw [hlast, Nat.add_mul_mod_self_left]
    have hminlen : min ((i + 1) * W) s.len = s.len := by
      refine Nat.min_eq_right ?_
      have hsm : (i + 1) * W = i * W + W := Nat.succ_mul i W
      have hiw : i * W = (s.len - 1) / W * W := by rw [hieq]
      omega
    by_cases hsplit : (s.offset + s.len - 1) % W < s.offset
    · -- final slice word spans two backing words
      have hge : W ≤ s.offset + (s.len - 1) % W := by
        by_contra hlt2
        rw [hlomod, Nat.mod_eq_of_lt (by omega)] at hsplit
        omega
      have hlo : (s.offset + s.len - 1) % W = s.offset + (s.len - 1) % W - W := by
        rw [hlomod, Nat.mod_eq_sub_mod hge, Nat.mod_eq_of_lt (by omega)]
      have hrecipe : BitSlice.recipeForWord W s i =
          (W - s.offset, (s.offset + s.len - 1) % W + 1) := by
        show (if i = s.swords - 1 then
            (if (s.offset + s.len - 1) % W < s.offset
              then (W - s.offset, (s.offset + s.len - 1) % W + 1)
              else ((s.offset + s.len - 1) % W - s.offset + 1, 0))
          else (W - s.offset, s.offset)) = _
        rw [if_pos hcase, if_pos hsplit]
      have hu1lt : s.first + i + 1 < store.length := by
        have hiw : i * W = (s.len - 1) / W * W := by rw [hieq]
        have h1 : (s.first + i + 1) * W < store.length * W := by omega
        exact lt_of_mul_lt_mul_right h1 (Nat.zero_le W)
      have hset : BitSlice.setWord W store s i value =
          (store.set (s.first + i) (replaceBits W (store.getD (s.first + i) 0) s.offset
            (s.offset + (W - s.offset)) (ushl W value s.offset))).set (s.first + i + 1)
            (replaceBits W ((store.set (s.first + i) (replaceBits W (store.getD (s.first + i) 0)
              s.offset (s.offset + (W - s.offset)) (ushl W value s.offset))).getD
                (s.first + i + 1) 0)
              0 ((s.offset + s.len - 1) % W + 1) (ushr value (W - s.offset))) := by
        unfold BitSlice.setWord
        rw [hrecipe]
        rw [if_pos (show ((W - s.offset, (s.offset + s.len - 1) % W + 1) : Nat × Nat).2 ≠ 0 by
          show (s.offset + s.len - 1) % W + 1 ≠ 0
          omega)]
      rw [hset]
      refine ⟨by simp, ?_⟩
      intro b
      rw [set_replace_high hW _ _ (by simpa using hu1lt) _ _ _ (by omega) b]
      rw [set_replace_low hW _ _ hu0lt _ _ _ (by omega) b]
      rw [hminlen]
      have hw1 := divmod_window hW (s.first + i + 1) 0 ((s.offset + s.len - 1) % W + 1) b
        (by omega)
      have hw0 := divmod_window hW (s.first + i) s.offset (s.offset + (W - s.offset)) b
        (by omega)
      have hb := Nat.div_add_mod b W
      by_cases hc1 : b / W = s.first + i + 1 ∧ b % W < (s.offset + s.len - 1) % W + 1
      · rw [if_pos hc1]
        have hrange := hw1.mp ⟨hc1.1, Nat.zero_le _, hc1.2⟩
        rw [if_pos (by omega)]
        congr 1
        have hcm : W * (b / W) = b / W * W := Nat.mul_comm _ _
        have hbw : b / W * W = (s.first + i + 1) * W := by rw [hc1.1]
        have hiw : i * W = (s.len - 1) / W * W := by rw [hieq]
        omega
      · rw [if_neg hc1]
        by_cases hc0 : b / W = s.first + i ∧ s.offset ≤ b % W ∧
            b % W < s.offset + (W - s.offset)
        · rw [if_pos hc0]
          have hrange := hw0.mp hc0
          have hiw : i * W = (s.len - 1) / W * W := by rw [hieq]
          rw [if_pos (by omega)]
          congr 1
          have hcm : W * (b / W) = b / W * W := Nat.mul_comm _ _
          have hbw : b / W * W = (s.first + i) * W := by rw [hc0.1]
          omega
        · rw [if_neg hc0]
          rw [if_neg ?_]
          rintro ⟨hA, hB⟩
          have hiw : i * W = (s.len - 1) / W * W := by rw [hieq]
          by_cases hbin : b < (s.first + i + 1) * W
          · exact hc0 (hw0.mpr ⟨by omega, by omega⟩)
          · exact hc1 (by
              have := hw1.mpr ⟨by omega, by omega⟩
              exact ⟨this.1, this.2.2⟩)
    · -- final slice word fits in one backing word
      have hlt2 : s.offset + (s.len - 1) % W < W := by
        by_contra hge
        have hlo : (s.offset + s.len - 1) % W = s.offset + (s.len - 1) % W - W := by
          rw [hlomod, Nat.mod_eq_sub_mod (by omega), Nat.mod_eq_of_lt (by omega)]
        omega
      have hlo : (s.offset + s.len - 1) % W = s.offset + (s.len - 1) % W := by
        rw [hlomod, Nat.mod_eq_of_lt hlt2]
      have hrecipe : BitSlice.recipeForWord W s i =
          ((s.offset + s.len - 1) % W - s.offset + 1, 0) := by
        show (if i = s.swords - 1 then
            (if (s.offset + s.len - 1) % W < s.offset
              then (W - s.offset, (s.offset + s.len - 1) % W + 1)
              else ((s.offset + s.len - 1) % W - s.offset + 1, 0))
          else (W - s.offset, s.offset)) = _
        rw [if_pos hcase, if_neg hsplit]
      have hset : BitSlice.setWord W store s i value =
          store.set (s.first + i) (replaceBits W (store.getD (s.first + i) 0) s.offset
            (s.offset + ((s.offset + s.len - 1) % W - s.offset + 1)) (ushl W value s.offset)) := by
        unfold BitSlice.setWord
        rw [hrecipe]
        rw [if_neg (show ¬(((s.offset + s.len - 1) % W - s.offset + 1, 0) : Nat × Nat).2 ≠ 0 by
          show ¬ (0 : Nat) ≠ 0
          omega)]
      rw [hset]
      refine ⟨by simp, ?_⟩
      intro b
      rw [set_replace_low hW _ _ hu0lt _ _ _ (by omega) b]
      rw [hminlen]
      have hw0 := divmod_window hW (s.first + i) s.offset
        (s.offset + ((s.offset + s.len - 1) % W - s.offset + 1)) b (by omega)
      have hiw : i * W = (s.len - 1) / W * W := by rw [hieq]
      by_cases hc0 : b / W = s.first + i ∧ s.offset ≤ b % W ∧
          b % W < s.offset + ((s.offset + s.len - 1) % W - s.offset + 1)
      · rw [if_pos hc0]
        have hrange := hw0.mp hc0
        rw [if_pos (by omega)]
        congr 1
        have hb := Nat.div_add_mod b W
        have hcm : W * (b / W) = b / W * W := Nat.mul_comm _ _
        have hbw : b / W * W = (s.first + i) * W := by rw [hc0.1]
        omega
      · rw [if_neg hc0]
        rw [if_neg ?_]
        rintro ⟨hA, hB⟩
        exact hc0 (hw0.mpr ⟨by omega, by omega⟩)
  · -- a non-final slice word: a full word of bits
    have hiltq : i < (s.len - 1) / W := by omega
    have hsm : (i + 1) * W = i * W + W := Nat.succ_mul i W
    have hiq1 : (i + 1) * W ≤ (s.len - 1) / W * W := Nat.mul_le_mul_right W (by omega)
    have hminlen : min ((i + 1) * W) s.len = (i + 1) * W := by
      refine Nat.min_eq_left ?_
      omega
    have hrecipe : BitSlice.recipeForWord W s i = (W - s.offset, s.offset) := by
      show (if i = s.swords - 1 then
          (if (s.offset + s.len - 1) % W < s.offset
            then (W - s.offset, (s.offset + s.len - 1) % W + 1)
            else ((s.offset + s.len - 1) % W - s.offset + 1, 0))
        else (W - s.offset, s.offset)) = _
      rw [if_neg hcase]
    by_cases hoff0 : s.offset = 0
    · have hset : BitSlice.setWord W store s i value =
          store.set (s.first + i) (replaceBits W (store.getD (s.first + i) 0) s.offset
            (s.offset + (W - s.offset)) (ushl W value s.offset)) := by
        unfold BitSlice.setWord
        rw [hrecipe]
        rw [if_neg (show ¬((W - s.offset, s.offset) : Nat × Nat).2 ≠ 0 by
          show ¬ s.offset ≠ 0
          omega)]
      rw [hset]
      refine ⟨by simp, ?_⟩
      intro b
      rw [set_replace_low hW _ _ hu0lt _ _ _ (by omega) b]
      rw [hminlen]
      have hw0 := divmod_window hW (s.first + i) s.offset (s.offset + (W - s.offset)) b
        (by omega)
      by_cases hc0 : b / W = s.first + i ∧ s.offset ≤ b % W ∧
          b % W < s.offset + (W - s.offset)
      · rw [if_pos hc0]
        have hrange := hw0.mp hc0
        rw [if_pos (by omega)]
        congr 1
        have hb := Nat.div_add_mod b W
        have hcm : W * (b / W) = b / W * W := Nat.mul_comm _ _
        have hbw : b / W * W = (s.first + i) * W := by rw [hc0.1]
        omega
      · rw [if_neg hc0]
        rw [if_neg ?_]
        rintro ⟨hA, hB⟩
        exact hc0 (hw0.mpr ⟨by omega, by omega⟩)
    · have hu1lt : s.first + i + 1 < store.length := by
        have h1 : (s.first + i + 1) * W < store.length * W := by omega
        exact lt_of_mul_lt_mul_right h1 (Nat.zero_le W)
      have hset : BitSlice.setWord W store s i value =
          (store.set (s.first + i) (replaceBits W (store.getD (s.first + i) 0) s.offset
            (s.offset + (W - s.offset)) (ushl W value s.offset))).set (s.first + i + 1)
            (replaceBits W ((store.set (s.first + i) (replaceBits W (store.getD (s.first + i) 0)
              s.offset (s.offset + (W - s.offset)) (ushl W value s.offset))).getD
                (s.first + i + 1) 0)
              0 s.offset (ushr value (W - s.offset))) := by
        unfold BitSlice.setWord
        rw [hrecipe]
        rw [if_pos (show ((W - s.offset, s.offset) : Nat × Nat).2 ≠ 0 by
          show s.offset ≠ 0
          omega)]
      rw [hset]
      refine ⟨by simp, ?_⟩
      intro b
      rw [set_replace_high hW _ _ (by simpa using hu1lt) _ _ _ (by omega) b]
      rw [set_replace_low hW _ _ hu0lt _ _ _ (by omega) b]
      rw [hminlen]
      have hw1 := divmod_window hW (s.first + i + 1) 0 s.offset b (by omega)
      have hw0 := divmod_window hW (s.first + i) s.offset (s.offset + (W - s.offset)) b
        (by omega)
      have hb := Nat.div_add_mod b W
      by_cases hc1 : b / W = s.first + i + 1 ∧ b % W < s.offset
      · rw [if_pos hc1]
        have hrange := hw1.mp ⟨hc1.1, Nat.zero_le _, hc1.2⟩
        rw [if_pos (by omega)]
        congr 1
        have hcm : W * (b / W) = b / W * W := Nat.mul_comm _ _
        have hbw : b / W * W = (s.first + i + 1) * W := by rw [hc1.1]
        omega
      · rw [if_neg hc1]
        by_cases hc0 : b / W = s.first + i ∧ s.offset ≤ b % W ∧
            b % W < s.offset + (W - s.offset)
        · rw [if_pos hc0]
          have hrange := hw0.mp hc0
          rw [if_pos (by omega)]
          congr 1
          have hcm : W * (b / W) = b / W * W := Nat.mul_comm _ _
          have hbw : b / W * W = (s.first + i) * W := by rw [hc0.1]
          omega
        · rw [if_neg hc0]
          rw [if_neg ?_]
          rintro ⟨hA, hB⟩
          by_cases hbin : b < (s.first + i + 1) * W
          · exact hc0 (hw0.mpr ⟨by omega, by omega⟩)
          · exact hc1 (by
              have := hw1.mpr ⟨by omega, by omega⟩
              exact ⟨this.1, this.2.2⟩)

/-- The zero-tail property read at word level: when the length is not a
multiple of `W`, the final logical word has only zeros at and above
`len % W`. -/
theorem tail_word {W : Nat} {v : BV W} (hInv : Inv v) (hW : 0 < W)
    (hz : v.len % W ≠ 0) :
    ∀ j, v.len % W ≤ j → (v.word (v.words - 1)).testBit j = false := by
  intro j hj
  have hlen : 0 < v.len := by
    rcases Nat.eq_zero_or_pos v.len with h | h
    · rw [h] at hz
      simp at hz
    · exact h
  obtain ⟨hpd, hpm⟩ := pred_div_mod hW hz
  have hwordsEq : v.words = (v.len - 1) / W + 1 := by
    unfold BV.words
    rw [hInv.slen, wordsNeeded_eq hW hlen]
  have hw1 : v.words - 1 = (v.len - 1) / W := by
    rw [hwordsEq, Nat.add_sub_cancel]
  by_cases hjW : j < W
  · have hdiv : (j + (v.len - 1) / W * W) / W = (v.len - 1) / W := by
      rw [Nat.add_mul_div_right _ _ hW, Nat.div_eq_of_lt hjW]
      omega
    have hmod : (j + (v.len - 1) / W * W) % W = j := by
      rw [Nat.add_mul_mod_self_right, Nat.mod_eq_of_lt hjW]
    have hq : (v.len - 1) / W * W + (v.len - 1) % W = v.len - 1 := Nat.div_add_mod' _ _
    have h1 : v.get (j + (v.len - 1) / W * W) = false := hInv.tail _ (by omega)
    rw [get_eq_testBit, hdiv, hmod] at h1
    rw [hw1]
    exact h1
  · refine Nat.testBit_eq_false_of_lt ?_
    calc v.word (v.words - 1) < 2 ^ W := word_lt hInv hW _
      _ ≤ 2 ^ j := Nat.pow_le_pow_right (by omega) (by omega)

end BVProof

/-! ## Claim C5: the zero-tail invariant and slice-write framing -/

/-- C5: every constructor and mutator of the packed store keeps the
zero-tail invariant. `zeros`/`ones` establish `Inv`; `set_word` (for any
in-range word value), `set` and `resize` preserve it and report the
expected lengths; under `Inv`, whenever `len % W != 0` the final logical
word has all bits at positions `>= len % W` clear; and a write through
`BitSlice::set_word` keeps the backing length and never changes a backing
bit outside the slice's accessible window. -/
theorem C5_zero_tail_invariant {W : Nat} (hW : 0 < W) :
    (∀ len, BVProof.Inv (BV.zeros W len) ∧ BVProof.Inv (BV.ones W len)) ∧
    (∀ v : BV W, BVProof.Inv v → ∀ i w, i < v.words → w < 2 ^ W →
      (v.setWord i w).len = v.len ∧ BVProof.Inv (v.setWord i w)) ∧
    (∀ v : BV W, BVProof.Inv v → ∀ i val, i < v.len →
      (v.setBit i val).len = v.len ∧ BVProof.Inv (v.setBit i val)) ∧
    (∀ v : BV W, BVProof.Inv v → ∀ n,
      (v.resize n).len = n ∧ BVProof.Inv (v.resize n)) ∧
    (∀ v : BV W, BVProof.Inv v → v.len % W ≠ 0 →
      ∀ j, v.len % W ≤ j → (v.word (v.words - 1)).testBit j = false) ∧
    (∀ s : BitSlice, s.offset < W → s.swords = wordsNeeded W s.len → 0 < s.len →
      ∀ i store value, i < s.swords →
        s.first * W + s.offset + s.len ≤ store.length * W →
        (BitSlice.setWord W store s i value).length = store.length ∧
        ∀ b, b < s.first * W + s.offset ∨ s.first * W + s.offset + s.len ≤ b →
          bitAt W (BitSlice.setWord W store s i value) b = bitAt W store b) := by
  refine ⟨?_, ?_, ?_, ?_, ?_, ?_⟩
  · intro len
    exact ⟨(BVProof.zeros_inv hW len).1, (BVProof.ones_inv hW len).1⟩
  · intro v hv i w hi hw
    obtain ⟨h1, h2, _⟩ := BVProof.setWord_spec hv hW hi hw
    exact ⟨h1, h2⟩
  · intro v hv i val hi
    obtain ⟨h1, h2, _⟩ := BVProof.setBit_spec hv hW hi val
    exact ⟨h1, h2⟩
  · intro v hv n
    obtain ⟨h1, h2, _⟩ := BVProof.resize_spec hv hW n
    exact ⟨h1, h2⟩
  · intro v hv hz j hj
    exact BVProof.tail_word hv hW hz j hj
  · intro s hoff hsw hlen i store value hi hfit
    obtain ⟨h1, h2⟩ := BVProof.sliceSetWord_spec hW s hoff hsw hlen hi store value hfit
    refine ⟨h1, ?_⟩
    intro b hb
    rw [h2 b, if_neg ?_]
    rintro ⟨hA, hB⟩
    rcases hb with hb | hb
    · omega
    · have hmin : min ((i + 1) * W) s.len ≤ s.len := Nat.min_le_right _ _
      omega

/-- Witness for C5 at `W = 8`: `zeros 8 5` satisfies the invariant. -/
theorem C5_zero_tail_invariant_witness :
    (0 : Nat) < 8 ∧ BVProof.Inv (BV.zeros 8 5) :=
  ⟨by decide, ((C5_zero_tail_invariant (W := 8) (by decide)).1 5).1⟩

/-! ## Hex strings: `BitStore::to_hex_string` (`src/store.rs`) and
`BitVec::from_hex_string` (`src/vec.rs`) -/

/-- A single uppercase hex digit as produced by Rust's `X` format. -/
def hexUpperChar (n : Nat) : Char :=
  if n = 0 then '0' else if n = 1 then '1' else if n = 2 then '2' else if n = 3 then '3'
  else if n = 4 then '4' else if n = 5 then '5' else if n = 6 then '6' else if n = 7 then '7'
  else if n = 8 then '8' else if n = 9 then '9' else if n = 10 then 'A' else if n = 11 then 'B'
  else if n = 12 then 'C' else if n = 13 then 'D' else if n = 14 then 'E' else 'F'

/-- `usize::reverse_bits` on a `W`-bit word: bit `b` of the result is bit
`W - 1 - b` of the input. -/
def reverseBits (W w : Nat) : Nat :=
  (List.range W).foldl (fun acc b => acc + (if w.testBit (W - 1 - b) then 2 ^ b else 0)) 0

/-- One backing word rendered as `W / 4` hex digits, zero padded,
most-significant digit first: the width-`W / 4` uppercase-hex `write`. -/
def wordToHex (W w : Nat) : List Char :=
  (List.range (W / 4)).map (fun j => hexUpperChar (w / 16 ^ (W / 4 - 1 - j) % 16))

/-- `BitStore::to_hex_string` (`src/store.rs`): empty string for the empty
store; otherwise concatenate the bit-reversed words in hex, truncate to
`len.div_ceil(4)` digits (the source's `digits`), and when `len % 4` (the
source's `k`) is non-zero replace the final digit by the number `num`
packed from the trailing `k` elements and append the dot suffix.  The two
final `write` calls each emit a single character because `num < 8` and
`1 << k` is one of 2, 4, 8 (a decimal digit, which the uppercase-hex
digit table renders identically). -/
def toHexString {W : Nat} (v : BV W) : List Char :=
  if v.len = 0 then []
  else if v.len % 4 ≠ 0 then
    ((((List.range v.words).map (fun i => wordToHex W (reverseBits W (v.word i)))).flatten.take
        ((v.len + 3) / 4)).dropLast
      ++ [hexUpperChar ((List.range (v.len % 4)).foldl
          (fun acc i => if v.get (v.len - 1 - i) then acc ||| (1 <<< i) else acc) 0)])
      ++ ['.', hexUpperChar (1 <<< (v.len % 4))]
  else ((List.range v.words).map (fun i => wordToHex W (reverseBits W (v.word i)))).flatten.take
    ((v.len + 3) / 4)

/-- `char::to_digit(base)`: ASCII digits and letters, accepted below the
base. -/
def toDigit (c : Char) (base : Nat) : Option Nat :=
  let d : Option Nat :=
    if '0' ≤ c ∧ c ≤ '9' then some (c.toNat - '0'.toNat)
    else if 'a' ≤ c ∧ c ≤ 'z' then some (c.toNat - 'a'.toNat + 10)
    else if 'A' ≤ c ∧ c ≤ 'Z' then some (c.toNat - 'A'.toNat + 10)
    else none
  match d with
  | some n => if n < base then some n else none
  | none => none

/-- `char::is_ascii_hexdigit`. -/
def isHexDigitChar (c : Char) : Bool :=
  ('0' ≤ c && c ≤ '9') || ('a' ≤ c && c ≤ 'f') || ('A' ≤ c && c ≤ 'F')

/-- The characters `from_hex_string` strips out before parsing:
whitespace, commas and underscores. -/
def isJunkChar (c : Char) : Bool := c.isWhitespace || c == ',' || c == '_'

/-- `BitVec::append_digit(x, base)` (`src/vec.rs`): when `base` is one of
2, 4, 8, 16 and `x` is a digit below `base`, grow by `base.ilog2()` zero
slots and set them from the digit's bits, most significant first. -/
def appendDigit {W : Nat} (v : BV W) (x : Char) (base : Nat) : BV W :=
  if base = 2 ∨ base = 4 ∨ base = 8 ∨ base = 16 then
    match toDigit x base with
    | some digit =>
      (List.range (Nat.log2 base)).foldl
        (fun w i => if digit &&& (1 <<< (Nat.log2 base - 1 - i)) ≠ 0
          then w.setBit (v.len + i) true else w) (v.resize (v.len + Nat.log2 base))
    | none => v
  else v

/-- `BitVec::append_hex_digit(x)` (`src/vec.rs`): the identical loop
specialised to base 16 (4 bits, mask `1 << (3 - i)`). -/
def appendHexDigit {W : Nat} (v : BV W) (x : Char) : BV W := appendDigit v x 16

/-- The `strip_prefix` step of `from_hex_string`: remove a leading hex
marker, trying the lowercase one first like the source does. -/
def strip0x (s : List Char) : List Char :=
  match s with
  | c0 :: c1 :: rest =>
    if c0 = '0' ∧ (c1 = 'x' ∨ c1 = 'X') then rest else c0 :: c1 :: rest
  | _ => s

/-- The suffix detection of `from_hex_string`: `last_digit_base`. -/
def lastBase (s1 : List Char) : Nat :=
  if ['.', '2'].isSuffixOf s1 then 2
  else if ['.', '4'].isSuffixOf s1 then 4
  else if ['.', '8'].isSuffixOf s1 then 8
  else 16

/-- The middle of `from_hex_string`: cut the two suffix characters off
when a dot suffix was detected, then strip junk characters. -/
def cleanedHex (s1 : List Char) : List Char :=
  (if lastBase s1 ≠ 16 then s1.dropLast.dropLast else s1).filter (fun c => !isJunkChar c)

/-- `BitVec::from_hex_string` (`src/vec.rs`): empty input gives the empty
vector; otherwise strip the hex marker, read off and remove the dot
suffix, drop junk, check every remaining character is a hex digit, then
append all characters as hex digits except the last, which is appended in
`last_digit_base`.  The source `unwrap`s the last character and panics
when the cleaned string is empty; that path is `none` here. -/
def fromHexString (W : Nat) (s : List Char) : Option (BV W) :=
  if s = [] then some ⟨0, []⟩
  else if (cleanedHex (strip0x s)).all isHexDigitChar then
    match (cleanedHex (strip0x s)).getLast? with
    | some lastc =>
      some (appendDigit ((cleanedHex (strip0x s)).dropLast.foldl appendHexDigit ⟨0, []⟩)
        lastc (lastBase (strip0x s)))
    | none => none
  else none

namespace BVProof

/-- The hex digit table only produces the sixteen uppercase digit
characters, with the stated parsing behaviour. -/
theorem hexUpperChar_props : ∀ n, n < 16 →
    toDigit (hexUpperChar n) 16 = some n ∧ isHexDigitChar (hexUpperChar n) = true ∧
    isJunkChar (hexUpperChar n) = false ∧ hexUpperChar n ≠ '.' ∧
    hexUpperChar n ≠ 'x' ∧ hexUpperChar n ≠ 'X' := by decide

/-- Digits below a small power-of-two base parse back in that base. -/
theorem toDigit_hexUpperChar_pow : ∀ k, k < 4 → ∀ n, n < 2 ^ k →
    toDigit (hexUpperChar n) (2 ^ k) = some n := by decide

theorem log2_two : Nat.log2 2 = 1 := by
  rw [Nat.log2, if_pos (by omega), Nat.log2]
  norm_num

theorem log2_four : Nat.log2 4 = 2 := by
  rw [Nat.log2, if_pos (by omega), show (4:Nat) / 2 = 2 from rfl, log2_two]

theorem log2_eight : Nat.log2 8 = 3 := by
  rw [Nat.log2, if_pos (by omega), show (8:Nat) / 2 = 4 from rfl, log2_four]

theorem log2_sixteen : Nat.log2 16 = 4 := by
  rw [Nat.log2, if_pos (by omega), show (16:Nat) / 2 = 8 from rfl, log2_eight]

/-- Adding a multiple of `2 ^ n` on top does not change the bits below
`n`. -/
theorem testBit_high_add {n : Nat} (a : Nat) {b : Nat} (hb : b < 2 ^ n) {t : Nat}
    (ht : t < n) : (2 ^ n * a + b).testBit t = b.testBit t := by
  have hmod : (2 ^ n * a + b) % 2 ^ n = b := by
    rw [Nat.mul_add_mod, Nat.mod_eq_of_lt hb]
  have h1 : ((2 ^ n * a + b) % 2 ^ n).testBit t = (2 ^ n * a + b).testBit t := by
    rw [Nat.testBit_mod_two_pow]
    simp [ht]
  rw [← h1, hmod]

/-- The bit-accumulating fold stays below `2 ^ n`. -/
theorem foldl_bits_lt (g : Nat → Bool) (n : Nat) :
    (List.range n).foldl (fun acc b => acc + (if g b then 2 ^ b else 0)) 0 < 2 ^ n := by
  induction n with
  | zero => simp
  | succ n ih =>
    rw [List.range_succ, List.foldl_append]
    simp only [List.foldl_cons, List.foldl_nil]
    have h2 : (if g n then 2 ^ n else 0) ≤ 2 ^ n := by split <;> omega
    have h4 : 2 ^ (n + 1) = 2 * 2 ^ n := by rw [pow_succ]; ring
    omega

/-- Bit `t` of the bit-accumulating fold is the `t`-th summand's flag. -/
theorem foldl_bits_testBit (g : Nat → Bool) (n t : Nat) :
    ((List.range n).foldl (fun acc b => acc + (if g b then 2 ^ b else 0)) 0).testBit t
      = (decide (t < n) && g t) := by
  induction n with
  | zero => simp [Nat.zero_testBit]
  | succ n ih =>
    rw [List.range_succ, List.foldl_append]
    simp only [List.foldl_cons, List.foldl_nil]
    have hS := foldl_bits_lt g n
    rcases Nat.lt_trichotomy t n with h | h | h
    · by_cases hg : g n
      · rw [if_pos hg]
        have hrw : (List.range n).foldl (fun acc b => acc + (if g b then 2 ^ b else 0)) 0 + 2 ^ n
            = 2 ^ n * 1 + (List.range n).foldl (fun acc b => acc + (if g b then 2 ^ b else 0)) 0 := by
          ring
        rw [hrw, testBit_high_add 1 hS h, ih]
        simp [h, Nat.lt_succ_of_lt h]
      · rw [if_neg hg, Nat.add_zero, ih]
        simp [h, Nat.lt_succ_of_lt h]
    · subst h
      by_cases hg : g t
      · rw [if_pos hg]
        have hrw : (List.range t).foldl (fun acc b => acc + (if g b then 2 ^ b else 0)) 0 + 2 ^ t
            = 2 ^ t * 1 + (List.range t).foldl (fun acc b => acc + (if g b then 2 ^ b else 0)) 0 := by
          ring
        rw [hrw, Nat.testBit_mul_two_pow_add_eq, Nat.testBit_eq_false_of_lt hS]
        simp [hg]
      · rw [if_neg hg, Nat.add_zero, Nat.testBit_eq_false_of_lt hS]
        simp [hg]
    · have hlt : (List.range n).foldl (fun acc b => acc + (if g b then 2 ^ b else 0)) 0
          + (if g n then 2 ^ n else 0) < 2 ^ t := by
        have h2 : (if g n then 2 ^ n else 0) ≤ 2 ^ n := by split <;> omega
        have h3 : 2 ^ (n + 1) ≤ 2 ^ t := Nat.pow_le_pow_right (by omega) (by omega)
        have h4 : 2 ^ (n + 1) = 2 * 2 ^ n := by rw [pow_succ]; ring
        omega
      rw [Nat.testBit_eq_false_of_lt hlt]
      have hn : ¬ (t < n + 1) := by omega
      simp [hn]

/-- Bit `t` of `reverse_bits` is bit `W - 1 - t` of the input. -/
theorem reverseBits_testBit (W w t : Nat) :
    (reverseBits W w).testBit t = (decide (t < W) && w.testBit (W - 1 - t)) :=
  foldl_bits_testBit (fun b => w.testBit (W - 1 - b)) W t

/-- Bit `t` of the or-accumulating fold used for the trailing digit. -/
theorem orFold_testBit (g : Nat → Bool) (k t : Nat) :
    ((List.range k).foldl (fun acc i => if g i then acc ||| (1 <<< i) else acc) 0).testBit t
      = (decide (t < k) && g t) := by
  induction k with
  | zero => simp [Nat.zero_testBit]
  | succ k ih =>
    rw [List.range_succ, List.foldl_append]
    simp only [List.foldl_cons, List.foldl_nil]
    by_cases hg : g k
    · rw [if_pos hg, Nat.testBit_lor, ih, Nat.one_shiftLeft, Nat.testBit_two_pow]
      rcases Nat.lt_trichotomy t k with h | h | h
      · rw [decide_eq_true h, decide_eq_true (show t < k + 1 by omega),
          decide_eq_false (show ¬ k = t by omega)]
        simp
      · subst h
        rw [decide_eq_false (show ¬ t < t by omega), decide_eq_true (show t < t + 1 by omega),
          decide_eq_true rfl, hg]
        simp
      · rw [decide_eq_false (show ¬ t < k by omega), decide_eq_false (show ¬ t < k + 1 by omega),
          decide_eq_false (show ¬ k = t by omega)]
        simp
    · rw [if_neg hg, ih]
      rcases Nat.lt_trichotomy t k with h | h | h
      · rw [decide_eq_true h, decide_eq_true (show t < k + 1 by omega)]
      · subst h
        have hgf : g t = false := by
          cases hq : g t
          · rfl
          · exact absurd hq hg
        rw [decide_eq_false (show ¬ t < t by omega), decide_eq_true (show t < t + 1 by omega), hgf]
        simp
      · rw [decide_eq_false (show ¬ t < k by omega), decide_eq_false (show ¬ t < k + 1 by omega)]

/-- `% 16` read off as the four low bits. -/
theorem mod16_bits (y : Nat) :
    y % 16 = (y.testBit 0).toNat + 2 * (y.testBit 1).toNat + 4 * (y.testBit 2).toNat
      + 8 * (y.testBit 3).toNat := by
  have hb : ∀ i, (y.testBit i).toNat = y / 2 ^ i % 2 := by
    intro i
    rw [Nat.testBit_to_div_mod]
    rcases Nat.mod_two_eq_zero_or_one (y / 2 ^ i) with h | h <;> simp [h]
  rw [hb 0, hb 1, hb 2, hb 3]
  simp only [pow_zero, pow_one, show (2:Nat) ^ 2 = 4 from rfl, show (2:Nat) ^ 3 = 8 from rfl]
  omega

/-- The hex digit of four bits of a sequence, most significant first. -/
def nibbleOfBits (f : Nat → Bool) (d : Nat) : Nat :=
  8 * (f (4 * d)).toNat + 4 * (f (4 * d + 1)).toNat + 2 * (f (4 * d + 2)).toNat
    + (f (4 * d + 3)).toNat

theorem nibbleOfBits_lt (f : Nat → Bool) (d : Nat) : nibbleOfBits f d < 16 := by
  unfold nibbleOfBits
  have h0 := Bool.toNat_le (f (4 * d))
  have h1 := Bool.toNat_le (f (4 * d + 1))
  have h2 := Bool.toNat_le (f (4 * d + 2))
  have h3 := Bool.toNat_le (f (4 * d + 3))
  omega

theorem nibbleOfBits_testBit (f : Nat → Bool) (d t : Nat) (ht : t < 4) :
    (nibbleOfBits f d).testBit t = f (4 * d + (3 - t)) := by
  unfold nibbleOfBits
  rcases (by omega : t = 0 ∨ t = 1 ∨ t = 2 ∨ t = 3) with rfl | rfl | rfl | rfl <;>
    simp only [Nat.sub_zero, show (3:Nat) - 1 = 2 from rfl, show (3:Nat) - 2 = 1 from rfl,
      show (3:Nat) - 3 = 0 from rfl, Nat.add_zero] <;>
    cases h0 : f (4 * d) <;> cases h1 : f (4 * d + 1) <;> cases h2 : f (4 * d + 2) <;>
    cases h3 : f (4 * d + 3) <;> decide

/-- The empty vector made by `with_capacity` satisfies the invariant. -/
theorem empty_inv {W : Nat} (hW : 0 < W) : Inv (⟨0, []⟩ : BV W) := by
  refine ⟨?_, ?_, ?_⟩
  · show ([] : List Nat).length = wordsNeeded W 0
    unfold wordsNeeded
    rw [Nat.zero_add, Nat.div_eq_of_lt (by omega)]
    rfl
  · intro w hw
    simp at hw
  · intro k hk
    show ((((⟨0, ([] : List Nat)⟩ : BV W)).word (k / W) &&& 1 <<< (k % W)) != 0) = false
    unfold BV.word
    have h0 : List.getD ([] : List Nat) (k / W) 0 = 0 := by simp
    rw [h0, Nat.zero_and]
    rfl

theorem empty_get {W : Nat} (m : Nat) : (⟨0, []⟩ : BV W).get m = false := by
  show ((((⟨0, ([] : List Nat)⟩ : BV W)).word (m / W) &&& 1 <<< (m % W)) != 0) = false
  unfold BV.word
  have h0 : List.getD ([] : List Nat) (m / W) 0 = 0 := by simp
  rw [h0, Nat.zero_and]
  rfl

/-- Growing with `resize` leaves every bit at or above the old length
clear. -/
theorem resize_get_ge {W : Nat} {v : BV W} (hInv : Inv v) (hW : 0 < W) (newLen : Nat)
    {k : Nat} (hk : v.len ≤ k) : (v.resize newLen).get k = false := by
  obtain ⟨rlen, rInv, rget⟩ := resize_spec hInv hW newLen
  by_cases hkn : newLen ≤ k
  · exact rInv.tail k (by rw [rlen]; exact hkn)
  · have hne : newLen ≠ v.len := by omega
    unfold BV.resize
    rw [if_pos hne, if_neg (by omega)]
    have hlenle : v.store.length ≤ wordsNeeded W newLen := by
      rw [hInv.slen]
      unfold wordsNeeded
      exact Nat.div_le_div_right (by omega)
    have hstore : BV.listResize v.store (wordsNeeded W newLen)
        = v.store ++ List.replicate (wordsNeeded W newLen - v.store.length) 0 := by
      unfold BV.listResize
      rw [List.take_of_length_le hlenle]
    rw [get_eq_testBit]
    show ((BV.listResize v.store (wordsNeeded W newLen)).getD (k / W) 0).testBit (k % W) = false
    rw [hstore]
    by_cases hkw : k / W < v.store.length
    · rw [getD_append_left _ _ _ _ hkw]
      have htail := hInv.tail k hk
      rw [get_eq_testBit] at htail
      exact htail
    · have hzero : (v.store ++ List.replicate (wordsNeeded W newLen - v.store.length) 0).getD
          (k / W) 0 = 0 := by
        by_cases hin : k / W
            < (v.store ++ List.replicate (wordsNeeded W newLen - v.store.length) 0).length
        · rw [List.getD_eq_getElem _ _ hin, List.getElem_append_right (by omega)]
          simp
        · rw [GaussProof.getD_ge _ _ _ (by omega)]
      rw [hzero]
      simp

/-- Bit `z` of backing word `i` is logical bit `i * W + z`. -/
theorem word_testBit_get {W : Nat} (hW : 0 < W) (v : BV W) (i z : Nat) (hz : z < W) :
    (v.word i).testBit z = v.get (i * W + z) := by
  have hdiv : (i * W + z) / W = i := by
    rw [Nat.add_comm, Nat.add_mul_div_right _ _ hW, Nat.div_eq_of_lt hz]
    omega
  have hmod : (i * W + z) % W = z := by
    rw [Nat.add_comm, Nat.add_mul_mod_self_right, Nat.mod_eq_of_lt hz]
  rw [get_eq_testBit, hdiv, hmod]

/-- Two stores satisfying the invariant with the same length and the same
bits are equal, word for word. -/
theorem bv_ext {W : Nat} (hW : 0 < W) {v w : BV W} (hv : Inv v) (hw : Inv w)
    (hlen : v.len = w.len) (hget : ∀ k, v.get k = w.get k) : v = w := by
  have hsl : v.store.length = w.store.length := by rw [hv.slen, hw.slen, hlen]
  have hstore : v.store = w.store := by
    refine List.ext_getElem hsl ?_
    intro i h1 h2
    refine Nat.eq_of_testBit_eq ?_
    intro b
    by_cases hbW : b < W
    · rw [show v.store[i] = v.word i from (GaussProof.getD_lt _ _ _ h1).symm,
        show w.store[i] = w.word i from (GaussProof.getD_lt _ _ _ h2).symm,
        word_testBit_get hW v i b hbW, word_testBit_get hW w i b hbW]
      exact hget (i * W + b)
    · have hv2 : v.store[i].testBit b = false :=
        Nat.testBit_eq_false_of_lt (lt_of_lt_of_le (hv.wlt _ (List.getElem_mem h1))
          (Nat.pow_le_pow_right (by omega) (by omega)))
      have hw2 : w.store[i].testBit b = false :=
        Nat.testBit_eq_false_of_lt (lt_of_lt_of_le (hw.wlt _ (List.getElem_mem h2))
          (Nat.pow_le_pow_right (by omega) (by omega)))
      rw [hv2, hw2]
  calc v = ⟨v.len, v.store⟩ := rfl
    _ = ⟨w.len, w.store⟩ := by rw [hlen, hstore]
    _ = w := rfl

/-- Flattening a rectangular map over ranges reindexes by `div` and
`mod`. -/
theorem flatten_range_map {α : Type*} (g : Nat → Nat → α) (n m : Nat) :
    ((List.range n).map (fun i => (List.range m).map (g i))).flatten
      = (List.range (n * m)).map (fun d => g (d / m) (d % m)) := by
  induction n with
  | zero => simp
  | succ n ih =>
    rw [List.range_succ, List.map_append, List.flatten_append, ih]
    simp only [List.map_cons, List.map_nil, List.flatten_cons, List.flatten_nil,
      List.append_nil]
    rw [Nat.succ_mul, List.range_add, List.map_append, List.map_map]
    congr 1
    refine (List.map_congr_left ?_).symm
    intro x hx
    have hxm : x < m := List.mem_range.mp hx
    have hm : 0 < m := by omega
    have hdiv : (n * m + x) / m = n := by
      rw [Nat.mul_comm, Nat.mul_add_div hm, Nat.div_eq_of_lt hxm, Nat.add_zero]
    have hmod : (n * m + x) % m = x := by
      rw [Nat.mul_comm, Nat.mul_add_mod, Nat.mod_eq_of_lt hxm]
    simp [hdiv, hmod]

/-- The value of hex digit `j` of reversed word `i`: four logical bits,
most significant first. -/
theorem hexDigit_value {W : Nat} (hW : 0 < W) (hW4 : W % 4 = 0) (v : BV W)
    (i j : Nat) (hj : j < W / 4) :
    reverseBits W (v.word i) / 16 ^ (W / 4 - 1 - j) % 16
      = nibbleOfBits v.get (i * (W / 4) + j) := by
  have hWM : W = 4 * (W / 4) := by omega
  have h16 : (16:Nat) ^ (W / 4 - 1 - j) = 2 ^ (4 * (W / 4 - 1 - j)) := by
    rw [show (16:Nat) = 2 ^ 4 by norm_num, ← pow_mul]
  rw [h16, ← Nat.shiftRight_eq_div_pow, mod16_bits]
  have hbit : ∀ t s, t + s = 3 → t < 4 →
      ((reverseBits W (v.word i) >>> (4 * (W / 4 - 1 - j))).testBit t)
        = v.get (4 * (i * (W / 4) + j) + s) := by
    intro t s hts ht
    rw [Nat.testBit_shiftRight, reverseBits_testBit]
    have hlt : 4 * (W / 4 - 1 - j) + t < W := by omega
    rw [decide_eq_true hlt, Bool.true_and]
    have hz : W - 1 - (4 * (W / 4 - 1 - j) + t) = 4 * j + s := by omega
    rw [hz, word_testBit_get hW v i _ (by omega)]
    congr 1
    have hiW : i * W = 4 * (i * (W / 4)) := by
      conv_lhs => rw [hWM]
      ring
    omega
  rw [hbit 0 3 (by omega) (by omega), hbit 1 2 (by omega) (by omega),
    hbit 2 1 (by omega) (by omega), hbit 3 0 (by omega) (by omega)]
  unfold nibbleOfBits
  rw [Nat.add_zero]
  ring

/-- The `&` test in `append_digit` is a `testBit` test. -/
theorem and_shift_ne (digit t : Nat) : (digit &&& (1 <<< t) ≠ 0) ↔ digit.testBit t = true := by
  rw [Nat.one_shiftLeft, Nat.and_two_pow]
  have hp : 0 < 2 ^ t := Nat.pos_pow_of_pos _ (by omega)
  cases h : digit.testBit t <;> simp <;> omega

/-- The bit-setting loop of `append_digit`: positions in the processed
window take the digit's bits (most significant first); everything else is
untouched. -/
theorem setFold_spec {W : Nat} (hW : 0 < W) (digit c L : Nat) :
    ∀ j, j ≤ c → ∀ w : BV W, Inv w → w.len = L + c →
      ((List.range j).foldl (fun w i => if digit &&& (1 <<< (c - 1 - i)) ≠ 0
          then w.setBit (L + i) true else w) w).len = L + c ∧
      Inv ((List.range j).foldl (fun w i => if digit &&& (1 <<< (c - 1 - i)) ≠ 0
          then w.setBit (L + i) true else w) w) ∧
      ∀ m, ((List.range j).foldl (fun w i => if digit &&& (1 <<< (c - 1 - i)) ≠ 0
          then w.setBit (L + i) true else w) w).get m =
        if L ≤ m ∧ m < L + j ∧ digit.testBit (c - 1 - (m - L)) = true then true
        else w.get m := by
  intro j
  induction j with
  | zero =>
    intro hj w hInv hlen
    refine ⟨hlen, hInv, ?_⟩
    intro m
    rw [if_neg (by omega)]
    simp only [List.range_zero, List.foldl_nil]
  | succ j ih =>
    intro hj w hInv hlen
    obtain ⟨ihlen, ihInv, ihget⟩ := ih (by omega) w hInv hlen
    simp only [List.range_succ, List.foldl_append, List.foldl_cons, List.foldl_nil]
    by_cases hbit : digit &&& (1 <<< (c - 1 - j)) ≠ 0
    · rw [if_pos hbit]
      obtain ⟨slen, sInv, sget⟩ := setBit_spec ihInv hW
        (show L + j < ((List.range j).foldl (fun w i =>
          if digit &&& (1 <<< (c - 1 - i)) ≠ 0 then w.setBit (L + i) true else w) w).len by
          rw [ihlen]; omega) true
      refine ⟨by rw [slen, ihlen], sInv, ?_⟩
      intro m
      rw [sget m]
      by_cases hm : m = L + j
      · subst hm
        rw [if_pos rfl]
        have hd : L + j - L = j := by omega
        rw [if_pos ⟨by omega, by omega, by rw [hd]; exact (and_shift_ne digit (c - 1 - j)).mp hbit⟩]
      · rw [if_neg hm, ihget m]
        by_cases hcnd : L ≤ m ∧ m < L + j ∧ digit.testBit (c - 1 - (m - L)) = true
        · rw [if_pos hcnd, if_pos ⟨hcnd.1, by omega, hcnd.2.2⟩]
        · rw [if_neg hcnd, if_neg ?_]
          rintro ⟨h1, h2, h3⟩
          exact hcnd ⟨h1, by omega, h3⟩
    · rw [if_neg hbit]
      refine ⟨ihlen, ihInv, ?_⟩
      intro m
      rw [ihget m]
      have hbf : digit.testBit (c - 1 - j) = false := by
        cases hq : digit.testBit (c - 1 - j)
        · rfl
        · exact absurd ((and_shift_ne digit (c - 1 - j)).mpr hq) hbit
      by_cases hcnd : L ≤ m ∧ m < L + j ∧ digit.testBit (c - 1 - (m - L)) = true
      · rw [if_pos hcnd, if_pos ⟨hcnd.1, by omega, hcnd.2.2⟩]
      · rw [if_neg hcnd, if_neg ?_]
        rintro ⟨h1, h2, h3⟩
        by_cases hmj : m = L + j
        · have hd : m - L = j := by omega
          rw [hd] at h3
          rw [h3] at hbf
          exact absurd hbf (by simp)
        · exact hcnd ⟨h1, by omega, h3⟩

/-- Full behaviour of `append_digit` on a valid digit: the length grows by
the digit width, the invariant is kept, and the new window holds the
digit's bits, most significant first. -/
theorem appendDigit_spec {W : Nat} (hW : 0 < W) {v : BV W} (hInv : Inv v)
    (x : Char) {base digit : Nat}
    (hbase : base = 2 ∨ base = 4 ∨ base = 8 ∨ base = 16)
    (hx : toDigit x base = some digit) :
    (appendDigit v x base).len = v.len + Nat.log2 base ∧ Inv (appendDigit v x base) ∧
    ∀ m, (appendDigit v x base).get m =
      if v.len ≤ m ∧ m < v.len + Nat.log2 base ∧
          digit.testBit (Nat.log2 base - 1 - (m - v.len)) = true
      then true
      else if m < v.len then v.get m else false := by
  have happ : appendDigit v x base
      = (List.range (Nat.log2 base)).foldl
        (fun w i => if digit &&& (1 <<< (Nat.log2 base - 1 - i)) ≠ 0
          then w.setBit (v.len + i) true else w) (v.resize (v.len + Nat.log2 base)) := by
    unfold appendDigit
    rw [if_pos hbase, hx]
  rw [happ]
  obtain ⟨rlen, rInv, rget⟩ := resize_spec hInv hW (v.len + Nat.log2 base)
  obtain ⟨flen, fInv, fget⟩ := setFold_spec hW digit (Nat.log2 base) v.len (Nat.log2 base)
    (Nat.le_refl _) _ rInv rlen
  refine ⟨flen, fInv, ?_⟩
  intro m
  rw [fget m]
  by_cases h1 : v.len ≤ m ∧ m < v.len + Nat.log2 base ∧
      digit.testBit (Nat.log2 base - 1 - (m - v.len)) = true
  · rw [if_pos h1, if_pos h1]
  · rw [if_neg h1, if_neg h1]
    by_cases hm : m < v.len
    · rw [rget m (by omega), if_pos hm]
    · rw [resize_get_ge hInv hW _ (by omega), if_neg hm]

/-- Folding `append_hex_digit` over `D` hex digits builds the `4 * D`-bit
vector whose bits read the digits most significant first. -/
theorem parseHexFold {W : Nat} (hW : 0 < W) (nib : Nat → Nat) (hnib : ∀ d, nib d < 16) :
    ∀ D : Nat,
      (((List.range D).map (fun d => hexUpperChar (nib d))).foldl appendHexDigit
          (⟨0, []⟩ : BV W)).len = 4 * D ∧
      Inv (((List.range D).map (fun d => hexUpperChar (nib d))).foldl appendHexDigit
          (⟨0, []⟩ : BV W)) ∧
      ∀ m, (((List.range D).map (fun d => hexUpperChar (nib d))).foldl appendHexDigit
          (⟨0, []⟩ : BV W)).get m =
        if m < 4 * D then (nib (m / 4)).testBit (3 - m % 4) else false := by
  intro D
  induction D with
  | zero =>
    refine ⟨rfl, empty_inv hW, ?_⟩
    intro m
    rw [if_neg (by omega)]
    exact empty_get m
  | succ D ih =>
    obtain ⟨ihlen, ihInv, ihget⟩ := ih
    simp only [List.range_succ, List.map_append, List.foldl_append, List.map_cons,
      List.map_nil, List.foldl_cons, List.foldl_nil]
    have hunf : appendHexDigit (((List.range D).map (fun d => hexUpperChar (nib d))).foldl
        appendHexDigit (⟨0, []⟩ : BV W)) (hexUpperChar (nib D))
        = appendDigit (((List.range D).map (fun d => hexUpperChar (nib d))).foldl
          appendHexDigit (⟨0, []⟩ : BV W)) (hexUpperChar (nib D)) 16 := rfl
    rw [hunf]
    have hx : toDigit (hexUpperChar (nib D)) 16 = some (nib D) :=
      (hexUpperChar_props _ (hnib D)).1
    obtain ⟨alen, aInv, aget⟩ := appendDigit_spec hW ihInv (hexUpperChar (nib D))
      (Or.inr (Or.inr (Or.inr rfl))) hx
    rw [log2_sixteen] at alen aget
    rw [ihlen] at alen aget
    refine ⟨by rw [alen]; omega, aInv, ?_⟩
    intro m
    rw [aget m]
    by_cases hwin : 4 * D ≤ m ∧ m < 4 * D + 4
    · have hdiv : m / 4 = D := by omega
      have hmod : 3 - m % 4 = 4 - 1 - (m - 4 * D) := by omega
      by_cases hb : (nib D).testBit (4 - 1 - (m - 4 * D)) = true
      · rw [if_pos ⟨hwin.1, hwin.2, hb⟩, if_pos (by omega), hdiv, hmod, hb]
      · have hbf : (nib D).testBit (4 - 1 - (m - 4 * D)) = false := by
          cases hq : (nib D).testBit (4 - 1 - (m - 4 * D))
          · rfl
          · exact absurd hq hb
        rw [if_neg (fun hc => hb hc.2.2), if_neg (by omega), if_pos (by omega), hdiv, hmod, hbf]
    · rw [if_neg (fun hc => hwin ⟨hc.1, hc.2.1⟩)]
      by_cases hm4 : m < 4 * D
      · rw [if_pos hm4, ihget m, if_pos hm4, if_pos (by omega)]
      · rw [if_neg hm4, if_neg (by omega)]

end BVProof

/-! ## Claim C3: the Gauss solver's solutions and None conditions -/

/-- C3 (amended): for a square system, every `Some` vector returned by
`x()` (modelled by `xRand` with the random draw passed in) or by `xi(i)`
satisfies `A * x = b`; `x()` returns `None` exactly when the system is
inconsistent, but `xi(i)` returns `None` when the system is inconsistent
OR when `i > solution_count()` — so the claim's "None exactly when
inconsistent" is wrong for `xi`, see the counterexample. -/
theorem C3_solver_solutions_amended {R : Nat} (A : Mat) (b : List Bool)
    (hA : GaussProof.Shape R R A) (hb : b.length = R) (hR : 0 < R) :
    (∀ rand x, rand.length = R →
      GaussState.xRand (GaussState.gaussNew A b) rand = some x → Mat.matVec A x = b) ∧
    (∀ i x, GaussState.xi (GaussState.gaussNew A b) i = some x → Mat.matVec A x = b) ∧
    (∀ rand, GaussState.xRand (GaussState.gaussNew A b) rand = none ↔
      (GaussState.gaussNew A b).isConsistent = false) ∧
    (∀ i, GaussState.xi (GaussState.gaussNew A b) i = none ↔
      ((GaussState.gaussNew A b).isConsistent = false ∨
        (GaussState.gaussNew A b).solutionCount < i)) := by
  refine ⟨?_, ?_, ?_, ?_⟩
  · intro rand x hrand hsome
    unfold GaussState.xRand at hsome
    cases hc : (GaussState.gaussNew A b).isConsistent with
    | false =>
      rw [hc] at hsome
      simp at hsome
    | true =>
      rw [hc] at hsome
      simp only [Bool.not_true, Bool.false_eq_true, if_false, Option.some.injEq] at hsome
      rw [← hsome]
      exact GaussProof.backSubstitute_correct (GaussProof.gaussNew_ok hA hb hR hc) rand hrand
  · intro i x hsome
    unfold GaussState.xi at hsome
    cases hc : (GaussState.gaussNew A b).isConsistent with
    | false =>
      rw [hc] at hsome
      simp at hsome
    | true =>
      rw [hc] at hsome
      simp only [Bool.not_true, Bool.false_eq_true, if_false] at hsome
      by_cases hi : i > (GaussState.gaussNew A b).solutionCount
      · rw [if_pos hi] at hsome
        cases hsome
      · rw [if_neg hi] at hsome
        have hx := Option.some.inj hsome
        rw [← hx]
        have hOK := GaussProof.gaussNew_ok hA hb hR hc
        exact GaussProof.backSubstitute_correct hOK _
          (by rw [GaussProof.fill_length, List.length_replicate]; exact hOK.lenB)
  · intro rand
    unfold GaussState.xRand
    cases hc : (GaussState.gaussNew A b).isConsistent with
    | false => simp [hc]
    | true => simp [hc]
  · intro i
    unfold GaussState.xi
    cases hc : (GaussState.gaussNew A b).isConsistent with
    | false => simp [hc]
    | true =>
      by_cases hi : i > (GaussState.gaussNew A b).solutionCount
      · simp [hc, hi]
      · simp [hc, hi]

/-- Witness for C3: on the 1×1 system `[ [1] ] * x = [1]`, `xi 0` returns
`Some [1]`, and the amended theorem turns that into `A * [1] = [1]`. -/
theorem C3_solver_solutions_amended_witness : Mat.matVec [[true]] [true] = [true] :=
  (C3_solver_solutions_amended (R := 1) [[true]] [true]
      ⟨rfl, fun row h => by rw [List.mem_singleton.mp h]; rfl⟩ rfl (by decide)).2.1 0 [true]
    (by decide)

/-! ## Claim C10: the indexed-solution bound of `xi` -/

/-- The solution count set by `BitGauss::new` is either zero or the capped
power of two `2^min(free, 63)`. -/
theorem gaussNew_count_cases (A : Mat) (b : List Bool) :
    (GaussState.gaussNew A b).solutionCount = 0 ∨
    (GaussState.gaussNew A b).solutionCount =
      1 <<< (min (GaussState.gaussNew A b).free.length (usizeBits - 1)) := by
  have h : (GaussState.gaussNew A b).solutionCount =
      if (List.range' (GaussState.gaussNew A b).rank
          ((GaussState.gaussNew A b).Aref.length - (GaussState.gaussNew A b).rank)).all
          (fun i => !((GaussState.gaussNew A b).bref.getD i false))
      then 1 <<< (min (GaussState.gaussNew A b).free.length (usizeBits - 1)) else 0 := rfl
  rw [h]
  split
  · right
    rfl
  · left
    rfl

/-- C10 (amended): `xi(i)` is `Some` exactly when the system is consistent
and `i ≤ solution_count()` (the boundary index is accepted); on a
consistent system `solution_count()` is `2^min(free, 63)`; and when the
free-variable count is not capped (`free ≤ 63`) the boundary solution
`xi(solution_count())` coincides with `xi(0)` — a duplicate. The
duplicate part fails for a capped count, see the counterexample. -/
theorem C10_xi_boundary_amended (A : Mat) (b : List Bool) :
    (∀ i, (GaussState.xi (GaussState.gaussNew A b) i).isSome = true ↔
      ((GaussState.gaussNew A b).isConsistent = true ∧
        i ≤ (GaussState.gaussNew A b).solutionCount)) ∧
    ((GaussState.gaussNew A b).isConsistent = true →
      (GaussState.gaussNew A b).solutionCount =
        2 ^ (min (GaussState.gaussNew A b).free.length (usizeBits - 1))) ∧
    ((GaussState.gaussNew A b).isConsistent = true →
      (GaussState.gaussNew A b).free.length ≤ usizeBits - 1 →
      GaussState.xi (GaussState.gaussNew A b) ((GaussState.gaussNew A b).solutionCount) =
        GaussState.xi (GaussState.gaussNew A b) 0) := by
  have hcnt : (GaussState.gaussNew A b).isConsistent = true →
      (GaussState.gaussNew A b).solutionCount =
        2 ^ (min (GaussState.gaussNew A b).free.length (usizeBits - 1)) := by
    intro hc
    rcases gaussNew_count_cases A b with h0 | h1
    · unfold GaussState.isConsistent at hc
      have := of_decide_eq_true hc
      omega
    · rw [h1, Nat.one_shiftLeft]
  refine ⟨?_, hcnt, ?_⟩
  · intro i
    unfold GaussState.xi
    cases hc : (GaussState.gaussNew A b).isConsistent with
    | false => simp [hc]
    | true =>
      by_cases hi : i > (GaussState.gaussNew A b).solutionCount
      · simp only [Bool.not_true, Bool.false_eq_true, if_false, if_pos hi]
        simp only [Option.isSome_none, Bool.false_eq_true, false_iff]
        intro hcontra
        omega
      · simp only [Bool.not_true, Bool.false_eq_true, if_false, if_neg hi]
        simp only [Option.isSome_some, true_iff]
        exact ⟨trivial, by omega⟩
  · intro hc hcap
    have hcount := hcnt hc
    rw [Nat.min_eq_left hcap] at hcount
    unfold GaussState.xi
    rw [hc]
    simp only [Bool.not_true, Bool.false_eq_true, if_false]
    rw [if_neg (lt_irrefl _), if_neg (Nat.not_lt_zero _)]
    refine congrArg _ (congrArg _ ?_)
    rw [hcount]
    apply GaussProof.fill_fst_congr
    intro f hf
    have h2L : (2 : Nat) ^ (GaussState.gaussNew A b).free.length >>> f =
        2 ^ ((GaussState.gaussNew A b).free.length - f) := by
      rw [Nat.shiftRight_eq_div_pow]
      exact Nat.pow_div (by omega) (by omega)
    rw [h2L, Nat.zero_shiftRight, Nat.zero_and, Nat.and_one_is_mod]
    have hLf : (GaussState.gaussNew A b).free.length - f =
        ((GaussState.gaussNew A b).free.length - f - 1) + 1 := by omega
    rw [hLf, pow_succ, Nat.mul_mod_left]

/-- Witness for C10: on the 1×1 system `x = 1` the boundary index is
`solution_count() = 1`, `xi 1` is accepted, and it duplicates `xi 0`. -/
theorem C10_xi_boundary_amended_witness :
    GaussState.xi (GaussState.gaussNew [[true]] [true]) 1 =
      GaussState.xi (GaussState.gaussNew [[true]] [true]) 0 ∧
    (GaussState.xi (GaussState.gaussNew [[true]] [true]) 1).isSome = true := by
  have h := C10_xi_boundary_amended [[true]] [true]
  refine ⟨?_, ?_⟩
  · have h3 := h.2.2 (by decide) (by decide)
    have hcv : (GaussState.gaussNew [[true]] [true]).solutionCount = 1 := by decide
    rw [hcv] at h3
    exact h3
  · exact (h.1 1).mpr ⟨by decide, by decide⟩

set_option maxRecDepth 4000 in
/-- C10 counterexample: on the all-zero 64×64 system every vector is a
solution, there are 64 free variables, and `solution_count()` is capped at
`2^63`. The boundary call `xi(2^63)` is accepted but reads bit 63 of the
index, so it sets free slot 63 and returns a vector no lower-indexed call
can return: the boundary solution is NOT a duplicate of a lower-indexed
one. -/
theorem C10_boundary_not_duplicate_counterexample :
    (GaussState.gaussNew (List.replicate 64 (List.replicate 64 false))
      (List.replicate 64 false)).isConsistent = true ∧
    (GaussState.gaussNew (List.replicate 64 (List.replicate 64 false))
      (List.replicate 64 false)).solutionCount = 2 ^ 63 ∧
    GaussState.xi (GaussState.gaussNew (List.replicate 64 (List.replicate 64 false))
      (List.replicate 64 false)) (2 ^ 63) =
        some (List.replicate 63 false ++ [true]) ∧
    (List.replicate 63 false ++ [true]).getD 63 false = true ∧
    (∀ i' x, i' < 2 ^ 63 →
      GaussState.xi (GaussState.gaussNew (List.replicate 64 (List.replicate 64 false))
        (List.replicate 64 false)) i' = some x → x.getD 63 false = false) := by
  have hs : GaussState.gaussNew (List.replicate 64 (List.replicate 64 false))
      (List.replicate 64 false) =
      ⟨List.replicate 64 (List.replicate 64 false), List.replicate 64 false, 0,
        List.range 64, 2 ^ 63⟩ := by decide
  refine ⟨by rw [hs]; decide, by rw [hs], by rw [hs]; decide, by decide, ?_⟩
  intro i' x hi' hx
  rw [hs] at hx
  unfold GaussState.xi at hx
  have hcons : (⟨List.replicate 64 (List.replicate 64 false), List.replicate 64 false, 0,
      List.range 64, 2 ^ 63⟩ : GaussState).isConsistent = true := by decide
  rw [hcons] at hx
  simp only [Bool.not_true, Bool.false_eq_true, if_false] at hx
  rw [if_neg (by show ¬ i' > 2 ^ 63; omega)] at hx
  have hx' := Option.some.inj hx
  have hbs : ∀ y, GaussState.backSubstitute (⟨List.replicate 64 (List.replicate 64 false),
      List.replicate 64 false, 0, List.range 64, 2 ^ 63⟩ : GaussState) y = y := fun y => rfl
  rw [hbs] at hx'
  rw [← hx']
  simp only [List.length_range, List.length_replicate]
  rw [GaussProof.fill_range_getD 64 64 le_rfl (List.replicate 64 false) i'
    (by simp) 63, if_pos (by omega)]
  have hdiv : i' >>> 63 = 0 := by
    rw [Nat.shiftRight_eq_div_pow]
    exact Nat.div_eq_of_lt hi'
  rw [hdiv]
  rfl

/-- C3 counterexample: on the consistent 1×1 system `x = 1` the call
`xi(2)` returns `None` even though the system is consistent
(`solution_count()` is 1 and 2 > 1), refuting "x() / xi(i) return None
exactly when the system is inconsistent". -/
theorem C3_xi_none_consistent_counterexample :
    (GaussState.gaussNew [[true]] [true]).isConsistent = true ∧
    GaussState.xi (GaussState.gaussNew [[true]] [true]) 2 = none := by decide

end GF2
